import Mathlib

/-!
# A transactional linked list (`List.hh`): shallow embedding and verification

The linked structure reachable from `head_` is embedded as the Lean list of its
nodes in traversal order; a node carries the address it was allocated at (its
pointer identity), its value and the invalid bit of its tagged next pointer.
The template parameters `Duplicates`, `Sorted`, `Opacity` are the fields of
`Config`, the comparator is a function `T → T → Int`.  The structure lock
`listversion_` is taken and released inside every structural operation and
carries no sequential content, so it is not part of the state.  `listsize_`
is a C++ `long`; signed overflow is undefined there, so it is an unbounded
`Int` here, and the conversion to `size_t` made by `size()` is explicit.
-/

namespace STOList

/-! ## Data model -/

/-- The template parameters of `List` other than `T` and `Compare`. -/
structure Config where
  Duplicates : Bool
  Sorted : Bool
  Opacity : Bool
deriving DecidableEq, Repr

/-- The default template arguments: `Duplicates = false`, `Sorted = true`,
`Opacity = false`. -/
def Config.default : Config := { Duplicates := false, Sorted := true, Opacity := false }

/-- A `list_node`: `addr` is the address of the node (pointer identity),
`invalid` is `invalid_bit` of the flags of `next`; the pointer part of `next`
is the position of the node in the list. -/
structure list_node (T : Type) where
  addr : Nat
  val : T
  invalid : Bool
deriving DecidableEq, Repr

/-- The body of `list_node::is_valid`. -/
def list_node.is_valid {T : Type} (n : list_node T) : Bool := !n.invalid

/-- The body of `list_node::mark_valid`. -/
def list_node.mark_valid {T : Type} (n : list_node T) : list_node T := { n with invalid := false }

/-- The body of `list_node::mark_invalid`. -/
def list_node.mark_invalid {T : Type} (n : list_node T) : list_node T := { n with invalid := true }

/-- The data members of `List`: `head_` (as the node sequence), `listsize_`,
`sizeversion_`, and the allocator state `heap_next`, the address the next
`new list_node` returns (addresses are never reused while a transaction runs,
since freed nodes go through deferred reclamation). -/
structure ListState (T : Type) where
  head_ : List (list_node T)
  listsize_ : Int
  sizeversion_ : Nat
  heap_next : Nat
deriving DecidableEq, Repr

/-- The constructor `List(Compare comp)`: an empty list. -/
def ListState.empty (T : Type) : ListState T :=
  { head_ := [], listsize_ := 0, sizeversion_ := 0, heap_next := 2 }

/-- Embeds `DefaultCompare<T>::operator()`. -/
def DefaultCompare {T : Type} [LT T] [DecidableRel (fun (a b : T) => a < b)] (t1 t2 : T) : Int :=
  if t1 < t2 then -1 else if t2 < t1 then 1 else 0

/-! ## Non-transactional surface -/

/-- Embeds `List::_find`: the loop over `cur`, returning the node or `none` for `NULL`. -/
def _find {T : Type} (cfg : Config) (comp : T → T → Int) (elem : T) :
    List (list_node T) → Option (list_node T)
  | [] => none
  | cur :: rest =>
    let c := comp cur.val elem
    if c = 0 then some cur
    else if cfg.Sorted && decide (c > 0) then none
    else _find cfg comp elem rest

/-- Embeds `T* List::find(const T& elem)`: the value of the node `_find` returns. -/
def find {T : Type} (cfg : Config) (comp : T → T → Int) (elem : T) (l : ListState T) : Option T :=
  match _find cfg comp elem l.head_ with
  | some ret => some ret.val
  | none => none

/-- The `while (cur != NULL)` loop of `List::_insert` together with the splice
that follows it: `Sum.inl cur` when the loop returns the existing node `cur`,
`Sum.inr l'` with the node sequence after `ret` has been linked in between
`prev` and `cur`. -/
def insertLoop {T : Type} (cfg : Config) (comp : T → T → Int) (ret : list_node T) :
    List (list_node T) → Sum (list_node T) (List (list_node T))
  | [] => Sum.inr [ret]
  | cur :: rest =>
    let c := comp cur.val ret.val
    if !cfg.Duplicates && decide (c = 0) then Sum.inl cur
    else if cfg.Sorted && decide (c ≥ 0) then Sum.inr (ret :: cur :: rest)
    else
      match insertLoop cfg comp ret rest with
      | Sum.inl found => Sum.inl found
      | Sum.inr rest' => Sum.inr (cur :: rest')

/-- Embeds `List::_insert<Txnal>(elem, &inserted)`: returns the node, `*inserted`, and
the list afterwards. -/
def _insert {T : Type} (cfg : Config) (comp : T → T → Int) (Txnal : Bool) (elem : T)
    (l : ListState T) : list_node T × Bool × ListState T :=
  if !cfg.Sorted && !cfg.Duplicates then
    let new_head : list_node T := { addr := l.heap_next, val := elem, invalid := Txnal }
    (new_head, true, { l with head_ := new_head :: l.head_, heap_next := l.heap_next + 1 })
  else
    let ret : list_node T := { addr := l.heap_next, val := elem, invalid := Txnal }
    match insertLoop cfg comp ret l.head_ with
    | Sum.inl cur => (cur, false, l)
    | Sum.inr nodes =>
      (ret, true,
        { l with head_ := nodes,
                 listsize_ := if !Txnal then l.listsize_ + 1 else l.listsize_,
                 heap_next := l.heap_next + 1 })

/-- Embeds `bool List::insert(const T& elem)`. -/
def insert {T : Type} (cfg : Config) (comp : T → T → Int) (elem : T) (l : ListState T) :
    Bool × ListState T :=
  let r := _insert cfg comp false elem l
  (r.2.1, r.2.2)

/-- The loop of `List::_remove`: `none` when no node satisfies `found_f`,
otherwise the node sequence with the first such node unlinked. -/
def removeLoop {T : Type} (found_f : list_node T → Bool) :
    List (list_node T) → Option (List (list_node T))
  | [] => none
  | cur :: rest =>
    if found_f cur then some rest
    else
      match removeLoop found_f rest with
      | some rest' => some (cur :: rest')
      | none => none

/-- Embeds `List::_remove<Txnal>(found_f, locked)`; `locked` only decides whether the
structure lock is taken, so it is not a parameter. -/
def _remove {T : Type} (Txnal : Bool) (found_f : list_node T → Bool) (l : ListState T) :
    Bool × ListState T :=
  match removeLoop found_f l.head_ with
  | some nodes =>
    (true, { l with head_ := nodes,
                    listsize_ := if !Txnal then l.listsize_ - 1 else l.listsize_ })
  | none => (false, l)

/-- Embeds `List::remove<Txnal>(const T& elem, locked)`. -/
def remove {T : Type} (comp : T → T → Int) (Txnal : Bool) (elem : T) (l : ListState T) :
    Bool × ListState T :=
  _remove Txnal (fun n2 => decide (comp n2.val elem = 0)) l

/-- Embeds `List::remove<Txnal>(list_node *n, locked)`: the node is given by its address. -/
def removeNode {T : Type} (Txnal : Bool) (n : Nat) (l : ListState T) : Bool × ListState T :=
  _remove Txnal (fun n2 => decide (n = n2.addr)) l

/-- The loop of `List::clear` run for at most `fuel` iterations. -/
def clearLoop {T : Type} : Nat → ListState T → ListState T
  | 0, l => l
  | fuel + 1, l =>
    match l.head_ with
    | [] => l
    | item :: _ => clearLoop fuel (removeNode false item.addr l).2

/-- Embeds `List::clear`: every iteration unlinks the head, so as many iterations as
there are nodes empty the list. -/
def clear {T : Type} (l : ListState T) : ListState T := clearLoop l.head_.length l

/-! ## The transaction runtime as the list uses it -/

/-- The key of a transaction item: `list_key` (`nullptr`), `size_key()`
(`(list_node*)1`), or the address of a node. -/
inductive Key where
  | list_key
  | size_key
  | node (addr : Nat)
deriving DecidableEq, Repr

/-- The three user flags of an item: `insert_bit = user0_bit`,
`delete_bit = user0_bit<<1`, `doupdate_bit = user0_bit<<2`, one boolean per bit. -/
structure Flags where
  ins : Bool
  del : Bool
  upd : Bool
deriving DecidableEq, Repr

/-- No user flag set. -/
def Flags.none : Flags := ⟨false, false, false⟩
/-- The constant `insert_bit`. -/
def insert_bit : Flags := ⟨true, false, false⟩
/-- The constant `delete_bit`. -/
def delete_bit : Flags := ⟨false, true, false⟩
/-- The constant `doupdate_bit`. -/
def doupdate_bit : Flags := ⟨false, false, true⟩

/-- The test `flags & bit` read as a boolean. -/
def Flags.test (f bit : Flags) : Bool :=
  (f.ins && bit.ins) || (f.del && bit.del) || (f.upd && bit.upd)

/-- Modelled from the spec: `TransItem` of the STM runtime (`Transaction.hh` is not
part of the sources).  A per-transaction record keyed by the node: user flags
{insert, delete, doupdate}, read and write marks, the stashed replacement value
(`write_value`; `none` stands for the integer `0` that `add_write(0)` stores),
the recorded read-witness value (`read_value`, the observed size-version), and
the typed stash payload (the signed size delta of the size-key item). -/
structure TransItem (T : Type) where
  key : Key
  read : Bool
  write : Bool
  flags : Flags
  write_value : Option T
  read_value : Option Nat
  stash : Option Int
deriving DecidableEq, Repr

/-- Modelled from the spec: the item `item(owner, key)` creates when the
transaction has none for the key: no flag, no mark, no payload. -/
def TransItem.fresh {T : Type} (k : Key) : TransItem T :=
  { key := k, read := false, write := false, flags := Flags.none,
    write_value := none, read_value := none, stash := none }

/-- Modelled from the spec: `has_write` of an item handle. -/
def TransItem.has_write {T : Type} (it : TransItem T) : Bool := it.write
/-- Modelled from the spec: `has_read` of an item handle. -/
def TransItem.has_read {T : Type} (it : TransItem T) : Bool := it.read
/-- Modelled from the spec: arm a read (`add_read(0)`). -/
def TransItem.add_read {T : Type} (it : TransItem T) : TransItem T := { it with read := true }
/-- Modelled from the spec: arm a write and stash the value (`add_write(v)`). -/
def TransItem.add_write {T : Type} (v : Option T) (it : TransItem T) : TransItem T :=
  { it with write := true, write_value := v }
/-- Modelled from the spec: `clear_write()`, the write mark and its value are dropped. -/
def TransItem.clear_write {T : Type} (it : TransItem T) : TransItem T :=
  { it with write := false, write_value := none }
/-- Modelled from the spec: `remove_write()`. -/
def TransItem.remove_write {T : Type} (it : TransItem T) : TransItem T :=
  { it with write := false, write_value := none }
/-- Modelled from the spec: `remove_read()`. -/
def TransItem.remove_read {T : Type} (it : TransItem T) : TransItem T :=
  { it with read := false, read_value := none }
/-- Modelled from the spec: `assign_flags(f)`, the user flags become exactly `f`;
read and write marks are kept. -/
def TransItem.assign_flags {T : Type} (f : Flags) (it : TransItem T) : TransItem T :=
  { it with flags := f }
/-- Modelled from the spec: `add_flags(f)`, set user flags. -/
def TransItem.add_flags {T : Type} (f : Flags) (it : TransItem T) : TransItem T :=
  { it with flags := ⟨it.flags.ins || f.ins, it.flags.del || f.del, it.flags.upd || f.upd⟩ }
/-- Modelled from the spec: `clear_flags(f)`, clear user flags. -/
def TransItem.clear_flags {T : Type} (f : Flags) (it : TransItem T) : TransItem T :=
  { it with flags := ⟨it.flags.ins && !f.ins, it.flags.del && !f.del, it.flags.upd && !f.upd⟩ }
/-- Modelled from the spec: `observe(v)`, register an observation of the version
`v` on the item: the read mark is armed and the first observed value recorded. -/
def TransItem.observe {T : Type} (v : Nat) (it : TransItem T) : TransItem T :=
  if it.read then it else { it with read := true, read_value := some v }
/-- Modelled from the spec: `stash_value<int>(default)`. -/
def TransItem.stash_value {T : Type} (it : TransItem T) (dflt : Int) : Int :=
  match it.stash with
  | some v => v
  | none => dflt
/-- Modelled from the spec: `set_stash<int>(v)`. -/
def TransItem.set_stash {T : Type} (v : Int) (it : TransItem T) : TransItem T :=
  { it with stash := some v }

/-- Modelled from the spec: `check_item(owner, key)`, lookup without creation in
the item map of the transaction. -/
def check_item {T : Type} (k : Key) : List (TransItem T) → Option (TransItem T)
  | [] => none
  | it :: its => if it.key = k then some it else check_item k its

/-- The item `t_item(node)` (`Sto::item(this, node)`) hands out: the item of the
key, a fresh one when the transaction has none. -/
def t_item {T : Type} (k : Key) (items : List (TransItem T)) : TransItem T :=
  match check_item k items with
  | some it => it
  | none => TransItem.fresh k

/-- Modelled from the spec: the item map after `item(owner, key)` followed by
the update `f` through the handle: get-or-create, then modify in place. -/
def updItem {T : Type} (k : Key) (f : TransItem T → TransItem T) :
    List (TransItem T) → List (TransItem T)
  | [] => [f (TransItem.fresh k)]
  | it :: its => if it.key = k then f it :: its else it :: updItem k f its

/-- The list together with the item map of the one running transaction. -/
structure TxState (T : Type) where
  l : ListState T
  items : List (TransItem T)
deriving DecidableEq, Repr

/-- A transaction that starts on the list `l`: no item yet. -/
def TxState.start {T : Type} (l : ListState T) : TxState T := { l := l, items := [] }

/-- Embeds `List::has_delete`. -/
def has_delete {T : Type} (item : TransItem T) : Bool := item.flags.test delete_bit

/-- Embeds `List::has_doupdate`. -/
def has_doupdate {T : Type} (item : TransItem T) : Bool := item.flags.test doupdate_bit

/-- Embeds `List::has_insert`. -/
def has_insert {T : Type} (item : TransItem T) : Bool :=
  item.has_write && !has_delete item && !has_doupdate item

/-- Embeds `List::validityCheck`. -/
def validityCheck {T : Type} (n : list_node T) (item : TransItem T) : Bool :=
  n.is_valid || item.flags.test insert_bit

/-- Embeds `List::verify_list(readv)`. -/
def verify_list {T : Type} (readv : Nat) (s : TxState T) : TxState T :=
  { s with items := updItem Key.list_key (TransItem.observe readv) s.items }

/-- Embeds `List::add_lock_list_item`. -/
def add_lock_list_item {T : Type} (s : TxState T) : TxState T :=
  { s with items := updItem Key.list_key (TransItem.add_write none) s.items }

/-- The value of an integer as an `int` (32 bits, two's complement): the
representative of `x` modulo 2^32 in the range from -2^31 to 2^31 - 1.  An `int`
sum that leaves the range is taken as the wrapped value the compiled code
computes. -/
def toInt32 (x : Int) : Int := (x + 2147483648) % 4294967296 - 2147483648

/-- Embeds `List::add_trans_size_offs(int size_offs)`: the stash of the size-key
item becomes `stash_value<int>(0) + size_offs`, an `int` sum. -/
def add_trans_size_offs {T : Type} (size_offs : Int) (s : TxState T) : TxState T :=
  { s with
    items :=
      updItem Key.size_key
        (fun item => item.set_stash (toInt32 (item.stash_value 0 + size_offs))) s.items }

/-- Embeds `int List::trans_size_offs()`: the `int` read from the stash of the
size-key item; the call also creates the size-key item. -/
def trans_size_offs {T : Type} (s : TxState T) : Int :=
  toInt32 ((t_item Key.size_key s.items).stash_value 0)

/-! ## Transactional operations

The result of a call is `none` when the call ran `Sto::abort()` (the control-flow
escape that ends the transaction) and `some r` when it returned `r`. -/

/-- Embeds `List::transFind`; the returned pointer `&n->val` is given as the value it
points to, `NULL` as `none`. -/
def transFind {T : Type} (cfg : Config) (comp : T → T → Int) (elem : T) (s : TxState T) :
    Option (Option T) × TxState T :=
  let listv := s.l.sizeversion_
  match _find cfg comp elem s.l.head_ with
  | some n =>
    let item := t_item (Key.node n.addr) s.items
    let s1 : TxState T := { s with items := updItem (Key.node n.addr) id s.items }
    if !validityCheck n item then (none, s1)
    else if has_delete item then (some none, s1)
    else (some (some n.val),
          { s with items := updItem (Key.node n.addr) TransItem.add_read s.items })
  | none => (some none, verify_list listv s)

/-- Embeds `List::transInsert`. -/
def transInsert {T : Type} (cfg : Config) (comp : T → T → Int) (elem : T) (s : TxState T) :
    Option Bool × TxState T :=
  let r := _insert cfg comp true elem s.l
  let node := r.1
  let inserted := r.2.1
  let item := t_item (Key.node node.addr) s.items
  let s1 : TxState T := { l := r.2.2, items := updItem (Key.node node.addr) id s.items }
  if !inserted then
    if !validityCheck node item then (none, s1)
    else if has_insert item then (some false, s1)
    else if has_doupdate item then (some false, s1)
    else if has_delete item then
      (some true,
        add_trans_size_offs 1
          { s1 with
            items := updItem (Key.node node.addr)
                       (fun it => (it.clear_write.add_write (some elem)).assign_flags doupdate_bit)
                       s1.items })
    else (some false, { s1 with items := updItem (Key.node node.addr) TransItem.add_read s1.items })
  else
    let s2 := add_lock_list_item (add_trans_size_offs 1 s1)
    (some true,
      { s2 with
        items := updItem (Key.node node.addr)
                   (fun it => (it.add_write none).add_flags insert_bit) s2.items })

/-- Embeds `List::transDelete`. -/
def transDelete {T : Type} (cfg : Config) (comp : T → T → Int) (elem : T) (s : TxState T) :
    Option Bool × TxState T :=
  let listv := s.l.sizeversion_
  match _find cfg comp elem s.l.head_ with
  | some n =>
    let item := t_item (Key.node n.addr) s.items
    let s1 : TxState T := { s with items := updItem (Key.node n.addr) id s.items }
    if !validityCheck n item then (none, s1)
    else if has_delete item then (some false, s1)
    else if has_doupdate item then
      (some true,
        add_trans_size_offs (-1)
          { s1 with items := updItem (Key.node n.addr) (TransItem.assign_flags delete_bit) s1.items })
    else if has_insert item then
      let s2 : TxState T :=
        { l := (removeNode true n.addr s1.l).2,
          items := updItem (Key.node n.addr)
                     (fun it => (it.remove_read.remove_write).clear_flags insert_bit) s1.items }
      (some true, verify_list listv (add_trans_size_offs (-1) s2))
    else
      let s2 : TxState T :=
        { s1 with
          items := updItem (Key.node n.addr)
                     (fun it => ((it.assign_flags delete_bit).add_write none).add_read) s1.items }
      (some true, add_trans_size_offs (-1) (add_lock_list_item s2))
  | none => (some false, verify_list listv s)

/-- The conversion of a `long` to `size_t` (64 bits). -/
def toSizeT (x : Int) : Nat := (x % 2 ^ 64).toNat

/-- Embeds `List::size`: `verify_list(sizeversion_)`, then `listsize_ + trans_size_offs()`
returned as a `size_t`. -/
def size {T : Type} (s : TxState T) : Nat × TxState T :=
  let s1 := verify_list s.l.sizeversion_ s
  (toSizeT (s1.l.listsize_ + trans_size_offs s1),
   { s1 with items := updItem Key.size_key id s1.items })

/-- Embeds `size_t List::nontrans_size()`: `listsize_` returned as a `size_t`. -/
def nontrans_size {T : Type} (l : ListState T) : Nat := toSizeT l.listsize_

/-! ## Commit callbacks -/

/-- Modelled from the spec: `set_version` of the size-version, stamping it with
the commit timestamp. -/
def set_version (commit_tid : Nat) (_v : Nat) : Nat := commit_tid

/-- Modelled from the spec: `inc_nonopaque_version` of the size-version, one
monotonic increment. -/
def inc_nonopaque_version (v : Nat) : Nat := v + 1

/-- A write through the node pointer `n`: the node at that address is replaced
by its image under `f`. -/
def atNode {T : Type} (n : Nat) (f : list_node T → list_node T) (l : ListState T) : ListState T :=
  { l with head_ := l.head_.map (fun m => if m.addr = n then f m else m) }

/-- Embeds `List::install(item, t)`, `commit_tid` being `t.commit_tid()`.  The result is
`none` when the call does not complete: `assert(Opacity)` fails, the stashed
write value is not a `T`, or the key is the size-key sentinel, which is no node. -/
def install {T : Type} (cfg : Config) (commit_tid : Nat) (item : TransItem T) (l : ListState T) :
    Option (ListState T) :=
  match item.key with
  | Key.list_key => some l
  | Key.size_key => none
  | Key.node n =>
    if has_delete item then
      let l1 := (removeNode true n l).2
      let l2 := { l1 with listsize_ := l1.listsize_ + (-1) }
      some { l2 with sizeversion_ :=
               if cfg.Opacity then set_version commit_tid l2.sizeversion_
               else inc_nonopaque_version l2.sizeversion_ }
    else if has_doupdate item then
      match item.write_value with
      | some v => some (atNode n (fun m => { m with val := v }) l)
      | none => none
    else
      let l1 := atNode n list_node.mark_valid l
      let l2 := { l1 with listsize_ := l1.listsize_ + 1 }
      if cfg.Opacity then
        some { l2 with sizeversion_ := set_version commit_tid l2.sizeversion_ }
      else none

/-- Embeds `List::cleanup(item, committed)`. -/
def cleanup {T : Type} (item : TransItem T) (committed : Bool) (l : ListState T) : ListState T :=
  if !committed && item.flags.test insert_bit then
    match item.key with
    | Key.node n => (removeNode true n l).2
    | _ => l
  else l

/-- The install phase of a commit: `install` on every item carrying a write
mark, in the order of the item map. -/
def commitInstall {T : Type} (cfg : Config) (commit_tid : Nat) :
    List (TransItem T) → ListState T → Option (ListState T)
  | [], l => some l
  | item :: items, l =>
    if item.has_write then
      match install cfg commit_tid item l with
      | some l' => commitInstall cfg commit_tid items l'
      | none => none
    else commitInstall cfg commit_tid items l

/-- The end of an aborted transaction: `cleanup(item, false)` on every item. -/
def abortCleanup {T : Type} : List (TransItem T) → ListState T → ListState T
  | [], l => l
  | item :: items, l => abortCleanup items (cleanup item false l)

/-! ## Runs of one transaction -/

/-- A call of a point operation. -/
inductive Op (T : Type) where
  | transInsert (elem : T)
  | transDelete (elem : T)
  | transFind (elem : T)
deriving DecidableEq, Repr

/-- What a point operation returns: the boolean of `transInsert` and
`transDelete`, the optional value of `transFind`. -/
inductive Ret (T : Type) where
  | bool (b : Bool)
  | value (v : Option T)
deriving DecidableEq, Repr

/-- One call; `none` when the call aborted the transaction. -/
def step {T : Type} (cfg : Config) (comp : T → T → Int) (op : Op T) (s : TxState T) :
    Option (Ret T) × TxState T :=
  match op with
  | Op.transInsert elem =>
    let r := transInsert cfg comp elem s
    (r.1.map Ret.bool, r.2)
  | Op.transDelete elem =>
    let r := transDelete cfg comp elem s
    (r.1.map Ret.bool, r.2)
  | Op.transFind elem =>
    let r := transFind cfg comp elem s
    (r.1.map Ret.value, r.2)

/-- A sequence of calls by one transaction; the run stops at the first call
that aborts.  Returns what every executed call returned and the final state. -/
def run {T : Type} (cfg : Config) (comp : T → T → Int) :
    List (Op T) → TxState T → List (Option (Ret T)) × TxState T
  | [], s => ([], s)
  | op :: ops, s =>
    match step cfg comp op s with
    | (none, s') => ([none], s')
    | (some r, s') =>
      let rest := run cfg comp ops s'
      (some r :: rest.1, rest.2)

/-! ## Notions the properties are stated with -/

/-- A lawful three-way comparator: the sign of `comp a b` flips when the
arguments are exchanged, and `comp a b ≤ 0` is transitive; `comp a b ≤ 0` is
then a total preorder. -/
structure Lawful {T : Type} (comp : T → T → Int) : Prop where
  flip : ∀ a b, 0 < comp a b ↔ comp b a < 0
  trans : ∀ a b c, comp a b ≤ 0 → comp b c ≤ 0 → comp a c ≤ 0

/-- Every adjacent pair `(a, b)` of the node sequence satisfies `compare(a, b) ≤ 0`. -/
def SortedBy {T : Type} (comp : T → T → Int) (nodes : List (list_node T)) : Prop :=
  nodes.Chain' (fun a b => comp a.val b.val ≤ 0)

/-- No two nodes of the sequence are compare-equal. -/
def DupFree {T : Type} (comp : T → T → Int) (nodes : List (list_node T)) : Prop :=
  nodes.Pairwise (fun a b => comp a.val b.val ≠ 0)

/-- The test `compare(node.value, key) == 0`. -/
def eqKey {T : Type} (comp : T → T → Int) (key : T) (n : list_node T) : Bool :=
  decide (comp n.val key = 0)

/-- The test `compare(node.value, key) > 0` negated: the node is not greater than `key`. -/
def notGreater {T : Type} (comp : T → T → Int) (key : T) (n : list_node T) : Bool :=
  !decide (0 < comp n.val key)

/-- The comparator `DefaultCompare<long>` of the examples. -/
def intCompare : Int → Int → Int := DefaultCompare

/-- The list `[1,3,5]` of the scenarios, nodes at the addresses 2, 3, 4. -/
def list135 : ListState Int :=
  { head_ := [⟨2, 1, false⟩, ⟨3, 3, false⟩, ⟨4, 5, false⟩],
    listsize_ := 3, sizeversion_ := 0, heap_next := 5 }

/-- A configuration with `Sorted = no`, `Duplicates = forbid`. -/
def cfgUnsortedForbid : Config := { Duplicates := false, Sorted := false, Opacity := false }

/-- The number of `transInsert` calls of a run that returned true. -/
def insertsReturnedTrue {T : Type} : List (Op T) → List (Option (Ret T)) → Nat
  | Op.transInsert _ :: ops, some (Ret.bool true) :: rs => insertsReturnedTrue ops rs + 1
  | _ :: ops, _ :: rs => insertsReturnedTrue ops rs
  | _, _ => 0

/-- The number of `transDelete` calls of a run that returned true. -/
def deletesReturnedTrue {T : Type} : List (Op T) → List (Option (Ret T)) → Nat
  | Op.transDelete _ :: ops, some (Ret.bool true) :: rs => deletesReturnedTrue ops rs + 1
  | _ :: ops, _ :: rs => deletesReturnedTrue ops rs
  | _, _ => 0

/-- One when the call returned true, zero otherwise. -/
def returnedTrue : Option Bool → Int
  | some true => 1
  | _ => 0

/-- The list is well formed as a heap structure: the nodes have pairwise
distinct addresses, all below the address the allocator hands out next. -/
def ListState.wf {T : Type} (l : ListState T) : Prop :=
  (l.head_.map (fun n => n.addr)).Nodup ∧ ∀ n ∈ l.head_, n.addr < l.heap_next

/-- The item of a node the transaction found in the list: untouched or only
read (no write mark, no flag), deleted (write mark, `delete` flag), or updated
(write mark, `doupdate` flag, a stashed value compare-equal to the node's). -/
def OldItemOk {T : Type} (comp : T → T → Int) (n : list_node T) (it : TransItem T) : Prop :=
  (it.write = false ∧ it.flags = Flags.none) ∨
  (it.write = true ∧ it.flags = delete_bit) ∨
  (it.write = true ∧ it.flags = doupdate_bit ∧ ∃ v, it.write_value = some v ∧ comp n.val v = 0)

/-- The item of a node the transaction inserted: write mark and `insert` flag only. -/
def NewItemOk {T : Type} (it : TransItem T) : Prop :=
  it.write = true ∧ it.flags = insert_bit

/-- The invariant of a running transaction that started on the list `l0`: the
nodes allocated since are exactly the transaction's own pending inserts, the
other nodes are those of `l0`, untouched, and `listsize_`, `sizeversion_` are
unchanged. -/
structure TxInv {T : Type} (comp : T → T → Int) (l0 : ListState T) (s : TxState T) : Prop where
  addr_nodup : (s.l.head_.map (fun n => n.addr)).Nodup
  addr_lt : ∀ n ∈ s.l.head_, n.addr < s.l.heap_next
  heap_le : l0.heap_next ≤ s.l.heap_next
  keys_nodup : (s.items.map TransItem.key).Nodup
  frame : s.l.head_.filter (fun n => decide (n.addr < l0.heap_next)) = l0.head_
  count : s.l.listsize_ = l0.listsize_
  version : s.l.sizeversion_ = l0.sizeversion_
  old_ok : ∀ n ∈ s.l.head_, n.addr < l0.heap_next →
    OldItemOk comp n (t_item (Key.node n.addr) s.items)
  new_ok : ∀ n ∈ s.l.head_, l0.heap_next ≤ n.addr →
    NewItemOk (t_item (Key.node n.addr) s.items)
  unalloc : ∀ a, s.l.heap_next ≤ a → t_item (Key.node a) s.items = TransItem.fresh (Key.node a)

/-- What a commit makes of the node `n` when `item` is the node's item: a node
with a pending delete is unlinked, a pending update overwrites the value, an
own insert becomes valid, a node without write mark is left alone. -/
def commitAct {T : Type} (item : TransItem T) (n : list_node T) : Option (list_node T) :=
  if item.write then
    if has_delete item then none
    else if has_doupdate item then
      match item.write_value with
      | some v => some { n with val := v }
      | none => some n
    else some n.mark_valid
  else some n

/-- What a commit makes of a node, read off the item map of the transaction. -/
def commitNode {T : Type} (items : List (TransItem T)) (n : list_node T) : Option (list_node T) :=
  commitAct (t_item (Key.node n.addr) items) n

/-- What the item adds to `count` when it is installed. -/
def countContrib {T : Type} (it : TransItem T) : Int :=
  if it.write then
    match it.key with
    | Key.node _ => if has_delete it then -1 else if has_doupdate it then 0 else 1
    | _ => 0
  else 0

/-- What installing every item carrying a write mark adds to `count`. -/
def pendingDelta {T : Type} : List (TransItem T) → Int
  | [] => 0
  | it :: its => countContrib it + pendingDelta its

/-- The item can be installed: it is not the size-key item with a write mark,
and a pending update carries a value. -/
def InstallOk {T : Type} (it : TransItem T) : Prop :=
  match it.key with
  | Key.list_key => True
  | Key.size_key => it.write = false
  | Key.node _ =>
    it.write = true → has_delete it = false → has_doupdate it = true → it.write_value.isSome = true

/-- Spec side (the mathematical set of the claim, as a list of its elements):
the key is present when some element compares equal to it. -/
def SetSpec.mem {T : Type} (comp : T → T → Int) (S : List T) (k : T) : Bool :=
  S.any (fun x => decide (comp x k = 0))

/-- Spec side: one operation on the set and its boolean result.  `transInsert`
returns true iff the key is absent and then adds it; `transDelete` returns true
iff the key is present and then removes it; `transFind` returns a value iff the
key is present. -/
def SetSpec.step {T : Type} (comp : T → T → Int) : Op T → List T → Bool × List T
  | Op.transInsert v, S => if SetSpec.mem comp S v then (false, S) else (true, v :: S)
  | Op.transDelete k, S =>
    if SetSpec.mem comp S k then (true, S.filter (fun x => !decide (comp x k = 0))) else (false, S)
  | Op.transFind k, S => (SetSpec.mem comp S k, S)

/-- Spec side: a sequence of operations on the set, with the results in order. -/
def SetSpec.run {T : Type} (comp : T → T → Int) : List (Op T) → List T → List Bool × List T
  | [], S => ([], S)
  | op :: ops, S =>
    let r := SetSpec.step comp op S
    let rest := SetSpec.run comp ops r.2
    (r.1 :: rest.1, rest.2)

/-- The result of a call as the boolean the set semantics speaks of: the
boolean itself, or whether `transFind` returned a value. -/
def Ret.toBool {T : Type} : Ret T → Bool
  | Ret.bool b => b
  | Ret.value v => v.isSome

/-- The node sequence a commit of the transaction would leave. -/
def view {T : Type} (s : TxState T) : List (list_node T) :=
  s.l.head_.filterMap (commitNode s.items)

/-- The invariant of a running transaction on a sorted duplicate-free list,
relating it to the set `S` of the specification. -/
structure SetInv {T : Type} (comp : T → T → Int) (l0 : ListState T) (S : List T)
    (s : TxState T) : Prop where
  core : TxInv comp l0 s
  sorted : s.l.head_.Pairwise (fun a b => comp a.val b.val < 0)
  abs : ∀ x, x ∈ S ↔ x ∈ (view s).map (fun n => n.val)
  cnt : (l0.head_.length : Int) + pendingDelta s.items = ((view s).length : Int)
  delta : trans_size_offs s = toInt32 (pendingDelta s.items)
  inst : ∀ it ∈ s.items, InstallOk it

/-- The configuration `Sorted = yes`, `Duplicates = forbid`, `Opacity = yes`. -/
def cfgOpaque : Config := { Duplicates := false, Sorted := true, Opacity := true }

/-- The validity of the node a pointer held by an item refers to (`n->is_valid()`):
the invalid bit of the node when it is linked.  A node that is no longer linked
was unlinked by `_remove`, which sets its invalid bit first (`cur->mark_invalid()`)
and hands it to the deferred reclaimer, so it reads as invalid. -/
def is_valid_at {T : Type} (l : ListState T) (n : Nat) : Bool :=
  match l.head_.find? (fun m => decide (m.addr = n)) with
  | some m => m.is_valid
  | none => false

/-- Modelled from the spec: `check_version` of the size-version: the stored
observation matches the current size-version.  Locks are not part of this
sequential model, so whether the transaction holds the lock makes no difference. -/
def check_version (current : Nat) (observed : Option Nat) : Bool :=
  decide (observed = some current)

/-- Embeds `List::check(item, txn)`.  The result is `none` for the size-key
sentinel, which is no node to read the invalid bit of. -/
def check {T : Type} (item : TransItem T) (l : ListState T) : Option Bool :=
  match item.key with
  | Key.list_key =>
    let lv := l.sizeversion_
    some (check_version lv item.read_value)
  | Key.size_key => none
  | Key.node n =>
    if !is_valid_at l n then some (has_insert item)
    else some true

/-- The iterator `ListIter`: `cur` is the node sequence from the current node on
(empty for `NULL`); `us` is the list of the state it is used with. -/
structure ListIter (T : Type) where
  cur : List (list_node T)
deriving DecidableEq, Repr

/-- Embeds `ListIter::ensureValid`: the loop over `cur`; `none` when it runs
`Sto::abort()`. -/
def ensureValid {T : Type} (items : List (TransItem T)) :
    List (list_node T) → Option (List (list_node T))
  | [] => some []
  | cur :: rest =>
    let item := check_item (Key.node cur.addr) items
    if !cur.is_valid &&
        (match item with
         | none => true
         | some it => !has_insert it) then none
    else if (match item with
             | some it => has_delete it
             | none => false) then ensureValid items rest
    else some (cur :: rest)

/-- Embeds `List::transIter`: `verify_list(sizeversion_)`, then the constructor
`ListIter(this, head_, true)`, which runs `ensureValid`. -/
def transIter {T : Type} (s : TxState T) : Option (ListIter T) × TxState T :=
  let s1 := verify_list s.l.sizeversion_ s
  ((ensureValid s1.items s1.l.head_).map ListIter.mk, s1)

/-- Embeds `ListIter::transHasNext`. -/
def transHasNext {T : Type} (it : ListIter T) : Bool := !it.cur.isEmpty

/-- Embeds `ListIter::transNext`: the returned pointer as the value it points to
(`none` for `NULL`) and the iterator afterwards; `none` when `ensureValid` aborts. -/
def transNext {T : Type} (items : List (TransItem T)) (it : ListIter T) :
    Option (Option T × ListIter T) :=
  match it.cur with
  | [] => (ensureValid items []).map (fun c => (none, ListIter.mk c))
  | cur :: rest => (ensureValid items rest).map (fun c => (some cur.val, ListIter.mk c))

/-- How a walk over the list ends: with the values it yielded, by an abort of
the transaction, or not within the given number of steps. -/
inductive Walk (T : Type) where
  | finished (vals : List T)
  | aborted
  | unfinished
deriving DecidableEq, Repr

/-- The loop `while (it.transHasNext()) out.push_back(*it.transNext())` run for at
most `fuel` calls of `transNext`. -/
def transWalk {T : Type} (items : List (TransItem T)) : Nat → ListIter T → Walk T
  | 0, it => if transHasNext it then Walk.unfinished else Walk.finished []
  | fuel + 1, it =>
    if transHasNext it then
      match transNext items it with
      | none => Walk.aborted
      | some (ret, it') =>
        match transWalk items fuel it' with
        | Walk.finished vals => Walk.finished (ret.toList ++ vals)
        | w => w
    else Walk.finished []

/-- The iterator `ListIterator`: `myPtr` as the node sequence from the current
node on (empty for `NULL`). -/
structure ListIterator (T : Type) where
  myPtr : List (list_node T)
deriving DecidableEq, Repr

/-- Modelled from the spec: `list_verify(readv)`, the call the constructor of
`ListIterator` makes on the list.  The sources declare no member of that name
(`List` declares `verify_list`), so `begin()` and `end()` do not instantiate as
shipped.  The spec has the iterator registered with the list through a
size-version observation at construction: the observation of `readv` on the
list-key item, which leaves the node items and the list as they are. -/
def list_verify {T : Type} (readv : Nat) (s : TxState T) : TxState T :=
  { s with items := updItem Key.list_key (TransItem.observe readv) s.items }

/-- Embeds `List::begin`: `iterator(this, head_)`.  The member initialisers of the
constructor store the pointer `head_`; its body is the call
`list_verify(sizeversion_)`. -/
def begin {T : Type} (s : TxState T) : ListIterator T × TxState T :=
  (ListIterator.mk s.l.head_, list_verify s.l.sizeversion_ s)

/-- Embeds `List::end` (`end` is reserved in Lean): `iterator(this, NULL)`, by the
same constructor. -/
def end_ {T : Type} (s : TxState T) : ListIterator T × TxState T :=
  (ListIterator.mk [], list_verify s.l.sizeversion_ s)

/-- The `while (myPtr)` loop of `ListIterator::increment_ptr`; `none` when it runs
`Sto::abort()`. -/
def incrementLoop {T : Type} (items : List (TransItem T)) :
    List (list_node T) → Option (List (list_node T))
  | [] => some []
  | myPtr :: rest =>
    let item := check_item (Key.node myPtr.addr) items
    if !myPtr.is_valid &&
        (match item with
         | none => true
         | some it => !has_insert it) then none
    else if (match item with
             | some it => has_delete it
             | none => false) then incrementLoop items rest
    else some (myPtr :: rest)

/-- Embeds `ListIterator::increment_ptr`. -/
def increment_ptr {T : Type} (items : List (TransItem T)) (it : ListIterator T) :
    Option (ListIterator T) :=
  match it.myPtr with
  | [] => (incrementLoop items []).map ListIterator.mk
  | _ :: next => (incrementLoop items next).map ListIterator.mk

/-- The loop `for (it = begin(); it != end(); ++it) out.push_back(*it)` from the
iterator `it` on, run for at most `fuel` increments. -/
def forwardWalk {T : Type} (items : List (TransItem T)) : Nat → ListIterator T → Walk T
  | fuel, it =>
    match it.myPtr with
    | [] => Walk.finished []
    | myPtr :: _ =>
      match fuel with
      | 0 => Walk.unfinished
      | fuel' + 1 =>
        match increment_ptr items it with
        | none => Walk.aborted
        | some it' =>
          match forwardWalk items fuel' it' with
          | Walk.finished vals => Walk.finished (myPtr.val :: vals)
          | w => w

/-- A configuration with `Sorted = no`, `Duplicates = allow`. -/
def cfgUnsortedAllow : Config := { Duplicates := true, Sorted := false, Opacity := false }

/-- The list `[1,2,3]` of scenario S3, nodes at the addresses 2, 3, 4. -/
def list123 : ListState Int :=
  { head_ := [⟨2, 1, false⟩, ⟨3, 2, false⟩, ⟨4, 3, false⟩],
    listsize_ := 3, sizeversion_ := 0, heap_next := 5 }

/-- The list `[1,3]` of scenario S4, nodes at the addresses 2 and 3. -/
def list13 : ListState Int :=
  { head_ := [⟨2, 1, false⟩, ⟨3, 3, false⟩],
    listsize_ := 2, sizeversion_ := 0, heap_next := 4 }

/-- The node is not hidden from the transaction: its item does not carry the
delete flag. -/
def visibleTo {T : Type} (items : List (TransItem T)) (n : list_node T) : Bool :=
  !has_delete (t_item (Key.node n.addr) items)

/-- A comparator on pairs that looks at the first component only: values with
the same first component compare equal without being the same value. -/
def keyCompare (a b : Int × Int) : Int := DefaultCompare a.1 b.1

/-- The list of the pairs `(1,0), (2,0), (3,0)`, nodes at the addresses 2, 3, 4. -/
def listPairs : ListState (Int × Int) :=
  { head_ := [⟨2, (1, 0), false⟩, ⟨3, (2, 0), false⟩, ⟨4, (3, 0), false⟩],
    listsize_ := 3, sizeversion_ := 0, heap_next := 5 }

/-- A configuration with `Sorted = yes`, `Duplicates = allow`. -/
def cfgSortedAllow : Config := { Duplicates := true, Sorted := true, Opacity := false }

/-- The marks and flags of a node item are in one of the four states the
operations produce: no write mark and no flag, or a write mark with exactly
one of the flags insert, delete, doupdate. -/
def NodeItemOk {T : Type} (it : TransItem T) : Prop :=
  (it.write = false ∧ it.flags = Flags.none) ∨
  (it.write = true ∧
    (it.flags = insert_bit ∨ it.flags = delete_bit ∨ it.flags = doupdate_bit))

/-- Every node item of the item map, the items a lookup would create included,
is in one of the four states. -/
def FlagInv {T : Type} (items : List (TransItem T)) : Prop :=
  ∀ a, NodeItemOk (t_item (Key.node a) items)

/-- The calls `transInsert(a)`, `transInsert(a + 1)`, ..., `n` of them, on a list
of integers. -/
def insertsFrom : Nat → Nat → List (Op Int)
  | _, 0 => []
  | a, n + 1 => Op.transInsert (a : Int) :: insertsFrom (a + 1) n

/-! ## Verification: comparator laws -/

theorem Lawful.eq_symm {T : Type} {comp : T → T → Int} (h : Lawful comp) {a b : T}
    (hab : comp a b = 0) : comp b a = 0 := by
  have h1 := h.flip a b
  have h2 := h.flip b a
  omega

theorem Lawful.refl {T : Type} {comp : T → T → Int} (h : Lawful comp) (a : T) : comp a a = 0 := by
  have h1 := h.flip a a
  omega

theorem Lawful.le_of_lt_flip {T : Type} {comp : T → T → Int} (h : Lawful comp) {a b : T}
    (hab : 0 ≤ comp a b) : comp b a ≤ 0 := by
  have h1 := h.flip a b
  have h2 := h.flip b a
  omega

theorem Lawful.lt_of_lt_of_le {T : Type} {comp : T → T → Int} (h : Lawful comp) {a b c : T}
    (hab : comp a b < 0) (hbc : comp b c ≤ 0) : comp a c < 0 := by
  have h1 := h.trans a b c (by omega) hbc
  by_contra hn
  have h0 : comp a c = 0 := by omega
  have h2 := h.trans b c a hbc (by have := h.eq_symm h0; omega)
  have h3 := h.flip b a
  omega

theorem Lawful.lt_of_le_of_lt {T : Type} {comp : T → T → Int} (h : Lawful comp) {a b c : T}
    (hab : comp a b ≤ 0) (hbc : comp b c < 0) : comp a c < 0 := by
  have h1 := h.trans a b c hab (by omega)
  by_contra hn
  have h0 : comp a c = 0 := by omega
  have h2 := h.trans c a b (by have := h.eq_symm h0; omega) hab
  have h3 := h.flip c b
  omega

/-- Compare-equal values compare alike against any key. -/
theorem Lawful.eq_congr_left {T : Type} {comp : T → T → Int} (h : Lawful comp) {a b : T}
    (hab : comp a b = 0) (k : T) :
    (comp a k = 0 ↔ comp b k = 0) ∧ (comp a k < 0 ↔ comp b k < 0) ∧ (0 < comp a k ↔ 0 < comp b k) := by
  have hba := h.eq_symm hab
  have t1 := fun (hx : comp a k ≤ 0) => h.trans b a k (by omega) hx
  have t2 := fun (hx : comp b k ≤ 0) => h.trans a b k (by omega) hx
  have t3 := fun (hx : comp a k < 0) => h.lt_of_le_of_lt (a := b) (by omega : comp b a ≤ 0) hx
  have t4 := fun (hx : comp b k < 0) => h.lt_of_le_of_lt (a := a) (by omega : comp a b ≤ 0) hx
  refine ⟨?_, ?_, ?_⟩ <;> constructor <;> intro hx <;> omega

theorem DefaultCompare_lawful : Lawful (DefaultCompare : Int → Int → Int) := by
  constructor
  · intro a b
    unfold DefaultCompare
    split_ifs <;> omega
  · intro a b c
    unfold DefaultCompare
    split_ifs <;> omega

theorem SortedBy.pairwise {T : Type} {comp : T → T → Int} (h : Lawful comp)
    {nodes : List (list_node T)} (hs : SortedBy comp nodes) :
    nodes.Pairwise (fun a b => comp a.val b.val ≤ 0) := by
  haveI : IsTrans (list_node T) (fun a b => comp a.val b.val ≤ 0) :=
    ⟨fun a b c hab hbc => h.trans _ _ _ hab hbc⟩
  exact List.chain'_iff_pairwise.mp hs

theorem SortedBy.of_pairwise {T : Type} {comp : T → T → Int}
    {nodes : List (list_node T)} (hs : nodes.Pairwise (fun a b => comp a.val b.val ≤ 0)) :
    SortedBy comp nodes :=
  List.Pairwise.chain' hs

theorem intCompare_lawful : Lawful intCompare := DefaultCompare_lawful

theorem list135_sorted : SortedBy intCompare list135.head_ := by
  simp [SortedBy, list135, intCompare, DefaultCompare]

theorem list135_dupFree : DupFree intCompare list135.head_ := by
  simp [DupFree, list135, intCompare, DefaultCompare]

theorem SortedBy.tail {T : Type} {comp : T → T → Int} {a : list_node T}
    {nodes : List (list_node T)} (hs : SortedBy comp (a :: nodes)) : SortedBy comp nodes :=
  List.Chain'.tail hs

theorem SortedBy.head_le {T : Type} {comp : T → T → Int} (h : Lawful comp) {a : list_node T}
    {nodes : List (list_node T)} (hs : SortedBy comp (a :: nodes)) :
    ∀ m ∈ nodes, comp a.val m.val ≤ 0 :=
  (List.pairwise_cons.mp (hs.pairwise h)).1

/-- Past a node that is greater than the key, a sorted list has no node equal to the key. -/
theorem no_equal_after_greater {T : Type} {comp : T → T → Int} (h : Lawful comp)
    {cur : list_node T} {rest : List (list_node T)} (hs : SortedBy comp (cur :: rest))
    {key : T} (hc : 0 < comp cur.val key) : ∀ m ∈ rest, comp m.val key ≠ 0 := by
  intro m hm h0
  have h1 := hs.head_le h m hm
  have h2 := h.trans cur.val m.val key h1 (by omega)
  omega

/-- The lookup loop returns the first node equal to the key. -/
theorem _find_eq_find? {T : Type} (cfg : Config) (comp : T → T → Int) (key : T)
    (nodes : List (list_node T))
    (h : cfg.Sorted = false ∨ (Lawful comp ∧ SortedBy comp nodes)) :
    _find cfg comp key nodes = nodes.find? (eqKey comp key) := by
  induction nodes with
  | nil => rfl
  | cons cur rest ih =>
    have ih' : _find cfg comp key rest = rest.find? (eqKey comp key) := by
      apply ih
      rcases h with h | ⟨hL, hs⟩
      · exact Or.inl h
      · exact Or.inr ⟨hL, hs.tail⟩
    by_cases hc : comp cur.val key = 0
    · simp [_find, eqKey, hc]
    · by_cases hg : cfg.Sorted = true ∧ 0 < comp cur.val key
      · rcases h with h | ⟨hL, hs⟩
        · simp [h] at hg
        · have hn := no_equal_after_greater hL hs hg.2
          have : rest.find? (eqKey comp key) = none := by
            rw [List.find?_eq_none]
            intro m hm
            simpa [eqKey] using hn m hm
          simp [_find, eqKey, hc, hg.1, hg.2, this]
      · have hg' : (cfg.Sorted && decide (comp cur.val key > 0)) = false := by
          rcases hb : cfg.Sorted with _ | _
          · simp
          · simp [hb] at hg ⊢; exact hg
        simp only [_find, hc, if_false, hg', ih']
        simp [List.find?, eqKey, hc]

/-- Claim C1. `find(key)` is sound and complete: with `Sorted = no` always, and with
`Sorted = yes` on a list that is non-decreasing under a lawful comparator,
`find(key)` returns the value of the first node in traversal order with
`compare(node.value, key) == 0`, and it returns a value iff such a node exists. -/
theorem find_sound_complete {T : Type} (cfg : Config) (comp : T → T → Int) (l : ListState T)
    (key : T) (h : cfg.Sorted = false ∨ (Lawful comp ∧ SortedBy comp l.head_)) :
    find cfg comp key l = (l.head_.find? (eqKey comp key)).map (fun n => n.val) ∧
    ((find cfg comp key l).isSome = true ↔ ∃ n ∈ l.head_, comp n.val key = 0) := by
  have e := _find_eq_find? cfg comp key l.head_ h
  have e1 : find cfg comp key l = (l.head_.find? (eqKey comp key)).map (fun n => n.val) := by
    unfold find
    rw [e]
    cases l.head_.find? (eqKey comp key) <;> rfl
  refine ⟨e1, ?_⟩
  rw [e1]
  simp [List.find?_isSome, eqKey]

/-- On the sorted list `[1,3,5]` with the default configuration: `find(3)` returns 3,
and `find(4)` returns a value iff a node equal to 4 exists. -/
theorem find_sound_complete_witness :
    (Config.default.Sorted = false ∨ (Lawful intCompare ∧ SortedBy intCompare list135.head_)) ∧
    find Config.default intCompare 3 list135 = some 3 ∧
    ((find Config.default intCompare 4 list135).isSome = true ↔
      ∃ n ∈ list135.head_, intCompare n.val 4 = 0) :=
  ⟨Or.inr ⟨intCompare_lawful, list135_sorted⟩,
   ((find_sound_complete Config.default intCompare list135 3
      (Or.inr ⟨intCompare_lawful, list135_sorted⟩)).1).trans (by decide),
   (find_sound_complete Config.default intCompare list135 4
      (Or.inr ⟨intCompare_lawful, list135_sorted⟩)).2⟩

/-! ## Verification: the `int` conversion -/

theorem toInt32_of_range (x : Int) (h0 : -2147483648 ≤ x) (h1 : x < 2147483648) :
    toInt32 x = x := by
  unfold toInt32; omega

theorem toInt32_range (x : Int) : -2147483648 ≤ toInt32 x ∧ toInt32 x < 2147483648 := by
  unfold toInt32; omega

@[simp] theorem toInt32_toInt32 (x : Int) : toInt32 (toInt32 x) = toInt32 x := by
  unfold toInt32; omega

@[simp] theorem toInt32_add_left (a b : Int) : toInt32 (toInt32 a + b) = toInt32 (a + b) := by
  unfold toInt32; omega

@[simp] theorem toInt32_sub_left (a b : Int) : toInt32 (toInt32 a - b) = toInt32 (a - b) := by
  unfold toInt32; omega

@[simp] theorem toInt32_zero : toInt32 0 = 0 := by
  unfold toInt32; omega

@[simp] theorem toInt32_one : toInt32 1 = 1 := by
  unfold toInt32; omega

@[simp] theorem toInt32_neg_one : toInt32 (-1) = -1 := by
  unfold toInt32; omega

@[simp] theorem toInt32_trans_size_offs {T : Type} (s : TxState T) :
    toInt32 (trans_size_offs s) = trans_size_offs s := by
  unfold trans_size_offs; exact toInt32_toInt32 _

/-! ## Verification: the structural loops -/

/-- The unlink loop removes the first node the predicate accepts. -/
theorem removeLoop_eq {T : Type} (f : list_node T → Bool) (nodes : List (list_node T)) :
    removeLoop f nodes = if nodes.any f then some (nodes.eraseP f) else none := by
  induction nodes with
  | nil => rfl
  | cons cur rest ih =>
    by_cases hc : f cur = true
    · simp [removeLoop, hc]
    · simp only [Bool.not_eq_true] at hc
      by_cases ha : rest.any f = true
      · simp [removeLoop, hc, ih, ha, List.eraseP_cons]
      · simp only [Bool.not_eq_true] at ha
        simp [removeLoop, hc, ih, ha]

/-- When the insert loop links the new node, it splits the old sequence in two
and puts the node in between; the loop walked over the first part and stopped
at the head of the second. -/
theorem insertLoop_inr {T : Type} (cfg : Config) (comp : T → T → Int) (ret : list_node T) :
    ∀ (nodes nodes' : List (list_node T)), insertLoop cfg comp ret nodes = Sum.inr nodes' →
    ∃ pre post, nodes = pre ++ post ∧ nodes' = pre ++ ret :: post ∧
      (∀ m ∈ pre, ¬ (cfg.Duplicates = false ∧ comp m.val ret.val = 0) ∧
                  ¬ (cfg.Sorted = true ∧ 0 ≤ comp m.val ret.val)) ∧
      (∀ m ∈ post.head?, cfg.Sorted = true ∧ 0 ≤ comp m.val ret.val ∧
                  ¬ (cfg.Duplicates = false ∧ comp m.val ret.val = 0)) := by
  intro nodes
  induction nodes with
  | nil =>
    intro nodes' h
    simp only [insertLoop, Sum.inr.injEq] at h
    exact ⟨[], [], rfl, by simp [← h], by simp, by simp⟩
  | cons cur rest ih =>
    intro nodes' h
    simp only [insertLoop] at h
    by_cases h1 : (!cfg.Duplicates && decide (comp cur.val ret.val = 0)) = true
    · simp [h1] at h
    · by_cases h2 : (cfg.Sorted && decide (comp cur.val ret.val ≥ 0)) = true
      · rw [Bool.not_eq_true] at h1
        simp only [h1, h2, Bool.false_eq_true, ↓reduceIte, Sum.inr.injEq] at h
        refine ⟨[], cur :: rest, rfl, by simp [← h], by simp, ?_⟩
        intro m hm
        simp only [List.head?_cons, Option.mem_def, Option.some.injEq] at hm
        subst hm
        simp only [Bool.and_eq_true, decide_eq_true_eq, ge_iff_le] at h2
        refine ⟨h2.1, h2.2, ?_⟩
        simpa using h1
      · have h1' := h1
        have h2' := h2
        rw [Bool.not_eq_true] at h1' h2'
        simp only [h1', h2', Bool.false_eq_true, ↓reduceIte] at h
        cases hr : insertLoop cfg comp ret rest with
        | inl found => simp [hr] at h
        | inr rest' =>
          simp only [hr, Sum.inr.injEq] at h
          obtain ⟨pre, post, e1, e2, hp, hq⟩ := ih rest' hr
          refine ⟨cur :: pre, post, by simp [e1], by simp [← h, e2], ?_, hq⟩
          intro m hm
          rcases List.mem_cons.mp hm with rfl | hm
          · constructor
            · simpa using h1
            · simpa using h2
          · exact hp m hm

/-- When the insert loop returns an existing node, duplicates are forbidden and
the node is compare-equal to the new value; the loop walked over nodes that the
new value is strictly greater than (sorted) and not equal to. -/
theorem insertLoop_inl {T : Type} (cfg : Config) (comp : T → T → Int) (ret : list_node T) :
    ∀ (nodes : List (list_node T)) (cur : list_node T),
    insertLoop cfg comp ret nodes = Sum.inl cur →
    cur ∈ nodes ∧ comp cur.val ret.val = 0 ∧ cfg.Duplicates = false := by
  intro nodes
  induction nodes with
  | nil => intro cur h; simp [insertLoop] at h
  | cons c rest ih =>
    intro cur h
    simp only [insertLoop] at h
    by_cases h1 : (!cfg.Duplicates && decide (comp c.val ret.val = 0)) = true
    · simp only [h1, if_true, Sum.inl.injEq] at h
      subst h
      simp only [Bool.and_eq_true, Bool.not_eq_true', decide_eq_true_eq] at h1
      exact ⟨List.mem_cons_self _ _, h1.2, h1.1⟩
    · by_cases h2 : (cfg.Sorted && decide (comp c.val ret.val ≥ 0)) = true
      · simp [h1, h2] at h
      · rw [Bool.not_eq_true] at h1 h2
        simp only [h1, h2, Bool.false_eq_true, ↓reduceIte] at h
        cases hr : insertLoop cfg comp ret rest with
        | inl found =>
          simp only [hr, Sum.inl.injEq] at h
          subst h
          obtain ⟨a, b, c⟩ := ih found hr
          exact ⟨List.mem_cons_of_mem _ a, b, c⟩
        | inr rest' => simp [hr] at h

/-- On a sorted list with duplicates forbidden the insert loop returns the
first compare-equal node when there is one and otherwise links the new node
before the first greater node. -/
theorem insertLoop_sorted_forbid {T : Type} (cfg : Config) (comp : T → T → Int)
    (hS : cfg.Sorted = true) (hD : cfg.Duplicates = false) (hL : Lawful comp)
    (ret : list_node T) (nodes : List (list_node T)) (hs : SortedBy comp nodes) :
    insertLoop cfg comp ret nodes =
      match nodes.find? (eqKey comp ret.val) with
      | some cur => Sum.inl cur
      | none => Sum.inr (nodes.takeWhile (notGreater comp ret.val) ++
                  ret :: nodes.dropWhile (notGreater comp ret.val)) := by
  induction nodes with
  | nil => rfl
  | cons cur rest ih =>
    have ih' := ih hs.tail
    by_cases hc : comp cur.val ret.val = 0
    · simp [insertLoop, eqKey, hc, hD]
    · by_cases hg : 0 < comp cur.val ret.val
      · have hn := no_equal_after_greater hL hs hg
        have : rest.find? (eqKey comp ret.val) = none := by
          rw [List.find?_eq_none]
          intro m hm
          simpa [eqKey] using hn m hm
        have hge : 0 ≤ comp cur.val ret.val := by omega
        simp [insertLoop, eqKey, notGreater, hc, hg, hS, hD, this, hge, List.find?,
          List.takeWhile, List.dropWhile]
      · have hlt : ¬ 0 ≤ comp cur.val ret.val := by omega
        simp only [insertLoop, hc, hS, hD, hlt, ih', Bool.not_false, Bool.true_and,
          decide_False, Bool.false_eq_true, if_false, ge_iff_le]
        simp only [List.find?, eqKey, hc, decide_False, List.takeWhile, List.dropWhile,
          notGreater, hg, Bool.not_false]
        cases rest.find? (eqKey comp ret.val) <;> simp [eqKey, notGreater]

/-- Claim C2. Non-transactional `insert` with `Sorted = yes`, `Duplicates = forbid` on a
list that is sorted and duplicate-free under a lawful comparator: when some
node compares equal to `v` it returns false and changes nothing; otherwise it
returns true, a new valid node holding `v` is spliced immediately before the
first node that compares greater than `v` (at the end when there is none), and
`count` grows by exactly 1. -/
theorem insert_sorted_forbid {T : Type} (cfg : Config) (comp : T → T → Int)
    (hS : cfg.Sorted = true) (hD : cfg.Duplicates = false) (hL : Lawful comp)
    (l : ListState T) (hs : SortedBy comp l.head_) (_hd : DupFree comp l.head_) (v : T) :
    insert cfg comp v l =
      if l.head_.any (eqKey comp v) then (false, l)
      else (true,
        { head_ := l.head_.takeWhile (notGreater comp v) ++
            { addr := l.heap_next, val := v, invalid := false } ::
              l.head_.dropWhile (notGreater comp v),
          listsize_ := l.listsize_ + 1,
          sizeversion_ := l.sizeversion_,
          heap_next := l.heap_next + 1 }) := by
  have e := insertLoop_sorted_forbid cfg comp hS hD hL
    { addr := l.heap_next, val := v, invalid := false } l.head_ hs
  simp only [insert, _insert, hS, hD, e, Bool.not_true, Bool.false_and, Bool.false_eq_true,
    ↓reduceIte]
  cases hf : l.head_.find? (eqKey comp v) with
  | some cur =>
    have : l.head_.any (eqKey comp v) = true := by
      rw [List.any_eq_true]
      exact ⟨cur, List.mem_of_find?_eq_some hf, List.find?_some hf⟩
    simp [this]
  | none =>
    have : l.head_.any (eqKey comp v) = false := by
      rw [List.any_eq_false]
      intro m hm
      simpa using List.find?_eq_none.mp hf m hm
    simp [this]

/-- On `[1,3,5]`: `insert(4)` links a valid node between 3 and 5 and makes `count` 4;
`insert(3)` returns false and changes nothing. -/
theorem insert_sorted_forbid_witness :
    insert Config.default intCompare 4 list135 =
      (true, { head_ := [⟨2, 1, false⟩, ⟨3, 3, false⟩, ⟨5, 4, false⟩, ⟨4, 5, false⟩],
               listsize_ := 4, sizeversion_ := 0, heap_next := 6 }) ∧
    insert Config.default intCompare 3 list135 = (false, list135) :=
  ⟨(insert_sorted_forbid Config.default intCompare rfl rfl intCompare_lawful list135
      list135_sorted list135_dupFree 4).trans (by decide),
   by decide⟩

/-- Claim C3. Non-transactional remove by key, in every configuration (the code of
`remove` depends on none of the template parameters): it returns true iff some
node compares equal to the key; then exactly the first compare-equal node is
unlinked, the other nodes keep their order, and `count` drops by exactly 1;
when it returns false the list is unchanged. -/
theorem remove_by_key {T : Type} (comp : T → T → Int) (l : ListState T) (key : T) :
    remove comp false key l =
      if l.head_.any (eqKey comp key) then
        (true, { l with head_ := l.head_.eraseP (eqKey comp key),
                        listsize_ := l.listsize_ - 1 })
      else (false, l) := by
  have e := removeLoop_eq (eqKey comp key) l.head_
  unfold remove _remove
  change (match removeLoop (eqKey comp key) l.head_ with
    | some nodes => _
    | none => _) = _
  rw [e]
  by_cases ha : l.head_.any (eqKey comp key) = true
  · simp [ha]
  · simp [ha]

theorem SortedBy.sublist {T : Type} {comp : T → T → Int} (hL : Lawful comp)
    {nodes nodes' : List (list_node T)} (hs : SortedBy comp nodes)
    (hsub : nodes'.Sublist nodes) : SortedBy comp nodes' :=
  SortedBy.of_pairwise ((hs.pairwise hL).sublist hsub)

theorem removeLoop_sublist {T : Type} (f : list_node T → Bool) (nodes nodes' : List (list_node T))
    (h : removeLoop f nodes = some nodes') : nodes'.Sublist nodes := by
  rw [removeLoop_eq] at h
  split_ifs at h
  simp only [Option.some.injEq] at h
  subst h
  exact List.eraseP_sublist _

theorem _remove_sublist {T : Type} (Txnal : Bool) (f : list_node T → Bool) (l : ListState T) :
    (_remove Txnal f l).2.head_.Sublist l.head_ := by
  unfold _remove
  cases h : removeLoop f l.head_ with
  | none => exact List.Sublist.refl _
  | some nodes => exact removeLoop_sublist f _ _ h

theorem insertLoop_sorted {T : Type} (cfg : Config) (comp : T → T → Int)
    (hS : cfg.Sorted = true) (hL : Lawful comp) (ret : list_node T)
    (nodes nodes' : List (list_node T)) (hs : SortedBy comp nodes)
    (h : insertLoop cfg comp ret nodes = Sum.inr nodes') : SortedBy comp nodes' := by
  obtain ⟨pre, post, e1, e2, hp, hq⟩ := insertLoop_inr cfg comp ret nodes nodes' h
  subst e1 e2
  have hpw := hs.pairwise hL
  rw [List.pairwise_append] at hpw
  obtain ⟨h1, h2, h3⟩ := hpw
  apply SortedBy.of_pairwise
  rw [List.pairwise_append]
  have hpre : ∀ m ∈ pre, comp m.val ret.val ≤ 0 := by
    intro m hm
    have := (hp m hm).2
    simp only [hS, true_and] at this
    omega
  have hpost : ∀ m ∈ post, comp ret.val m.val ≤ 0 := by
    intro m hm
    cases post with
    | nil => simp at hm
    | cons p ps =>
      have hh := (hq p (by simp)).2.1
      have hrp : comp ret.val p.val ≤ 0 := hL.le_of_lt_flip hh
      rcases List.mem_cons.mp hm with rfl | hm'
      · exact hrp
      · exact hL.trans _ _ _ hrp ((List.pairwise_cons.mp h2).1 m hm')
  refine ⟨h1, List.pairwise_cons.mpr ⟨hpost, h2⟩, ?_⟩
  intro a ha b hb
  rcases List.mem_cons.mp hb with rfl | hb'
  · exact hpre a ha
  · exact h3 a ha b hb'

/-- Claim C4. With `Sorted = yes`, either `Duplicates` setting and a lawful comparator,
sortedness is preserved: when every adjacent pair of the list satisfies
`compare(a,b) ≤ 0`, so does every adjacent pair after an insert (plain or
transactional) and after a remove by key or by node. -/
theorem sorted_preserved {T : Type} (cfg : Config) (comp : T → T → Int)
    (hS : cfg.Sorted = true) (hL : Lawful comp) (l : ListState T)
    (hs : SortedBy comp l.head_) :
    (∀ v, SortedBy comp (insert cfg comp v l).2.head_) ∧
    (∀ Txnal v, SortedBy comp (_insert cfg comp Txnal v l).2.2.head_) ∧
    (∀ Txnal key, SortedBy comp (remove comp Txnal key l).2.head_) ∧
    (∀ Txnal n, SortedBy comp (removeNode Txnal n l).2.head_) := by
  have hi : ∀ Txnal v, SortedBy comp (_insert cfg comp Txnal v l).2.2.head_ := by
    intro Txnal v
    simp only [_insert, hS, Bool.not_true, Bool.false_and, Bool.false_eq_true, ↓reduceIte]
    cases h : insertLoop cfg comp { addr := l.heap_next, val := v, invalid := Txnal } l.head_ with
    | inl cur => exact hs
    | inr nodes => exact insertLoop_sorted cfg comp hS hL _ _ _ hs h
  refine ⟨fun v => hi false v, hi, ?_, ?_⟩
  · intro Txnal key
    exact hs.sublist hL (_remove_sublist _ _ _)
  · intro Txnal n
    exact hs.sublist hL (_remove_sublist _ _ _)

/-- On `[1,3,5]`: the list stays sorted after `insert(4)` and after removing 3. -/
theorem sorted_preserved_witness :
    SortedBy intCompare (insert Config.default intCompare 4 list135).2.head_ ∧
    SortedBy intCompare (remove intCompare false 3 list135).2.head_ :=
  ⟨(sorted_preserved Config.default intCompare rfl intCompare_lawful list135 list135_sorted).1 4,
   (sorted_preserved Config.default intCompare rfl intCompare_lawful list135
      list135_sorted).2.2.1 false 3⟩

/-- Claim C5. The code at the failing input: with `Sorted = no`, `Duplicates = forbid`,
two calls `insert(1)` on the empty list both return true and leave two nodes
holding 1, which compare equal. -/
theorem unsorted_forbid_inserts_duplicate :
    (insert cfgUnsortedForbid intCompare 1 (ListState.empty Int)).1 = true ∧
    (insert cfgUnsortedForbid intCompare 1
      (insert cfgUnsortedForbid intCompare 1 (ListState.empty Int)).2).1 = true ∧
    (insert cfgUnsortedForbid intCompare 1
      (insert cfgUnsortedForbid intCompare 1 (ListState.empty Int)).2).2.head_
      = [⟨3, 1, false⟩, ⟨2, 1, false⟩] ∧
    ¬ DupFree intCompare (insert cfgUnsortedForbid intCompare 1
      (insert cfgUnsortedForbid intCompare 1 (ListState.empty Int)).2).2.head_ := by
  refine ⟨by decide, by decide, by decide, ?_⟩
  have e : (insert cfgUnsortedForbid intCompare 1
      (insert cfgUnsortedForbid intCompare 1 (ListState.empty Int)).2).2.head_
      = [⟨3, 1, false⟩, ⟨2, 1, false⟩] := by decide
  rw [e]
  simp [DupFree, intCompare, DefaultCompare]

/-- Claim C6. The code at the failing input: with `Sorted = no`, `Duplicates = forbid`,
`insert(1)` on the empty list returns true and links one node, and `count` is
still 0. -/
theorem unsorted_forbid_insert_keeps_count :
    insert cfgUnsortedForbid intCompare 1 (ListState.empty Int) =
      (true, { head_ := [⟨2, 1, false⟩], listsize_ := 0, sizeversion_ := 0, heap_next := 3 }) ∧
    (insert cfgUnsortedForbid intCompare 1 (ListState.empty Int)).2.listsize_ ≠
      ((insert cfgUnsortedForbid intCompare 1 (ListState.empty Int)).2.head_.length : Int) := by
  refine ⟨by decide, by decide⟩

/-! ## Verification: the item map -/

theorem check_item_updItem {T : Type} (k k' : Key) (f : TransItem T → TransItem T)
    (hf : ∀ it, (f it).key = it.key) (items : List (TransItem T)) :
    check_item k (updItem k' f items) =
      if k' = k then some (f (t_item k' items)) else check_item k items := by
  induction items with
  | nil =>
    simp only [updItem, check_item, t_item, hf, TransItem.fresh]
  | cons it its ih =>
    by_cases h1 : it.key = k'
    · by_cases h2 : k' = k
      · simp [updItem, check_item, t_item, h1, h2, hf]
      · have h3 : ¬ it.key = k := by rw [h1]; exact h2
        simp [updItem, check_item, h1, h2, hf]
    · by_cases h2 : k' = k
      · have h3 : ¬ it.key = k := by rw [← h2]; exact h1
        subst h2
        simp only [updItem, h1, if_false, check_item, ih, if_true, t_item]
      · simp only [updItem, h1, if_false, check_item, ih, h2]

theorem t_item_updItem {T : Type} (k k' : Key) (f : TransItem T → TransItem T)
    (hf : ∀ it, (f it).key = it.key) (items : List (TransItem T)) :
    t_item k (updItem k' f items) = if k' = k then f (t_item k' items) else t_item k items := by
  have e := check_item_updItem k k' f hf items
  by_cases h : k' = k
  · simp only [h, if_true] at e ⊢
    simp only [t_item, e]
  · simp only [h, if_false] at e ⊢
    simp only [t_item, e]

theorem t_item_key {T : Type} (k : Key) (items : List (TransItem T)) :
    (t_item k items).key = k := by
  induction items with
  | nil => rfl
  | cons it its ih =>
    unfold t_item at ih ⊢
    by_cases h : it.key = k
    · simp [check_item, h]
    · simpa [check_item, h] using ih

theorem t_item_updItem_same {T : Type} (k : Key) (f : TransItem T → TransItem T)
    (hf : ∀ it, (f it).key = it.key) (items : List (TransItem T)) :
    t_item k (updItem k f items) = f (t_item k items) := by
  rw [t_item_updItem k k f hf]; simp

theorem t_item_updItem_ne {T : Type} (k k' : Key) (hne : k' ≠ k) (f : TransItem T → TransItem T)
    (hf : ∀ it, (f it).key = it.key) (items : List (TransItem T)) :
    t_item k (updItem k' f items) = t_item k items := by
  rw [t_item_updItem k k' f hf]; simp [hne]

theorem observe_key {T : Type} (v : Nat) (it : TransItem T) : (it.observe v).key = it.key := by
  unfold TransItem.observe; split <;> rfl

theorem observe_stash {T : Type} (v : Nat) (it : TransItem T) :
    (it.observe v).stash = it.stash := by
  unfold TransItem.observe; split <;> rfl

/-! ## Verification: the size offset of a transaction -/

/-- The two outcomes of the transactional `_insert`: an existing compare-equal
node is returned and nothing changes, or a new invalid node at a fresh address
is linked between two parts of the old sequence and `listsize_` is untouched. -/
theorem _insert_txnal {T : Type} (cfg : Config) (comp : T → T → Int) (elem : T)
    (l : ListState T) :
    (∃ cur, cur ∈ l.head_ ∧ comp cur.val elem = 0 ∧ cfg.Duplicates = false ∧
      _insert cfg comp true elem l = (cur, false, l)) ∨
    (∃ pre post, l.head_ = pre ++ post ∧
      _insert cfg comp true elem l =
        ({ addr := l.heap_next, val := elem, invalid := true }, true,
         { l with head_ := pre ++ { addr := l.heap_next, val := elem, invalid := true } :: post,
                  heap_next := l.heap_next + 1 }) ∧
      (cfg.Sorted = true →
        (∀ m ∈ pre, comp m.val elem < 0) ∧ (∀ m ∈ post.head?, 0 ≤ comp m.val elem)) ∧
      (cfg.Sorted = true → cfg.Duplicates = false → ∀ m ∈ post.head?, 0 < comp m.val elem)) := by
  by_cases hfast : (!cfg.Sorted && !cfg.Duplicates) = true
  · right
    refine ⟨[], l.head_, rfl, ?_, ?_, ?_⟩
    · simp only [_insert, hfast, if_true, List.nil_append]
    · intro hS; simp [hS] at hfast
    · intro hS; simp [hS] at hfast
  · rw [Bool.not_eq_true] at hfast
    cases h : insertLoop cfg comp { addr := l.heap_next, val := elem, invalid := true } l.head_ with
    | inl cur =>
      left
      obtain ⟨h1, h2, h3⟩ := insertLoop_inl cfg comp _ _ _ h
      refine ⟨cur, h1, h2, h3, ?_⟩
      simp only [_insert, hfast, Bool.false_eq_true, ↓reduceIte, h]
    | inr nodes =>
      right
      obtain ⟨pre, post, e1, e2, hp, hq⟩ := insertLoop_inr cfg comp _ _ _ h
      refine ⟨pre, post, e1, ?_, ?_, ?_⟩
      · simp only [_insert, hfast, Bool.false_eq_true, ↓reduceIte, h, e2, Bool.not_true]
      · intro hS
        constructor
        · intro m hm
          have := (hp m hm).2
          simp only [hS, true_and, not_le] at this
          exact this
        · intro m hm
          exact (hq m hm).2.1
      · intro hS hD m hm
        have h1 := (hq m hm).2.1
        have h2 := (hq m hm).2.2
        simp only [hD, true_and] at h2
        simp only at h1 h2
        omega

theorem _insert_txnal_listsize {T : Type} (cfg : Config) (comp : T → T → Int) (elem : T)
    (l : ListState T) : (_insert cfg comp true elem l).2.2.listsize_ = l.listsize_ := by
  rcases _insert_txnal cfg comp elem l with ⟨cur, _, _, _, e⟩ | ⟨pre, post, _, e, _⟩ <;> rw [e]

theorem removeNode_txnal_listsize {T : Type} (n : Nat) (l : ListState T) :
    (removeNode true n l).2.listsize_ = l.listsize_ := by
  unfold removeNode _remove
  cases h : removeLoop (fun n2 => decide (n = n2.addr)) l.head_ <;> simp [h]

theorem offs_verify_list {T : Type} (v : Nat) (s : TxState T) :
    trans_size_offs (verify_list v s) = trans_size_offs s := by
  unfold trans_size_offs verify_list
  rw [t_item_updItem_ne _ _ (by decide) (TransItem.observe v) (observe_key v)]

theorem offs_add_lock {T : Type} (s : TxState T) :
    trans_size_offs (add_lock_list_item s) = trans_size_offs s := by
  unfold trans_size_offs add_lock_list_item
  rw [t_item_updItem_ne _ _ (by decide) (TransItem.add_write none) (fun _ => rfl)]

theorem offs_add {T : Type} (d : Int) (s : TxState T) :
    trans_size_offs (add_trans_size_offs d s) = toInt32 (trans_size_offs s + d) := by
  unfold trans_size_offs add_trans_size_offs
  rw [t_item_updItem_same _ (fun item => item.set_stash (toInt32 (item.stash_value 0 + d)))
    (fun _ => rfl)]
  simp [TransItem.set_stash, TransItem.stash_value]

theorem offs_upd_node {T : Type} (a : Nat) (f : TransItem T → TransItem T)
    (hf : ∀ it, (f it).key = it.key) (l l' : ListState T) (items : List (TransItem T)) :
    trans_size_offs { l := l', items := updItem (Key.node a) f items } =
      trans_size_offs { l := l, items := items } := by
  unfold trans_size_offs
  rw [t_item_updItem_ne _ _ (by simp) _ hf]

theorem transInsert_size {T : Type} (cfg : Config) (comp : T → T → Int) (elem : T)
    (s : TxState T) :
    (transInsert cfg comp elem s).2.l.listsize_ = s.l.listsize_ ∧
    trans_size_offs (transInsert cfg comp elem s).2 =
      toInt32 (trans_size_offs s + returnedTrue (transInsert cfg comp elem s).1) := by
  have hl := _insert_txnal_listsize cfg comp elem s.l
  unfold transInsert
  simp only []
  split_ifs <;>
    simp [trans_size_offs, add_trans_size_offs, add_lock_list_item, t_item_updItem,
      TransItem.assign_flags, TransItem.add_write, TransItem.clear_write, TransItem.add_read,
      TransItem.add_flags, TransItem.set_stash, TransItem.stash_value, hl, returnedTrue]

theorem transDelete_size {T : Type} (cfg : Config) (comp : T → T → Int) (elem : T)
    (s : TxState T) :
    (transDelete cfg comp elem s).2.l.listsize_ = s.l.listsize_ ∧
    trans_size_offs (transDelete cfg comp elem s).2 =
      toInt32 (trans_size_offs s - returnedTrue (transDelete cfg comp elem s).1) := by
  unfold transDelete
  simp only []
  cases hf : _find cfg comp elem s.l.head_ with
  | none =>
    simp [trans_size_offs, verify_list, t_item_updItem, observe_key, observe_stash,
      TransItem.stash_value, returnedTrue]
  | some n =>
    have hr := removeNode_txnal_listsize n.addr s.l
    simp only []
    split_ifs <;>
      simp [trans_size_offs, add_trans_size_offs, add_lock_list_item, verify_list, t_item_updItem,
        observe_key, observe_stash, TransItem.assign_flags, TransItem.add_write,
        TransItem.remove_write, TransItem.remove_read, TransItem.clear_flags,
        TransItem.add_read, TransItem.set_stash, TransItem.stash_value, hr, returnedTrue] <;>
      first | omega | congr 1

theorem transFind_size {T : Type} (cfg : Config) (comp : T → T → Int) (elem : T)
    (s : TxState T) :
    (transFind cfg comp elem s).2.l.listsize_ = s.l.listsize_ ∧
    trans_size_offs (transFind cfg comp elem s).2 = trans_size_offs s := by
  unfold transFind
  simp only []
  cases hf : _find cfg comp elem s.l.head_ with
  | none =>
    simp [trans_size_offs, verify_list, t_item_updItem, observe_key, observe_stash,
      TransItem.stash_value]
  | some n =>
    simp only []
    split_ifs <;>
      simp [trans_size_offs, t_item_updItem, TransItem.add_read, TransItem.stash_value]

/-- Along a run `listsize_` is constant and the stashed offset, an `int`, moves by
+1 with every successful `transInsert` and by -1 with every successful
`transDelete`. -/
theorem run_size {T : Type} (cfg : Config) (comp : T → T → Int) (ops : List (Op T)) :
    ∀ s : TxState T,
    (run cfg comp ops s).2.l.listsize_ = s.l.listsize_ ∧
    trans_size_offs (run cfg comp ops s).2 =
      toInt32 (trans_size_offs s + insertsReturnedTrue ops (run cfg comp ops s).1
        - deletesReturnedTrue ops (run cfg comp ops s).1) := by
  induction ops with
  | nil =>
    intro s
    simp [run, insertsReturnedTrue, deletesReturnedTrue, trans_size_offs]
  | cons op ops ih =>
    intro s
    cases op with
    | transInsert elem =>
      have h := transInsert_size cfg comp elem s
      rcases hr : transInsert cfg comp elem s with ⟨r, s'⟩
      rw [hr] at h
      rcases r with _ | b
      · simpa [run, step, hr, insertsReturnedTrue, deletesReturnedTrue, returnedTrue] using h
      · have ih' := ih s'
        rcases b with _ | _ <;>
          simp only [run, step, hr, insertsReturnedTrue, deletesReturnedTrue, returnedTrue,
            Option.map_some'] at h ⊢ <;>
          refine ⟨by omega, ?_⟩ <;>
          rw [ih'.2, h.2] <;>
          simp only [toInt32] <;>
          push_cast <;>
          omega
    | transDelete elem =>
      have h := transDelete_size cfg comp elem s
      rcases hr : transDelete cfg comp elem s with ⟨r, s'⟩
      rw [hr] at h
      rcases r with _ | b
      · simpa [run, step, hr, insertsReturnedTrue, deletesReturnedTrue, returnedTrue] using h
      · have ih' := ih s'
        rcases b with _ | _ <;>
          simp only [run, step, hr, insertsReturnedTrue, deletesReturnedTrue, returnedTrue,
            Option.map_some'] at h ⊢ <;>
          refine ⟨by omega, ?_⟩ <;>
          rw [ih'.2, h.2] <;>
          simp only [toInt32] <;>
          push_cast <;>
          omega
    | transFind elem =>
      have h := transFind_size cfg comp elem s
      rcases hr : transFind cfg comp elem s with ⟨r, s'⟩
      rw [hr] at h
      rcases r with _ | b
      · simpa [run, step, hr, insertsReturnedTrue, deletesReturnedTrue, trans_size_offs]
          using h
      · have ih' := ih s'
        simp only [run, step, hr, insertsReturnedTrue, deletesReturnedTrue,
          Option.map_some'] at h ⊢
        refine ⟨by omega, ?_⟩
        rw [ih'.2, h.2]

theorem toSizeT_of_nonneg (x : Int) (h0 : 0 ≤ x) (h1 : x < 2 ^ 64) : (toSizeT x : Int) = x := by
  unfold toSizeT
  rw [Int.emod_eq_of_lt h0 h1]
  exact Int.toNat_of_nonneg h0

/-- Claim C8, amended. Transactional size, for every configuration and every
sequence of point operations of one transaction: `listsize_` (the committed
count) is not changed by the transaction, and `size()` returns, as a `size_t`,
`count` plus the `int` value of the number of `transInsert` calls that returned
true minus the number of `transDelete` calls that returned true.  When that
difference is in the range of an `int` (from -2^31 to 2^31 - 1) and `count` plus
the difference is a `size_t` (non-negative, below 2^64), `size()` returns
`count` plus the difference exactly. -/
theorem size_is_count_plus_delta {T : Type} (cfg : Config) (comp : T → T → Int)
    (l : ListState T) (ops : List (Op T)) :
    (run cfg comp ops (TxState.start l)).2.l.listsize_ = l.listsize_ ∧
    (size (run cfg comp ops (TxState.start l)).2).1 =
      toSizeT (l.listsize_
        + toInt32 (insertsReturnedTrue ops (run cfg comp ops (TxState.start l)).1
            - deletesReturnedTrue ops (run cfg comp ops (TxState.start l)).1)) ∧
    (-2147483648 ≤ (insertsReturnedTrue ops (run cfg comp ops (TxState.start l)).1 : Int)
        - deletesReturnedTrue ops (run cfg comp ops (TxState.start l)).1 →
     (insertsReturnedTrue ops (run cfg comp ops (TxState.start l)).1 : Int)
        - deletesReturnedTrue ops (run cfg comp ops (TxState.start l)).1 < 2147483648 →
     0 ≤ l.listsize_
        + insertsReturnedTrue ops (run cfg comp ops (TxState.start l)).1
        - deletesReturnedTrue ops (run cfg comp ops (TxState.start l)).1 →
     l.listsize_
        + insertsReturnedTrue ops (run cfg comp ops (TxState.start l)).1
        - deletesReturnedTrue ops (run cfg comp ops (TxState.start l)).1 < 2 ^ 64 →
     ((size (run cfg comp ops (TxState.start l)).2).1 : Int) =
      l.listsize_
        + insertsReturnedTrue ops (run cfg comp ops (TxState.start l)).1
        - deletesReturnedTrue ops (run cfg comp ops (TxState.start l)).1) := by
  obtain ⟨h1, h2⟩ := run_size cfg comp ops (TxState.start l)
  have h0 : trans_size_offs (TxState.start l) = 0 := by
    simp [trans_size_offs, TxState.start, t_item, check_item, TransItem.fresh,
      TransItem.stash_value]
  have hs : (size (run cfg comp ops (TxState.start l)).2).1 =
      toSizeT (l.listsize_
        + toInt32 (insertsReturnedTrue ops (run cfg comp ops (TxState.start l)).1
            - deletesReturnedTrue ops (run cfg comp ops (TxState.start l)).1)) := by
    simp only [size, offs_verify_list, h2, h0]
    have : (verify_list (run cfg comp ops (TxState.start l)).2.l.sizeversion_
        (run cfg comp ops (TxState.start l)).2).l.listsize_ = l.listsize_ := h1
    rw [this, zero_add]
  refine ⟨h1, hs, ?_⟩
  intro hlo hhi hn hb
  rw [hs, toInt32_of_range _ hlo hhi,
    toSizeT_of_nonneg (l.listsize_
      + ((insertsReturnedTrue ops (run cfg comp ops (TxState.start l)).1 : Int)
        - deletesReturnedTrue ops (run cfg comp ops (TxState.start l)).1))
      (by omega) (by omega)]
  omega

/-- On `[1,3,5]`: two successful inserts and one successful delete give `size() = 4`. -/
theorem size_is_count_plus_delta_witness :
    ((size (run Config.default intCompare
      [Op.transInsert 4, Op.transDelete 1, Op.transDelete 1, Op.transInsert 7, Op.transFind 3]
      (TxState.start list135)).2).1 : Int) = 4 :=
  ((size_is_count_plus_delta Config.default intCompare list135
      [Op.transInsert 4, Op.transDelete 1, Op.transDelete 1, Op.transInsert 7,
        Op.transFind 3]).2.2 (by decide) (by decide) (by decide) (by decide)).trans (by decide)

/-! ## Verification: the invariant of a running transaction -/

theorem keys_updItem {T : Type} (k : Key) (f : TransItem T → TransItem T)
    (hf : ∀ it, (f it).key = it.key) (items : List (TransItem T)) :
    (updItem k f items).map TransItem.key =
      if k ∈ items.map TransItem.key then items.map TransItem.key
      else items.map TransItem.key ++ [k] := by
  induction items with
  | nil => simp [updItem, hf, TransItem.fresh]
  | cons it its ih =>
    by_cases h : it.key = k
    · simp [updItem, h, hf]
    · have h' : ¬ k = it.key := fun e => h e.symm
      simp only [updItem, h, if_false, List.map_cons, ih, List.mem_cons, h', false_or]
      split_ifs <;> simp

theorem nodup_keys_updItem {T : Type} (k : Key) (f : TransItem T → TransItem T)
    (hf : ∀ it, (f it).key = it.key) (items : List (TransItem T)) :
    ((updItem k f items).map TransItem.key).Nodup ↔ (items.map TransItem.key).Nodup := by
  rw [keys_updItem k f hf]
  split_ifs with h
  · rfl
  · rw [List.nodup_append]
    simp only [List.nodup_cons, List.not_mem_nil, not_false_eq_true, List.nodup_nil, and_self,
      List.Disjoint, List.mem_singleton, true_and, and_true]
    constructor
    · intro h'; exact h'.1
    · intro h'
      refine ⟨h', ?_⟩
      intro a ha e
      subst e
      exact h ha

theorem t_item_of_mem {T : Type} (items : List (TransItem T))
    (hk : (items.map TransItem.key).Nodup) (it : TransItem T) (hm : it ∈ items) :
    t_item it.key items = it := by
  induction items with
  | nil => simp at hm
  | cons i is ih =>
    simp only [List.map_cons, List.nodup_cons] at hk
    rcases List.mem_cons.mp hm with rfl | hm'
    · simp [t_item, check_item]
    · have hne : ¬ i.key = it.key := by
        intro e
        exact hk.1 (e ▸ List.mem_map_of_mem TransItem.key hm')
      have := ih hk.2 hm'
      unfold t_item at this ⊢
      simpa [check_item, hne] using this

theorem removeLoop_addr_eq_filter {T : Type} (a : Nat) (nodes : List (list_node T))
    (hnd : (nodes.map (fun n => n.addr)).Nodup) :
    (match removeLoop (fun n2 => decide (a = n2.addr)) nodes with
      | some nodes' => nodes'
      | none => nodes) = nodes.filter (fun n => !decide (n.addr = a)) := by
  induction nodes with
  | nil => rfl
  | cons cur rest ih =>
    simp only [List.map_cons, List.nodup_cons] at hnd
    by_cases h : a = cur.addr
    · have hrest : ∀ m ∈ rest, ¬ m.addr = a := by
        intro m hm e
        exact hnd.1 (by rw [← h, ← e]; exact List.mem_map_of_mem (fun n => n.addr) hm)
      have : rest.filter (fun n => !decide (n.addr = a)) = rest := by
        rw [List.filter_eq_self]
        intro m hm
        simp [hrest m hm]
      simp [removeLoop, h, List.filter_cons]
      rw [h] at this
      exact this.symm
    · have h' : ¬ cur.addr = a := fun e => h e.symm
      have ih' := ih hnd.2
      simp only [removeLoop, h, decide_False, Bool.false_eq_true, if_false, List.filter_cons,
        h', Bool.not_false, if_true]
      cases hr : removeLoop (fun n2 => decide (a = n2.addr)) rest with
      | none => simp only [hr] at ih' ⊢; rw [← ih']
      | some r => simp only [hr] at ih' ⊢; rw [← ih']

/-- Unlinking a node by its address, when addresses are distinct, keeps exactly
the other nodes; a transactional remove leaves the other fields alone. -/
theorem removeNode_txnal_eq {T : Type} (a : Nat) (l : ListState T)
    (hnd : (l.head_.map (fun n => n.addr)).Nodup) :
    (removeNode true a l).2 = { l with head_ := l.head_.filter (fun n => !decide (n.addr = a)) } := by
  have e := removeLoop_addr_eq_filter a l.head_ hnd
  unfold removeNode _remove
  cases hr : removeLoop (fun n2 => decide (a = n2.addr)) l.head_ with
  | none => simp only [hr] at e ⊢; rw [← e]
  | some r => simp only [hr] at e ⊢; simp [e]

theorem TxInv.initial {T : Type} (comp : T → T → Int) (l : ListState T) (hwf : l.wf) :
    TxInv comp l (TxState.start l) where
  addr_nodup := hwf.1
  addr_lt := hwf.2
  heap_le := le_refl _
  keys_nodup := List.nodup_nil
  frame := by
    simp only [TxState.start]
    rw [List.filter_eq_self]
    intro n hn
    simpa using hwf.2 n hn
  count := rfl
  version := rfl
  old_ok := by
    intro n _ _
    left
    exact ⟨rfl, rfl⟩
  new_ok := by
    intro n hn h
    have := hwf.2 n hn
    have h' : l.heap_next ≤ n.addr := h
    omega
  unalloc := by
    intro a _
    rfl

theorem mem_eq_of_addr {T : Type} {nodes : List (list_node T)}
    (hnd : (nodes.map (fun n => n.addr)).Nodup) {a b : list_node T} (ha : a ∈ nodes)
    (hb : b ∈ nodes) (e : a.addr = b.addr) : a = b :=
  List.inj_on_of_nodup_map hnd ha hb e

/-- A step that leaves the list alone and changes, among the node items, at
most the item of the node `cur` keeps the invariant when the new item of `cur`
is again of the kind the node requires. -/
theorem TxInv.item_step {T : Type} {comp : T → T → Int} {l0 : ListState T} {s : TxState T}
    (h : TxInv comp l0 s) (cur : list_node T) (hcur : cur ∈ s.l.head_)
    (items' : List (TransItem T)) (F : TransItem T → TransItem T)
    (hlook : ∀ b, t_item (Key.node b) items' =
      if cur.addr = b then F (t_item (Key.node cur.addr) s.items) else t_item (Key.node b) s.items)
    (hk : (items'.map TransItem.key).Nodup)
    (hold : cur.addr < l0.heap_next → OldItemOk comp cur (t_item (Key.node cur.addr) s.items) →
      OldItemOk comp cur (F (t_item (Key.node cur.addr) s.items)))
    (hnew : l0.heap_next ≤ cur.addr → NewItemOk (t_item (Key.node cur.addr) s.items) →
      NewItemOk (F (t_item (Key.node cur.addr) s.items))) :
    TxInv comp l0 { l := s.l, items := items' } where
  addr_nodup := h.addr_nodup
  addr_lt := h.addr_lt
  heap_le := h.heap_le
  keys_nodup := hk
  frame := h.frame
  count := h.count
  version := h.version
  old_ok := by
    intro n hn hlt
    simp only [hlook]
    by_cases e : cur.addr = n.addr
    · have := mem_eq_of_addr h.addr_nodup hcur hn e
      subst this
      simp only [if_true]
      exact hold hlt (h.old_ok _ hn hlt)
    · simp only [e, if_false]
      exact h.old_ok n hn hlt
  new_ok := by
    intro n hn hge
    simp only [hlook]
    by_cases e : cur.addr = n.addr
    · have := mem_eq_of_addr h.addr_nodup hcur hn e
      subst this
      simp only [if_true]
      exact hnew hge (h.new_ok _ hn hge)
    · simp only [e, if_false]
      exact h.new_ok n hn hge
  unalloc := by
    intro a ha
    have hlt := h.addr_lt cur hcur
    have hne : ¬ cur.addr = a := by
      have ha' : s.l.heap_next ≤ a := ha
      omega
    simp only [hlook, hne, if_false]
    exact h.unalloc a ha

/-- A step that changes no node item and not the list keeps the invariant. -/
theorem TxInv.sentinel_step {T : Type} {comp : T → T → Int} {l0 : ListState T} {s : TxState T}
    (h : TxInv comp l0 s) (items' : List (TransItem T))
    (hlook : ∀ b, t_item (Key.node b) items' = t_item (Key.node b) s.items)
    (hk : (items'.map TransItem.key).Nodup) :
    TxInv comp l0 { l := s.l, items := items' } where
  addr_nodup := h.addr_nodup
  addr_lt := h.addr_lt
  heap_le := h.heap_le
  keys_nodup := hk
  frame := h.frame
  count := h.count
  version := h.version
  old_ok := by
    intro n hn hlt
    rw [hlook]
    exact h.old_ok n hn hlt
  new_ok := by
    intro n hn hge
    rw [hlook]
    exact h.new_ok n hn hge
  unalloc := by
    intro a ha
    rw [hlook]
    exact h.unalloc a ha

/-- Linking a fresh node whose item becomes an own insert keeps the invariant. -/
theorem TxInv.insert_step {T : Type} {comp : T → T → Int} {l0 : ListState T} {s : TxState T}
    (h : TxInv comp l0 s) (pre post : List (list_node T)) (hsplit : s.l.head_ = pre ++ post)
    (elem : T) (items' : List (TransItem T))
    (hlook : ∀ b, b ≠ s.l.heap_next → t_item (Key.node b) items' = t_item (Key.node b) s.items)
    (hnewitem : NewItemOk (t_item (Key.node s.l.heap_next) items'))
    (hk : (items'.map TransItem.key).Nodup) :
    TxInv comp l0
      { l := { s.l with
                head_ := pre ++ { addr := s.l.heap_next, val := elem, invalid := true } :: post,
                heap_next := s.l.heap_next + 1 },
        items := items' } := by
  have hmem : ∀ n, n ∈ pre ++ { addr := s.l.heap_next, val := elem, invalid := true } :: post →
      n = { addr := s.l.heap_next, val := elem, invalid := true } ∨ n ∈ s.l.head_ := by
    intro n hn
    rw [hsplit]
    simp only [List.mem_append, List.mem_cons] at hn ⊢
    tauto
  have hnd := h.addr_nodup
  have hlt := h.addr_lt
  rw [hsplit] at hnd hlt
  constructor
  · simp only [List.map_append, List.map_cons]
    simp only [List.map_append] at hnd
    rw [List.nodup_append] at hnd ⊢
    refine ⟨hnd.1, ?_, ?_⟩
    · rw [List.nodup_cons]
      refine ⟨?_, hnd.2.1⟩
      intro hm
      obtain ⟨m, hm1, hm2⟩ := List.mem_map.mp hm
      have := hlt m (List.mem_append_right _ hm1)
      omega
    · intro a ha1 ha2
      rcases List.mem_cons.mp ha2 with e | ha2'
      · obtain ⟨m, hm1, hm2⟩ := List.mem_map.mp ha1
        have := hlt m (List.mem_append_left _ hm1)
        omega
      · exact hnd.2.2 ha1 ha2'
  · intro n hn
    rcases hmem n hn with rfl | hn'
    · simp
    · have := h.addr_lt n hn'
      simp only
      omega
  · have := h.heap_le
    simp only
    omega
  · exact hk
  · have hf := h.frame
    rw [hsplit] at hf
    have hge := h.heap_le
    simp only [List.filter_append, List.filter_cons] at hf ⊢
    have : ¬ s.l.heap_next < l0.heap_next := by omega
    simp only [this, decide_False, Bool.false_eq_true, if_false]
    exact hf
  · exact h.count
  · exact h.version
  · intro n hn hlt'
    rcases hmem n hn with rfl | hn'
    · have := h.heap_le
      simp only at hlt'
      omega
    · have hne : n.addr ≠ s.l.heap_next := by
        have := h.addr_lt n hn'
        omega
      simp only [hlook _ hne]
      exact h.old_ok n hn' hlt'
  · intro n hn hge
    rcases hmem n hn with rfl | hn'
    · exact hnewitem
    · have hne : n.addr ≠ s.l.heap_next := by
        have := h.addr_lt n hn'
        omega
      simp only [hlook _ hne]
      exact h.new_ok n hn' hge
  · intro a ha
    have ha' : s.l.heap_next + 1 ≤ a := ha
    rw [hlook a (by omega)]
    exact h.unalloc a (by omega)

/-- Unlinking an own insert keeps the invariant, whatever becomes of its item. -/
theorem TxInv.remove_step {T : Type} {comp : T → T → Int} {l0 : ListState T} {s : TxState T}
    (h : TxInv comp l0 s) (cur : list_node T) (hcur : cur ∈ s.l.head_)
    (hge : l0.heap_next ≤ cur.addr)
    (items' : List (TransItem T))
    (hlook : ∀ b, b ≠ cur.addr → t_item (Key.node b) items' = t_item (Key.node b) s.items)
    (hk : (items'.map TransItem.key).Nodup) :
    TxInv comp l0 { l := (removeNode true cur.addr s.l).2, items := items' } := by
  rw [removeNode_txnal_eq _ _ h.addr_nodup]
  have hsub : (s.l.head_.filter (fun n => !decide (n.addr = cur.addr))).Sublist s.l.head_ :=
    List.filter_sublist _
  have hmem : ∀ n, n ∈ s.l.head_.filter (fun n => !decide (n.addr = cur.addr)) →
      n ∈ s.l.head_ ∧ n.addr ≠ cur.addr := by
    intro n hn
    simpa using List.mem_filter.mp hn
  constructor
  · exact (hsub.map _).nodup h.addr_nodup
  · intro n hn
    exact h.addr_lt n (hmem n hn).1
  · exact h.heap_le
  · exact hk
  · simp only
    rw [List.filter_filter, ← h.frame]
    apply List.filter_congr
    intro n _
    by_cases e : n.addr = cur.addr
    · have : ¬ n.addr < l0.heap_next := by omega
      simp [e, this, hge]
    · simp [e]
  · exact h.count
  · exact h.version
  · intro n hn hlt
    obtain ⟨hn', hne⟩ := hmem n hn
    rw [hlook _ hne]
    exact h.old_ok n hn' hlt
  · intro n hn hge'
    obtain ⟨hn', hne⟩ := hmem n hn
    rw [hlook _ hne]
    exact h.new_ok n hn' hge'
  · intro a ha
    have hlt := h.addr_lt cur hcur
    have ha' : s.l.heap_next ≤ a := ha
    rw [hlook a (by omega)]
    exact h.unalloc a ha'

theorem _find_mem {T : Type} (cfg : Config) (comp : T → T → Int) (elem : T) :
    ∀ (nodes : List (list_node T)) (n : list_node T), _find cfg comp elem nodes = some n →
    n ∈ nodes ∧ comp n.val elem = 0 := by
  intro nodes
  induction nodes with
  | nil => intro n h; simp [_find] at h
  | cons cur rest ih =>
    intro n h
    simp only [_find] at h
    by_cases hc : comp cur.val elem = 0
    · simp only [hc, if_true, Option.some.injEq] at h
      subst h
      exact ⟨List.mem_cons_self _ _, hc⟩
    · simp only [hc, if_false] at h
      split_ifs at h
      obtain ⟨h1, h2⟩ := ih n h
      exact ⟨List.mem_cons_of_mem _ h1, h2⟩

theorem transFind_inv {T : Type} (cfg : Config) {comp : T → T → Int} {l0 : ListState T}
    {s : TxState T} (h : TxInv comp l0 s) (elem : T) :
    TxInv comp l0 (transFind cfg comp elem s).2 := by
  unfold transFind
  simp only []
  cases hf : _find cfg comp elem s.l.head_ with
  | none =>
    exact h.sentinel_step _ (by intro b; simp [t_item_updItem, observe_key])
      (by simp [nodup_keys_updItem, observe_key, h.keys_nodup])
  | some n =>
    obtain ⟨hmem, hc⟩ := _find_mem cfg comp elem _ _ hf
    simp only []
    split_ifs
    · exact h.item_step n hmem _ id (by intro b; simp [t_item_updItem])
        (by simp [nodup_keys_updItem, h.keys_nodup]) (fun _ x => x) (fun _ x => x)
    · exact h.item_step n hmem _ id (by intro b; simp [t_item_updItem])
        (by simp [nodup_keys_updItem, h.keys_nodup]) (fun _ x => x) (fun _ x => x)
    · exact h.item_step n hmem _ TransItem.add_read
        (by intro b; simp [t_item_updItem, TransItem.add_read])
        (by simp [nodup_keys_updItem, TransItem.add_read, h.keys_nodup])
        (fun _ x => x) (fun _ x => x)

theorem ite_ite_same {α : Type} (c : Prop) [Decidable c] (a b d : α) :
    (if c then a else if c then b else d) = if c then a else d := by
  split_ifs <;> rfl

theorem transInsert_inv {T : Type} (cfg : Config) {comp : T → T → Int} {l0 : ListState T}
    {s : TxState T} (h : TxInv comp l0 s) (elem : T) :
    TxInv comp l0 (transInsert cfg comp elem s).2 := by
  rcases _insert_txnal cfg comp elem s.l with ⟨cur, hmem, hc, _, e⟩ | ⟨pre, post, hsplit, e, _, _⟩
  · unfold transInsert
    simp only [e, Bool.not_false, if_true]
    split_ifs with h1 h2 h3 h4
    · exact h.item_step cur hmem _ id (by intro b; simp [t_item_updItem])
        (by simp [nodup_keys_updItem, h.keys_nodup]) (fun _ x => x) (fun _ x => x)
    · exact h.item_step cur hmem _ id (by intro b; simp [t_item_updItem])
        (by simp [nodup_keys_updItem, h.keys_nodup]) (fun _ x => x) (fun _ x => x)
    · exact h.item_step cur hmem _ id (by intro b; simp [t_item_updItem])
        (by simp [nodup_keys_updItem, h.keys_nodup]) (fun _ x => x) (fun _ x => x)
    · refine h.item_step cur hmem _
        (fun it => (it.clear_write.add_write (some elem)).assign_flags doupdate_bit)
        (by intro b; simp [add_trans_size_offs, t_item_updItem, TransItem.clear_write,
              TransItem.add_write, TransItem.assign_flags, TransItem.set_stash, ite_ite_same])
        (by simp [add_trans_size_offs, nodup_keys_updItem, TransItem.clear_write,
              TransItem.add_write, TransItem.assign_flags, TransItem.set_stash, h.keys_nodup])
        ?_ ?_
      · intro _ _
        right; right
        exact ⟨rfl, rfl, elem, rfl, hc⟩
      · intro _ hn
        simp [has_delete, hn.2, Flags.test, insert_bit, delete_bit] at h4
    · exact h.item_step cur hmem _ TransItem.add_read
        (by intro b; simp [t_item_updItem, TransItem.add_read, ite_ite_same])
        (by simp [nodup_keys_updItem, TransItem.add_read, h.keys_nodup])
        (fun _ x => x) (fun _ x => x)
  · unfold transInsert
    simp only [e, Bool.not_true, Bool.false_eq_true, if_false]
    refine h.insert_step pre post hsplit elem _ ?_ ?_ ?_
    · intro b hb
      have hb' : ¬ s.l.heap_next = b := fun e => hb e.symm
      simp [add_lock_list_item, add_trans_size_offs, t_item_updItem, TransItem.add_write,
        TransItem.add_flags, TransItem.set_stash, hb']
    · have hu := h.unalloc s.l.heap_next (le_refl _)
      simp [add_lock_list_item, add_trans_size_offs, t_item_updItem, TransItem.add_write,
        TransItem.add_flags, TransItem.set_stash, NewItemOk, hu, Flags.none, insert_bit,
        TransItem.fresh]
    · simp [add_lock_list_item, add_trans_size_offs, nodup_keys_updItem, TransItem.add_write,
        TransItem.add_flags, TransItem.set_stash, h.keys_nodup]

theorem transDelete_inv {T : Type} (cfg : Config) {comp : T → T → Int} {l0 : ListState T}
    {s : TxState T} (h : TxInv comp l0 s) (elem : T) :
    TxInv comp l0 (transDelete cfg comp elem s).2 := by
  unfold transDelete
  simp only []
  cases hf : _find cfg comp elem s.l.head_ with
  | none =>
    exact h.sentinel_step _ (by intro b; simp [t_item_updItem, observe_key])
      (by simp [nodup_keys_updItem, observe_key, h.keys_nodup])
  | some n =>
    obtain ⟨hmem, hc⟩ := _find_mem cfg comp elem _ _ hf
    simp only []
    split_ifs with h1 h2 h3 h4
    · exact h.item_step n hmem _ id (by intro b; simp [t_item_updItem])
        (by simp [nodup_keys_updItem, h.keys_nodup]) (fun _ x => x) (fun _ x => x)
    · exact h.item_step n hmem _ id (by intro b; simp [t_item_updItem])
        (by simp [nodup_keys_updItem, h.keys_nodup]) (fun _ x => x) (fun _ x => x)
    · refine h.item_step n hmem _ (TransItem.assign_flags delete_bit)
        (by intro b; simp [add_trans_size_offs, t_item_updItem, TransItem.assign_flags,
              TransItem.set_stash, ite_ite_same])
        (by simp [add_trans_size_offs, nodup_keys_updItem, TransItem.assign_flags,
              TransItem.set_stash, h.keys_nodup])
        ?_ ?_
      · intro _ ho
        rcases ho with ⟨_, hfl⟩ | ⟨_, hfl⟩ | ⟨hw, _, _⟩
        · simp [has_doupdate, hfl, Flags.test, Flags.none, doupdate_bit] at h3
        · simp [has_doupdate, hfl, Flags.test, delete_bit, doupdate_bit] at h3
        · right; left
          exact ⟨hw, rfl⟩
      · intro _ hn
        simp [has_doupdate, hn.2, Flags.test, insert_bit, doupdate_bit] at h3
    · have hge : l0.heap_next ≤ n.addr := by
        by_contra hlt
        rcases h.old_ok n hmem (by omega) with ⟨hw, _⟩ | ⟨_, hfl⟩ | ⟨_, hfl, _⟩
        · simp [has_insert, TransItem.has_write, hw] at h4
        · simp [has_delete, hfl, Flags.test, delete_bit] at h2
        · simp [has_doupdate, hfl, Flags.test, doupdate_bit] at h3
      refine h.remove_step n hmem hge _ ?_ ?_
      · intro b hb
        have hb' : ¬ n.addr = b := fun e => hb e.symm
        simp [verify_list, add_trans_size_offs, t_item_updItem, observe_key,
          TransItem.remove_read, TransItem.remove_write, TransItem.clear_flags,
          TransItem.set_stash, hb']
      · simp [verify_list, add_trans_size_offs, nodup_keys_updItem, observe_key,
          TransItem.remove_read, TransItem.remove_write, TransItem.clear_flags,
          TransItem.set_stash, h.keys_nodup]
    · refine h.item_step n hmem _
        (fun it => ((it.assign_flags delete_bit).add_write none).add_read)
        (by intro b; simp [add_trans_size_offs, add_lock_list_item, t_item_updItem,
              TransItem.assign_flags, TransItem.add_write, TransItem.add_read,
              TransItem.set_stash, ite_ite_same])
        (by simp [add_trans_size_offs, add_lock_list_item, nodup_keys_updItem,
              TransItem.assign_flags, TransItem.add_write, TransItem.add_read,
              TransItem.set_stash, h.keys_nodup])
        ?_ ?_
      · intro _ _
        right; left
        exact ⟨rfl, rfl⟩
      · intro _ hn
        simp [has_insert, has_delete, has_doupdate, TransItem.has_write, hn.1, hn.2, Flags.test,
          insert_bit, delete_bit, doupdate_bit] at h4

theorem step_inv {T : Type} (cfg : Config) {comp : T → T → Int} {l0 : ListState T}
    {s : TxState T} (h : TxInv comp l0 s) (op : Op T) :
    TxInv comp l0 (step cfg comp op s).2 := by
  cases op with
  | transInsert elem => exact transInsert_inv cfg h elem
  | transDelete elem => exact transDelete_inv cfg h elem
  | transFind elem => exact transFind_inv cfg h elem

theorem run_inv {T : Type} (cfg : Config) {comp : T → T → Int} {l0 : ListState T}
    (ops : List (Op T)) : ∀ {s : TxState T}, TxInv comp l0 s →
    TxInv comp l0 (run cfg comp ops s).2 := by
  induction ops with
  | nil => intro s h; exact h
  | cons op ops ih =>
    intro s h
    have h1 := step_inv cfg h op
    simp only [run]
    rcases hr : step cfg comp op s with ⟨r, s'⟩
    rw [hr] at h1
    rcases r with _ | r
    · exact h1
    · exact ih h1

/-! ## Verification: cleanup after an abort -/

theorem cleanup_eq {T : Type} (it : TransItem T) (l : ListState T)
    (hnd : (l.head_.map (fun n => n.addr)).Nodup) :
    cleanup it false l =
      { l with
        head_ := l.head_.filter
                   (fun n => !(it.flags.test insert_bit && decide (it.key = Key.node n.addr))) } := by
  have e : ∀ (p : list_node T → Bool), (∀ n ∈ l.head_, p n = true) →
      l = { l with head_ := l.head_.filter p } := by
    intro p hp
    rw [List.filter_eq_self.mpr hp]
  unfold cleanup
  by_cases hf : it.flags.test insert_bit = true
  · cases hkey : it.key with
    | node a =>
      simp only [Bool.not_false, Bool.true_and, hf, if_true]
      rw [removeNode_txnal_eq a l hnd]
      congr 1
      apply List.filter_congr
      intro n _
      simp [eq_comm]
    | list_key =>
      simp only [Bool.not_false, Bool.true_and, hf, if_true]
      exact e _ (by intro n _; simp)
    | size_key =>
      simp only [Bool.not_false, Bool.true_and, hf, if_true]
      exact e _ (by intro n _; simp)
  · rw [Bool.not_eq_true] at hf
    simp only [Bool.not_false, Bool.true_and, hf, Bool.false_eq_true, if_false]
    exact e _ (by intro n _; simp)

theorem abortCleanup_eq {T : Type} (items : List (TransItem T)) :
    ∀ (l : ListState T), (l.head_.map (fun n => n.addr)).Nodup →
    abortCleanup items l =
      { l with
        head_ := l.head_.filter (fun n =>
                   !(items.any (fun it =>
                       it.flags.test insert_bit && decide (it.key = Key.node n.addr)))) } := by
  induction items with
  | nil =>
    intro l _
    simp [abortCleanup]
  | cons it its ih =>
    intro l hnd
    simp only [abortCleanup]
    rw [cleanup_eq it l hnd, ih]
    · simp only [List.filter_filter, List.any_cons, Bool.not_or]
      congr 1
      apply List.filter_congr
      intro n _
      rw [Bool.and_comm]
    · exact ((List.filter_sublist _).map _).nodup hnd

theorem any_insert_flag_eq {T : Type} (items : List (TransItem T))
    (hk : (items.map TransItem.key).Nodup) (a : Nat) :
    items.any (fun it => it.flags.test insert_bit && decide (it.key = Key.node a)) =
      (t_item (Key.node a) items).flags.test insert_bit := by
  induction items with
  | nil => simp [t_item, check_item, TransItem.fresh, Flags.test, Flags.none]
  | cons it its ih =>
    simp only [List.map_cons, List.nodup_cons] at hk
    by_cases hkey : it.key = Key.node a
    · have hnone : its.any (fun it => it.flags.test insert_bit && decide (it.key = Key.node a))
          = false := by
        rw [List.any_eq_false]
        intro x hx
        have : ¬ x.key = Key.node a := by
          intro e
          exact hk.1 (by rw [hkey, ← e]; exact List.mem_map_of_mem TransItem.key hx)
        simp [this]
      simp [List.any_cons, hnone, t_item, check_item, hkey]
    · have := ih hk.2
      unfold t_item at this ⊢
      simp only [List.any_cons, hkey, decide_False, Bool.and_false, Bool.false_or, check_item,
        if_false]
      exact this

/-! ## Verification: commit -/

theorem commitAct_addr {T : Type} (item : TransItem T) (n n' : list_node T)
    (h : commitAct item n = some n') : n'.addr = n.addr := by
  unfold commitAct at h
  split_ifs at h
  · cases hv : item.write_value with
    | none => simp only [hv, Option.some.injEq] at h; rw [← h]
    | some v => simp only [hv, Option.some.injEq] at h; rw [← h]
  · simp only [Option.some.injEq] at h; rw [← h]; rfl
  · simp only [Option.some.injEq] at h; rw [← h]

theorem nodup_filterMap_addr {T : Type} (f : list_node T → Option (list_node T))
    (hf : ∀ n n', f n = some n' → n'.addr = n.addr) (nodes : List (list_node T))
    (hnd : (nodes.map (fun n => n.addr)).Nodup) :
    ((nodes.filterMap f).map (fun n => n.addr)).Nodup := by
  have hsub : ((nodes.filterMap f).map (fun n => n.addr)).Sublist (nodes.map (fun n => n.addr)) := by
    induction nodes with
    | nil => simp
    | cons c rest ih =>
      simp only [List.map_cons, List.nodup_cons] at hnd
      simp only [List.filterMap_cons]
      cases hc : f c with
      | none => exact (ih hnd.2).trans (List.sublist_cons_self _ _)
      | some c' =>
        simp only [List.map_cons, hf c c' hc]
        exact (ih hnd.2).cons₂ _
  exact hsub.nodup hnd

/-- The effect of one `install` on the node sequence and on `count`. -/
theorem install_eq {T : Type} (cfg : Config) (hO : cfg.Opacity = true) (tid : Nat)
    (it : TransItem T) (hw : it.write = true) (hok : InstallOk it) (l : ListState T)
    (hnd : (l.head_.map (fun n => n.addr)).Nodup) :
    ∃ l', install cfg tid it l = some l' ∧
      l'.head_ = l.head_.filterMap
        (fun n => if it.key = Key.node n.addr then commitAct it n else some n) ∧
      l'.listsize_ = l.listsize_ + countContrib it := by
  unfold install
  cases hkey : it.key with
  | list_key =>
    refine ⟨l, rfl, ?_, ?_⟩
    · simp
    · simp [countContrib, hkey, hw]
  | size_key =>
    simp only [InstallOk, hkey] at hok
    rw [hw] at hok
    exact absurd hok (by decide)
  | node a =>
    simp only [InstallOk, hkey] at hok
    simp only []
    by_cases hd : has_delete it = true
    · simp only [hd, if_true]
      refine ⟨_, rfl, ?_, ?_⟩
      · rw [removeNode_txnal_eq a l hnd]
        simp only [Key.node.injEq]
        rw [← List.filterMap_eq_filter]
        apply List.filterMap_congr
        intro n _
        by_cases e : n.addr = a
        · simp [e, commitAct, hw, hd]
        · have e' : ¬ a = n.addr := fun x => e x.symm
          simp [e, e', Option.guard]
      · rw [removeNode_txnal_listsize]
        simp [countContrib, hkey, hw, hd]
    · rw [Bool.not_eq_true] at hd
      by_cases hu : has_doupdate it = true
      · have hv := hok hw hd hu
        obtain ⟨v, hv'⟩ := Option.isSome_iff_exists.mp hv
        simp only [hd, hu, hv', Bool.false_eq_true, if_false, if_true]
        refine ⟨_, rfl, ?_, ?_⟩
        · simp only [atNode, Key.node.injEq]
          rw [← List.filterMap_eq_map]
          apply List.filterMap_congr
          intro n _
          by_cases e : n.addr = a
          · simp [e, commitAct, hw, hd, hu, hv']
          · have e' : ¬ a = n.addr := fun x => e x.symm
            simp [e, e']
        · simp [atNode, countContrib, hkey, hw, hd, hu]
      · rw [Bool.not_eq_true] at hu
        simp only [hd, hu, hO, Bool.false_eq_true, if_false, if_true]
        refine ⟨_, rfl, ?_, ?_⟩
        · simp only [atNode, Key.node.injEq]
          rw [← List.filterMap_eq_map]
          apply List.filterMap_congr
          intro n _
          by_cases e : n.addr = a
          · simp [e, commitAct, hw, hd, hu]
          · have e' : ¬ a = n.addr := fun x => e x.symm
            simp [e, e']
        · simp [atNode, countContrib, hkey, hw, hd, hu]

theorem t_item_cons {T : Type} (it : TransItem T) (its : List (TransItem T)) (k : Key) :
    t_item k (it :: its) = if it.key = k then it else t_item k its := by
  unfold t_item
  by_cases h : it.key = k
  · simp [check_item, h]
  · simp [check_item, h]

theorem t_item_fresh_of_not_mem {T : Type} (its : List (TransItem T)) (k : Key)
    (h : k ∉ its.map TransItem.key) : t_item k its = TransItem.fresh k := by
  induction its with
  | nil => rfl
  | cons i is ih =>
    simp only [List.map_cons, List.mem_cons, not_or] at h
    rw [t_item_cons]
    have : ¬ i.key = k := fun e => h.1 e.symm
    simp only [this, if_false]
    exact ih h.2

/-- The install phase of a commit, with `Opacity = yes`, installable items and
distinct keys and addresses: every node is replaced by what its own item makes
of it, and `count` moves by the sum of the contributions of the items. -/
theorem commitInstall_eq {T : Type} (cfg : Config) (hO : cfg.Opacity = true) (tid : Nat)
    (items : List (TransItem T)) :
    (items.map TransItem.key).Nodup → (∀ it ∈ items, InstallOk it) →
    ∀ (l : ListState T), (l.head_.map (fun n => n.addr)).Nodup →
    ∃ l', commitInstall cfg tid items l = some l' ∧
      l'.head_ = l.head_.filterMap (commitNode items) ∧
      l'.listsize_ = l.listsize_ + pendingDelta items := by
  induction items with
  | nil =>
    intro _ _ l _
    refine ⟨l, rfl, ?_, ?_⟩
    · have : (commitNode ([] : List (TransItem T))) = some := by
        funext n
        simp [commitNode, commitAct, t_item, check_item, TransItem.fresh]
      rw [this, List.filterMap_some]
    · simp [pendingDelta]
  | cons it its ih =>
    intro hk hok l hnd
    simp only [List.map_cons, List.nodup_cons] at hk
    have hok' : ∀ i ∈ its, InstallOk i := fun i hi => hok i (List.mem_cons_of_mem _ hi)
    have hstep : ∀ n : list_node T,
        (if it.key = Key.node n.addr then commitAct it n else some n).bind (commitNode its) =
          commitNode (it :: its) n := by
      intro n
      by_cases e : it.key = Key.node n.addr
      · simp only [e, if_true, commitNode, t_item_cons]
        cases hc : commitAct it n with
        | none => rfl
        | some n' =>
          have ha := commitAct_addr it n n' hc
          have hfresh := t_item_fresh_of_not_mem its (Key.node n.addr) (e ▸ hk.1)
          simp only [Option.some_bind, ha, hfresh]
          simp [commitAct, TransItem.fresh]
      · simp only [e, if_false, Option.some_bind, commitNode, t_item_cons]
    by_cases hw : it.write = true
    · obtain ⟨l1, e1, h1, c1⟩ := install_eq cfg hO tid it hw (hok it (List.mem_cons_self _ _)) l hnd
      have hnd1 : (l1.head_.map (fun n => n.addr)).Nodup := by
        rw [h1]
        apply nodup_filterMap_addr _ _ _ hnd
        intro n n' hn
        split_ifs at hn
        · exact commitAct_addr it n n' hn
        · simp only [Option.some.injEq] at hn; rw [← hn]
      obtain ⟨l2, e2, h2, c2⟩ := ih hk.2 hok' l1 hnd1
      refine ⟨l2, ?_, ?_, ?_⟩
      · simp only [commitInstall, TransItem.has_write, hw, if_true, e1, e2]
      · rw [h2, h1, List.filterMap_filterMap]
        apply List.filterMap_congr
        intro n _
        exact hstep n
      · rw [c2, c1]
        simp only [pendingDelta]
        omega
    · rw [Bool.not_eq_true] at hw
      obtain ⟨l2, e2, h2, c2⟩ := ih hk.2 hok' l hnd
      refine ⟨l2, ?_, ?_, ?_⟩
      · simp only [commitInstall, TransItem.has_write, hw, Bool.false_eq_true, if_false, e2]
      · rw [h2]
        apply List.filterMap_congr
        intro n _
        rw [← hstep n]
        by_cases e : it.key = Key.node n.addr
        · simp [e, commitAct, hw, commitNode]
        · simp [e]
      · rw [c2]
        simp [pendingDelta, countContrib, hw]

/-- The item of a key does not depend on the order of the item map. -/
theorem t_item_perm {T : Type} {items order : List (TransItem T)}
    (hk : (items.map TransItem.key).Nodup) (hp : order.Perm items) (k : Key) :
    t_item k order = t_item k items := by
  have hk' : (order.map TransItem.key).Nodup := (hp.map TransItem.key).nodup_iff.mpr hk
  by_cases hmem : k ∈ order.map TransItem.key
  · obtain ⟨it, hit, rfl⟩ := List.mem_map.mp hmem
    rw [t_item_of_mem order hk' it hit, t_item_of_mem items hk it (hp.subset hit)]
  · have hmem' : k ∉ items.map TransItem.key := fun h => hmem ((hp.map TransItem.key).symm.subset h)
    rw [t_item_fresh_of_not_mem order k hmem, t_item_fresh_of_not_mem items k hmem']

theorem pendingDelta_perm {T : Type} {items order : List (TransItem T)} (hp : order.Perm items) :
    pendingDelta order = pendingDelta items := by
  induction hp with
  | nil => rfl
  | cons x _ ih => simp only [pendingDelta, ih]
  | swap x y l => simp only [pendingDelta]; omega
  | trans _ _ ih1 ih2 => rw [ih1, ih2]

theorem commitNode_perm {T : Type} {items order : List (TransItem T)}
    (hk : (items.map TransItem.key).Nodup) (hp : order.Perm items) :
    commitNode order = commitNode items := by
  funext n
  unfold commitNode
  rw [t_item_perm hk hp]

/-! ## Verification: abort is atomic -/

/-- Claim C10. Abort is atomic, in every configuration and on every (well-formed)
list: after any sequence of `transInsert` / `transDelete` / `transFind` calls of
one transaction, whether or not one of them aborted, running
`cleanup(item, false)` on every item of the transaction, in any order, leaves
the node sequence (addresses, values, invalid bits), `count` and the
size-version exactly as they were before the transaction started; so no node
reserved by the transaction remains linked. -/
theorem abort_is_atomic {T : Type} (cfg : Config) (comp : T → T → Int) (l : ListState T)
    (hwf : l.wf) (ops : List (Op T)) (order : List (TransItem T))
    (hp : order.Perm (run cfg comp ops (TxState.start l)).2.items) :
    (abortCleanup order (run cfg comp ops (TxState.start l)).2.l).head_ = l.head_ ∧
    (abortCleanup order (run cfg comp ops (TxState.start l)).2.l).listsize_ = l.listsize_ ∧
    (abortCleanup order (run cfg comp ops (TxState.start l)).2.l).sizeversion_ =
      l.sizeversion_ := by
  have h := run_inv cfg ops (TxInv.initial comp l hwf)
  have hk : (order.map TransItem.key).Nodup := (hp.map TransItem.key).nodup_iff.mpr h.keys_nodup
  rw [abortCleanup_eq _ _ h.addr_nodup]
  refine ⟨?_, h.count, h.version⟩
  simp only
  rw [← h.frame]
  apply List.filter_congr
  intro n hn
  rw [any_insert_flag_eq _ hk, t_item_perm h.keys_nodup hp]
  by_cases hlt : n.addr < l.heap_next
  · have : (t_item (Key.node n.addr) (run cfg comp ops (TxState.start l)).2.items).flags.test
        insert_bit = false := by
      rcases h.old_ok n hn hlt with ⟨_, hfl⟩ | ⟨_, hfl⟩ | ⟨_, hfl, _⟩ <;>
        simp [hfl, Flags.test, Flags.none, insert_bit, delete_bit, doupdate_bit]
    simp [this, hlt]
  · have := (h.new_ok n hn (by omega)).2
    simp [this, Flags.test, insert_bit, hlt]

theorem list135_wf : list135.wf := by
  constructor
  · simp [list135]
  · intro n hn
    simp only [list135, List.mem_cons, List.mem_singleton, List.not_mem_nil, or_false] at hn
    rcases hn with rfl | rfl | rfl <;> simp [list135]

/-- Scenario S6 on `[1,3,5]`: `transInsert(7)` links a reserved invalid node;
after the abort the node sequence is the initial one and `find(7)` finds nothing. -/
theorem abort_is_atomic_witness :
    list135.wf ∧
    (run Config.default intCompare [Op.transInsert 7] (TxState.start list135)).2.l.head_ =
      [⟨2, 1, false⟩, ⟨3, 3, false⟩, ⟨4, 5, false⟩, ⟨5, 7, true⟩] ∧
    (abortCleanup (run Config.default intCompare [Op.transInsert 7] (TxState.start list135)).2.items
      (run Config.default intCompare [Op.transInsert 7] (TxState.start list135)).2.l).head_
      = list135.head_ ∧
    find Config.default intCompare 7
      (abortCleanup (run Config.default intCompare [Op.transInsert 7] (TxState.start list135)).2.items
        (run Config.default intCompare [Op.transInsert 7] (TxState.start list135)).2.l) = none :=
  ⟨list135_wf, by decide,
   (abort_is_atomic Config.default intCompare list135 list135_wf [Op.transInsert 7] _
     (List.Perm.refl _)).1,
   by decide⟩

/-! ## Verification: one transaction against the set semantics -/

theorem commitNode_equiv {T : Type} {comp : T → T → Int} (hL : Lawful comp) {l0 : ListState T}
    {s : TxState T} (h : TxInv comp l0 s) {n n' : list_node T} (hn : n ∈ s.l.head_)
    (hc : commitNode s.items n = some n') : comp n.val n'.val = 0 := by
  unfold commitNode commitAct at hc
  by_cases hlt : n.addr < l0.heap_next
  · rcases h.old_ok n hn hlt with ⟨hw, _⟩ | ⟨hw, hfl⟩ | ⟨hw, hfl, v, hv, hcv⟩
    · simp only [hw, Bool.false_eq_true, if_false, Option.some.injEq] at hc
      rw [← hc]; exact hL.refl _
    · simp [hw, has_delete, hfl, Flags.test, delete_bit] at hc
    · simp only [hw, has_delete, has_doupdate, hfl, Flags.test, delete_bit, doupdate_bit, hv,
        Bool.and_false, Bool.and_true, Bool.or_false, Bool.false_eq_true, if_false, if_true,
        Bool.false_and, Bool.or_self, Bool.true_and, Bool.or_true, Option.some.injEq] at hc
      rw [← hc]; exact hcv
  · obtain ⟨hw, hfl⟩ := h.new_ok n hn (by omega)
    simp only [hw, has_delete, has_doupdate, hfl, Flags.test, delete_bit, doupdate_bit,
      insert_bit, Bool.and_false, Bool.and_true, Bool.or_false, Bool.false_eq_true, if_false,
      if_true, Bool.false_and, Bool.or_self, Bool.true_and, Option.some.injEq] at hc
    rw [← hc]; exact hL.refl _

/-- In a strictly increasing list, compare-equal members are the same node. -/
theorem eq_of_equiv_of_sorted {T : Type} {comp : T → T → Int} (hL : Lawful comp)
    {nodes : List (list_node T)} (hs : nodes.Pairwise (fun a b => comp a.val b.val < 0))
    {a b : list_node T} (ha : a ∈ nodes) (hb : b ∈ nodes) (e : comp a.val b.val = 0) : a = b := by
  induction nodes with
  | nil => simp at ha
  | cons c rest ih =>
    rw [List.pairwise_cons] at hs
    rcases List.mem_cons.mp ha with rfl | ha'
    · rcases List.mem_cons.mp hb with rfl | hb'
      · rfl
      · have := hs.1 b hb'
        omega
    · rcases List.mem_cons.mp hb with rfl | hb'
      · have := hs.1 a ha'
        have := hL.eq_symm e
        omega
      · exact ih hs.2 ha' hb'

theorem commitNode_congr {T : Type} (items items' : List (TransItem T)) (n : list_node T)
    (h : t_item (Key.node n.addr) items' = t_item (Key.node n.addr) items) :
    commitNode items' n = commitNode items n := by
  unfold commitNode
  rw [h]

/-- The view around a node `cur` equal to the key `k`: the views of the other
nodes hold no element equal to `k`, and they do not depend on the item of `cur`. -/
theorem view_split_at {T : Type} {comp : T → T → Int} (hL : Lawful comp) {l0 : ListState T}
    {S : List T} {s : TxState T} (h : SetInv comp l0 S s) {cur : list_node T}
    (hcur : cur ∈ s.l.head_) {k : T} (hc : comp cur.val k = 0) :
    ∃ A B, (∀ m ∈ A, comp m.val k ≠ 0) ∧ (∀ m ∈ B, comp m.val k ≠ 0) ∧
      ∀ items', (∀ b, b ≠ cur.addr → t_item (Key.node b) items' = t_item (Key.node b) s.items) →
        s.l.head_.filterMap (commitNode items') = A ++ (commitNode items' cur).toList ++ B ∧
        (s.l.head_.filter (fun n => !decide (n.addr = cur.addr))).filterMap (commitNode items')
          = A ++ B := by
  obtain ⟨pre, post, hsplit⟩ := List.append_of_mem hcur
  have hnd := h.core.addr_nodup
  rw [hsplit] at hnd
  simp only [List.map_append, List.map_cons] at hnd
  have hpre : ∀ n ∈ pre, n.addr ≠ cur.addr := by
    intro n hn e
    have hn' : n ∈ s.l.head_ := by rw [hsplit]; simp [hn]
    have := mem_eq_of_addr h.core.addr_nodup hn' hcur e
    subst this
    rw [List.nodup_append] at hnd
    exact hnd.2.2 (List.mem_map_of_mem (fun n => n.addr) hn) (List.mem_cons_self _ _)
  have hpost : ∀ n ∈ post, n.addr ≠ cur.addr := by
    intro n hn e
    rw [List.nodup_append, List.nodup_cons] at hnd
    exact hnd.2.1.1 (e ▸ List.mem_map_of_mem (fun n => n.addr) hn)
  have hne : ∀ n ∈ s.l.head_, n ≠ cur → ∀ m, commitNode s.items n = some m → comp m.val k ≠ 0 := by
    intro n hn hncur m hm hmk
    have h1 := commitNode_equiv hL h.core hn hm
    have h2 : comp n.val k = 0 := ((hL.eq_congr_left h1 k).1).mpr hmk
    have h3 : comp n.val cur.val = 0 :=
      ((hL.eq_congr_left (hL.eq_symm hc) n.val).1).mp (hL.eq_symm h2) |> hL.eq_symm
    exact hncur (eq_of_equiv_of_sorted hL h.sorted hn hcur h3)
  refine ⟨pre.filterMap (commitNode s.items), post.filterMap (commitNode s.items), ?_, ?_, ?_⟩
  · intro m hm
    obtain ⟨n, hn, hnm⟩ := List.mem_filterMap.mp hm
    exact hne n (by rw [hsplit]; simp [hn]) (fun e => hpre n hn (by rw [e])) m hnm
  · intro m hm
    obtain ⟨n, hn, hnm⟩ := List.mem_filterMap.mp hm
    exact hne n (by rw [hsplit]; simp [hn]) (fun e => hpost n hn (by rw [e])) m hnm
  · intro items' hlook
    have e1 : pre.filterMap (commitNode items') = pre.filterMap (commitNode s.items) :=
      List.filterMap_congr (fun n hn => commitNode_congr _ _ _ (hlook _ (hpre n hn)))
    have e2 : post.filterMap (commitNode items') = post.filterMap (commitNode s.items) :=
      List.filterMap_congr (fun n hn => commitNode_congr _ _ _ (hlook _ (hpost n hn)))
    constructor
    · rw [hsplit, List.filterMap_append, List.filterMap_cons, e1, e2]
      cases commitNode items' cur <;> simp
    · have : (s.l.head_.filter (fun n => !decide (n.addr = cur.addr))) = pre ++ post := by
        rw [hsplit, List.filter_append, List.filter_cons]
        simp only [decide_True, Bool.not_true, Bool.false_eq_true, if_false]
        rw [List.filter_eq_self.mpr, List.filter_eq_self.mpr]
        · intro n hn; simp [hpost n hn]
        · intro n hn; simp [hpre n hn]
      rw [this, List.filterMap_append, e1, e2]

theorem mem_eq_any {T : Type} (comp : T → T → Int) (S : List T) (V : List (list_node T))
    (habs : ∀ x, x ∈ S ↔ x ∈ V.map (fun n => n.val)) (k : T) :
    SetSpec.mem comp S k = V.any (fun n => decide (comp n.val k = 0)) := by
  rw [Bool.eq_iff_iff]
  simp only [SetSpec.mem, List.any_eq_true, decide_eq_true_eq]
  constructor
  · rintro ⟨x, hx, hxk⟩
    obtain ⟨n, hn, rfl⟩ := List.mem_map.mp ((habs x).mp hx)
    exact ⟨n, hn, hxk⟩
  · rintro ⟨n, hn, hnk⟩
    exact ⟨n.val, (habs _).mpr (List.mem_map_of_mem (fun n => n.val) hn), hnk⟩

theorem mem_absent {T : Type} (comp : T → T → Int) (S : List T) (V : List (list_node T))
    (habs : ∀ x, x ∈ S ↔ x ∈ V.map (fun n => n.val)) (k : T)
    (hV : ∀ m ∈ V, comp m.val k ≠ 0) : SetSpec.mem comp S k = false := by
  rw [mem_eq_any comp S V habs, List.any_eq_false]
  intro m hm
  simpa using hV m hm

theorem mem_present {T : Type} (comp : T → T → Int) (S : List T) (V : List (list_node T))
    (habs : ∀ x, x ∈ S ↔ x ∈ V.map (fun n => n.val)) (k : T) (m : list_node T) (hm : m ∈ V)
    (hmk : comp m.val k = 0) : SetSpec.mem comp S k = true := by
  rw [mem_eq_any comp S V habs, List.any_eq_true]
  exact ⟨m, hm, by simpa using hmk⟩

theorem abs_add {T : Type} (S : List T) (A B : List (list_node T)) (m : list_node T)
    (habs : ∀ x, x ∈ S ↔ x ∈ (A ++ B).map (fun n => n.val)) :
    ∀ x, x ∈ m.val :: S ↔ x ∈ (A ++ [m] ++ B).map (fun n => n.val) := by
  intro x
  have := habs x
  simp only [List.map_append, List.mem_append, List.mem_cons, List.map_cons, List.map_nil,
    List.not_mem_nil, or_false] at this ⊢
  rw [this]
  tauto

theorem abs_remove {T : Type} (comp : T → T → Int) (S : List T) (A B : List (list_node T))
    (m : list_node T) (k : T) (hm : comp m.val k = 0)
    (hA : ∀ a ∈ A, comp a.val k ≠ 0) (hB : ∀ b ∈ B, comp b.val k ≠ 0)
    (habs : ∀ x, x ∈ S ↔ x ∈ (A ++ [m] ++ B).map (fun n => n.val)) :
    ∀ x, x ∈ S.filter (fun x => !decide (comp x k = 0)) ↔ x ∈ (A ++ B).map (fun n => n.val) := by
  intro x
  have := habs x
  have hA' : x ∈ A.map (fun n => n.val) → comp x k ≠ 0 := by
    intro hx
    obtain ⟨a, ha, rfl⟩ := List.mem_map.mp hx
    exact hA a ha
  have hB' : x ∈ B.map (fun n => n.val) → comp x k ≠ 0 := by
    intro hx
    obtain ⟨b, hb, rfl⟩ := List.mem_map.mp hx
    exact hB b hb
  simp only [List.map_append, List.mem_append, List.mem_cons, List.map_cons, List.map_nil,
    List.not_mem_nil, or_false, List.mem_filter, Bool.not_eq_true', decide_eq_false_iff_not]
    at this ⊢
  rw [this]
  constructor
  · rintro ⟨(h | h) | h, hx⟩
    · exact Or.inl h
    · exact absurd (h ▸ hm) hx
    · exact Or.inr h
  · rintro (h | h)
    · exact ⟨Or.inl (Or.inl h), hA' h⟩
    · exact ⟨Or.inr h, hB' h⟩

theorem countContrib_fresh {T : Type} (k : Key) : countContrib (TransItem.fresh k : TransItem T) = 0 := by
  simp [countContrib, TransItem.fresh]

theorem pendingDelta_updItem {T : Type} (k : Key) (f : TransItem T → TransItem T)
    (items : List (TransItem T)) :
    pendingDelta (updItem k f items) =
      pendingDelta items - countContrib (t_item k items) + countContrib (f (t_item k items)) := by
  induction items with
  | nil => simp [updItem, pendingDelta, t_item, check_item, countContrib_fresh]
  | cons it its ih =>
    by_cases h : it.key = k
    · simp only [updItem, h, if_true, pendingDelta, t_item_cons]
      omega
    · simp only [updItem, h, if_false, pendingDelta, t_item_cons, ih]
      omega

theorem t_item_mem_or_fresh {T : Type} (k : Key) (items : List (TransItem T)) :
    t_item k items ∈ items ∨ t_item k items = TransItem.fresh k := by
  induction items with
  | nil => right; rfl
  | cons it its ih =>
    rw [t_item_cons]
    by_cases h : it.key = k
    · left; simp [h]
    · simp only [h, if_false]
      rcases ih with ih | ih
      · left; exact List.mem_cons_of_mem _ ih
      · right; exact ih

theorem forall_mem_updItem {T : Type} (P : TransItem T → Prop) (k : Key)
    (f : TransItem T → TransItem T) (items : List (TransItem T))
    (h : ∀ it ∈ items, P it) (hf : P (f (t_item k items))) :
    ∀ it ∈ updItem k f items, P it := by
  induction items with
  | nil =>
    intro it hit
    simp only [updItem, List.mem_singleton] at hit
    subst hit
    exact hf
  | cons i is ih =>
    intro it hit
    rw [t_item_cons] at hf
    by_cases hk : i.key = k
    · simp only [updItem, hk, if_true, List.mem_cons] at hit hf
      rcases hit with rfl | hit
      · exact hf
      · exact h it (List.mem_cons_of_mem _ hit)
    · simp only [updItem, hk, if_false, List.mem_cons] at hit hf
      rcases hit with rfl | hit
      · exact h _ (List.mem_cons_self _ _)
      · exact ih (fun x hx => h x (List.mem_cons_of_mem _ hx)) hf it hit

theorem installOk_fresh {T : Type} (k : Key) : InstallOk (TransItem.fresh k : TransItem T) := by
  cases k <;> simp [InstallOk, TransItem.fresh]

theorem installOk_t_item {T : Type} (k : Key) (items : List (TransItem T))
    (h : ∀ it ∈ items, InstallOk it) : InstallOk (t_item k items) := by
  rcases t_item_mem_or_fresh k items with hm | hf
  · exact h _ hm
  · rw [hf]; exact installOk_fresh k

/-- The four kinds of item a node of the list can have during a transaction. -/
theorem item_state {T : Type} {comp : T → T → Int} {l0 : ListState T} {s : TxState T}
    (h : TxInv comp l0 s) (hv : ∀ n ∈ l0.head_, n.invalid = false) {cur : list_node T}
    (hcur : cur ∈ s.l.head_) :
    (cur.invalid = false ∧ (t_item (Key.node cur.addr) s.items).write = false ∧
      (t_item (Key.node cur.addr) s.items).flags = Flags.none) ∨
    (cur.invalid = false ∧ (t_item (Key.node cur.addr) s.items).write = true ∧
      (t_item (Key.node cur.addr) s.items).flags = delete_bit) ∨
    (cur.invalid = false ∧ (t_item (Key.node cur.addr) s.items).write = true ∧
      (t_item (Key.node cur.addr) s.items).flags = doupdate_bit ∧
      ∃ v, (t_item (Key.node cur.addr) s.items).write_value = some v ∧ comp cur.val v = 0) ∨
    (l0.heap_next ≤ cur.addr ∧ (t_item (Key.node cur.addr) s.items).write = true ∧
      (t_item (Key.node cur.addr) s.items).flags = insert_bit) := by
  by_cases hlt : cur.addr < l0.heap_next
  · have hvalid : cur.invalid = false := by
      apply hv
      rw [← h.frame, List.mem_filter]
      exact ⟨hcur, by simpa using hlt⟩
    rcases h.old_ok cur hcur hlt with ⟨a, b⟩ | ⟨a, b⟩ | ⟨a, b, c⟩
    · exact Or.inl ⟨hvalid, a, b⟩
    · exact Or.inr (Or.inl ⟨hvalid, a, b⟩)
    · exact Or.inr (Or.inr (Or.inl ⟨hvalid, a, b, c⟩))
  · obtain ⟨a, b⟩ := h.new_ok cur hcur (by omega)
    exact Or.inr (Or.inr (Or.inr ⟨by omega, a, b⟩))

theorem inst_upd_size {T : Type} (f : TransItem T → TransItem T)
    (hf : ∀ it, (f it).key = it.key) (hw : ∀ it, (f it).write = it.write)
    (items : List (TransItem T)) (h : ∀ it ∈ items, InstallOk it) :
    ∀ it ∈ updItem Key.size_key f items, InstallOk it := by
  apply forall_mem_updItem _ _ _ _ h
  have := installOk_t_item Key.size_key items h
  simp only [InstallOk, hf, hw, t_item_key] at this ⊢
  exact this

theorem inst_upd_list {T : Type} (f : TransItem T → TransItem T)
    (hf : ∀ it, (f it).key = it.key) (items : List (TransItem T))
    (h : ∀ it ∈ items, InstallOk it) :
    ∀ it ∈ updItem Key.list_key f items, InstallOk it := by
  apply forall_mem_updItem _ _ _ _ h
  simp only [InstallOk, hf, t_item_key]

theorem inst_upd_node {T : Type} (a : Nat) (f : TransItem T → TransItem T)
    (hf : ∀ it, (f it).key = it.key) (items : List (TransItem T))
    (h : ∀ it ∈ items, InstallOk it)
    (hF : (f (t_item (Key.node a) items)).write = true →
      has_delete (f (t_item (Key.node a) items)) = false →
      has_doupdate (f (t_item (Key.node a) items)) = true →
      (f (t_item (Key.node a) items)).write_value.isSome = true) :
    ∀ it ∈ updItem (Key.node a) f items, InstallOk it := by
  apply forall_mem_updItem _ _ _ _ h
  simp only [InstallOk, hf, t_item_key]
  exact hF

theorem sortedBy_of_strict {T : Type} {comp : T → T → Int} {nodes : List (list_node T)}
    (hs : nodes.Pairwise (fun a b => comp a.val b.val < 0)) : SortedBy comp nodes :=
  SortedBy.of_pairwise (hs.imp (fun h => by omega))

/-- When the lookup finds nothing in a sorted list, no node is equal to the key. -/
theorem _find_none {T : Type} (cfg : Config) {comp : T → T → Int}
    (hL : Lawful comp) {nodes : List (list_node T)}
    (hs : nodes.Pairwise (fun a b => comp a.val b.val < 0)) {k : T}
    (hf : _find cfg comp k nodes = none) :
    ∀ n ∈ nodes, comp n.val k ≠ 0 := by
  rw [_find_eq_find? cfg comp k nodes (Or.inr ⟨hL, sortedBy_of_strict hs⟩)] at hf
  intro n hn
  simpa [eqKey] using List.find?_eq_none.mp hf n hn

theorem mem_of_not_found {T : Type} {comp : T → T → Int} (hL : Lawful comp) {l0 : ListState T}
    {S : List T} {s : TxState T} (h : SetInv comp l0 S s) {k : T}
    (hk : ∀ n ∈ s.l.head_, comp n.val k ≠ 0) : SetSpec.mem comp S k = false := by
  apply mem_absent comp S (view s) h.abs
  intro m hm
  obtain ⟨n, hn, hnm⟩ := List.mem_filterMap.mp hm
  have h1 := commitNode_equiv hL h.core hn hnm
  intro hmk
  exact hk n hn (((hL.eq_congr_left h1 k).1).mpr hmk)

theorem mem_of_found {T : Type} {comp : T → T → Int} (hL : Lawful comp) {l0 : ListState T}
    {S : List T} {s : TxState T} (h : SetInv comp l0 S s) {cur : list_node T}
    (hcur : cur ∈ s.l.head_) {k : T} (hc : comp cur.val k = 0) :
    SetSpec.mem comp S k = (commitNode s.items cur).isSome := by
  obtain ⟨A, B, hA, hB, hsp⟩ := view_split_at hL h hcur hc
  have hview := (hsp s.items (fun _ _ => rfl)).1
  cases hcn : commitNode s.items cur with
  | none =>
    apply mem_absent comp S (view s) h.abs
    intro m hm
    unfold view at hm
    rw [hview, hcn] at hm
    simp only [Option.toList, List.append_nil, List.mem_append] at hm
    rcases hm with hm | hm
    · exact hA m hm
    · exact hB m hm
  | some m =>
    apply mem_present comp S (view s) h.abs k m
    · unfold view
      rw [hview, hcn]
      simp [Option.toList]
    · exact ((hL.eq_congr_left (commitNode_equiv hL h.core hcur hcn) k).1).mp hc

/-- A step that changes neither the list nor what a commit makes of any node. -/
theorem SetInv.same_step {T : Type} {comp : T → T → Int} {l0 : ListState T} {S : List T}
    {s : TxState T} (h : SetInv comp l0 S s) (s' : TxState T) (hcore : TxInv comp l0 s')
    (hl : s'.l = s.l)
    (hview : ∀ n ∈ s.l.head_, commitNode s'.items n = commitNode s.items n)
    (hoffs : trans_size_offs s' = trans_size_offs s)
    (hdelta : pendingDelta s'.items = pendingDelta s.items)
    (hinst : ∀ it ∈ s'.items, InstallOk it) : SetInv comp l0 S s' := by
  have hv : view s' = view s := by
    unfold view
    rw [hl]
    exact List.filterMap_congr hview
  constructor
  · exact hcore
  · rw [hl]; exact h.sorted
  · rw [hv]; exact h.abs
  · rw [hv, hdelta]; exact h.cnt
  · rw [hoffs, hdelta]; exact h.delta
  · exact hinst

/-- A step on the item of `cur` that makes a node a commit would have dropped
one that it keeps, holding `elem`. -/
theorem SetInv.add_item_step {T : Type} {comp : T → T → Int} (hL : Lawful comp)
    {l0 : ListState T} {S : List T} {s : TxState T} (h : SetInv comp l0 S s)
    {cur : list_node T} (hcur : cur ∈ s.l.head_) {elem : T} (hc : comp cur.val elem = 0)
    (s' : TxState T) (hcore : TxInv comp l0 s') (hl : s'.l = s.l)
    (hlook : ∀ b, b ≠ cur.addr → t_item (Key.node b) s'.items = t_item (Key.node b) s.items)
    (hold : commitNode s.items cur = none)
    (hnew : commitNode s'.items cur = some { cur with val := elem })
    (hoffs : trans_size_offs s' = toInt32 (trans_size_offs s + 1))
    (hdelta : pendingDelta s'.items = pendingDelta s.items + 1)
    (hinst : ∀ it ∈ s'.items, InstallOk it) :
    SetSpec.mem comp S elem = false ∧ SetInv comp l0 (elem :: S) s' := by
  obtain ⟨A, B, hA, hB, hsp⟩ := view_split_at hL h hcur hc
  have hview := (hsp s.items (fun _ _ => rfl)).1
  have hview' := (hsp s'.items hlook).1
  rw [hold] at hview
  rw [hnew] at hview'
  simp only [Option.toList, List.append_nil] at hview hview'
  have habs := h.abs
  have hcnt := h.cnt
  unfold view at habs hcnt
  rw [hview] at habs hcnt
  refine ⟨mem_of_found hL h hcur hc ▸ by rw [hold]; rfl, ?_⟩
  constructor
  · exact hcore
  · rw [hl]; exact h.sorted
  · unfold view
    rw [hl, hview']
    exact abs_add S A B { cur with val := elem } habs
  · unfold view
    rw [hl, hview', hdelta]
    simp only [List.length_append, List.length_cons, List.length_nil] at hcnt ⊢
    push_cast at hcnt ⊢
    omega
  · rw [hoffs, hdelta, h.delta]; simp
  · exact hinst

/-- A step on the item of `cur` after which a commit drops the node. -/
theorem SetInv.remove_item_step {T : Type} {comp : T → T → Int} (hL : Lawful comp)
    {l0 : ListState T} {S : List T} {s : TxState T} (h : SetInv comp l0 S s)
    {cur : list_node T} (hcur : cur ∈ s.l.head_) {k : T} (hc : comp cur.val k = 0)
    (s' : TxState T) (hcore : TxInv comp l0 s') (hl : s'.l = s.l)
    (hlook : ∀ b, b ≠ cur.addr → t_item (Key.node b) s'.items = t_item (Key.node b) s.items)
    (m : list_node T) (hold : commitNode s.items cur = some m)
    (hnew : commitNode s'.items cur = none)
    (hoffs : trans_size_offs s' = toInt32 (trans_size_offs s - 1))
    (hdelta : pendingDelta s'.items = pendingDelta s.items - 1)
    (hinst : ∀ it ∈ s'.items, InstallOk it) :
    SetSpec.mem comp S k = true ∧
      SetInv comp l0 (S.filter (fun x => !decide (comp x k = 0))) s' := by
  obtain ⟨A, B, hA, hB, hsp⟩ := view_split_at hL h hcur hc
  have hview := (hsp s.items (fun _ _ => rfl)).1
  have hview' := (hsp s'.items hlook).1
  rw [hold] at hview
  rw [hnew] at hview'
  simp only [Option.toList, List.append_nil] at hview hview'
  have habs := h.abs
  have hcnt := h.cnt
  unfold view at habs hcnt
  rw [hview] at habs hcnt
  have hmk : comp m.val k = 0 :=
    ((hL.eq_congr_left (commitNode_equiv hL h.core hcur hold) k).1).mp hc
  refine ⟨mem_of_found hL h hcur hc ▸ by rw [hold]; rfl, ?_⟩
  constructor
  · exact hcore
  · rw [hl]; exact h.sorted
  · unfold view
    rw [hl, hview']
    exact abs_remove comp S A B m k hmk hA hB habs
  · unfold view
    rw [hl, hview', hdelta]
    simp only [List.length_append, List.length_cons, List.length_nil] at hcnt ⊢
    push_cast at hcnt ⊢
    omega
  · rw [hoffs, hdelta, h.delta]; simp
  · exact hinst

/-- Unlinking the node `cur` that a commit would have kept. -/
theorem SetInv.remove_node_step {T : Type} {comp : T → T → Int} (hL : Lawful comp)
    {l0 : ListState T} {S : List T} {s : TxState T} (h : SetInv comp l0 S s)
    {cur : list_node T} (hcur : cur ∈ s.l.head_) {k : T} (hc : comp cur.val k = 0)
    (s' : TxState T) (hcore : TxInv comp l0 s')
    (hl : s'.l = { s.l with head_ := s.l.head_.filter (fun n => !decide (n.addr = cur.addr)) })
    (hlook : ∀ b, b ≠ cur.addr → t_item (Key.node b) s'.items = t_item (Key.node b) s.items)
    (m : list_node T) (hold : commitNode s.items cur = some m)
    (hoffs : trans_size_offs s' = toInt32 (trans_size_offs s - 1))
    (hdelta : pendingDelta s'.items = pendingDelta s.items - 1)
    (hinst : ∀ it ∈ s'.items, InstallOk it) :
    SetSpec.mem comp S k = true ∧
      SetInv comp l0 (S.filter (fun x => !decide (comp x k = 0))) s' := by
  obtain ⟨A, B, hA, hB, hsp⟩ := view_split_at hL h hcur hc
  have hview := (hsp s.items (fun _ _ => rfl)).1
  have hview' := (hsp s'.items hlook).2
  rw [hold] at hview
  simp only [Option.toList, List.append_nil] at hview
  have habs := h.abs
  have hcnt := h.cnt
  unfold view at habs hcnt
  rw [hview] at habs hcnt
  have hmk : comp m.val k = 0 :=
    ((hL.eq_congr_left (commitNode_equiv hL h.core hcur hold) k).1).mp hc
  refine ⟨mem_of_found hL h hcur hc ▸ by rw [hold]; rfl, ?_⟩
  constructor
  · exact hcore
  · rw [hl]; exact h.sorted.sublist (List.filter_sublist _)
  · unfold view
    rw [hl]
    simp only
    rw [hview']
    exact abs_remove comp S A B m k hmk hA hB habs
  · unfold view
    rw [hl]
    simp only
    rw [hview', hdelta]
    simp only [List.length_append, List.length_cons, List.length_nil] at hcnt ⊢
    push_cast at hcnt ⊢
    omega
  · rw [hoffs, hdelta, h.delta]; simp
  · exact hinst

/-- Linking a fresh node for `elem`, which a commit will keep, between the
nodes below `elem` and the nodes above it. -/
theorem SetInv.add_node_step {T : Type} {comp : T → T → Int} (hL : Lawful comp)
    {l0 : ListState T} {S : List T} {s : TxState T} (h : SetInv comp l0 S s)
    (pre post : List (list_node T)) (hsplit : s.l.head_ = pre ++ post) (elem : T)
    (hpre : ∀ m ∈ pre, comp m.val elem < 0) (hpost : ∀ m ∈ post, 0 < comp m.val elem)
    (s' : TxState T) (hcore : TxInv comp l0 s')
    (hl : s'.l = { s.l with
                    head_ := pre ++ { addr := s.l.heap_next, val := elem, invalid := true } :: post,
                    heap_next := s.l.heap_next + 1 })
    (hlook : ∀ b, b ≠ s.l.heap_next → t_item (Key.node b) s'.items = t_item (Key.node b) s.items)
    (hnew : commitNode s'.items { addr := s.l.heap_next, val := elem, invalid := true } =
      some { addr := s.l.heap_next, val := elem, invalid := false })
    (hoffs : trans_size_offs s' = toInt32 (trans_size_offs s + 1))
    (hdelta : pendingDelta s'.items = pendingDelta s.items + 1)
    (hinst : ∀ it ∈ s'.items, InstallOk it) :
    SetSpec.mem comp S elem = false ∧ SetInv comp l0 (elem :: S) s' := by
  have hnone : ∀ n ∈ s.l.head_, comp n.val elem ≠ 0 := by
    intro n hn
    rw [hsplit, List.mem_append] at hn
    rcases hn with hn | hn
    · have := hpre n hn; omega
    · have := hpost n hn; omega
  have haddr : ∀ n ∈ s.l.head_, n.addr ≠ s.l.heap_next := by
    intro n hn
    have := h.core.addr_lt n hn
    omega
  have e1 : pre.filterMap (commitNode s'.items) = pre.filterMap (commitNode s.items) :=
    List.filterMap_congr (fun n hn =>
      commitNode_congr _ _ _ (hlook _ (haddr n (by rw [hsplit]; simp [hn]))))
  have e2 : post.filterMap (commitNode s'.items) = post.filterMap (commitNode s.items) :=
    List.filterMap_congr (fun n hn =>
      commitNode_congr _ _ _ (hlook _ (haddr n (by rw [hsplit]; simp [hn]))))
  have hview : view s = pre.filterMap (commitNode s.items) ++ post.filterMap (commitNode s.items) := by
    unfold view
    rw [hsplit, List.filterMap_append]
  have hview' : view s' = pre.filterMap (commitNode s.items) ++
      [{ addr := s.l.heap_next, val := elem, invalid := false }] ++
      post.filterMap (commitNode s.items) := by
    unfold view
    rw [hl]
    simp only [List.filterMap_append, List.filterMap_cons, hnew, e1, e2, List.append_assoc,
      List.singleton_append]
  have habs := h.abs
  have hcnt := h.cnt
  rw [hview] at habs hcnt
  refine ⟨mem_of_not_found hL h hnone, ?_⟩
  constructor
  · exact hcore
  · rw [hl]
    have hs := h.sorted
    rw [hsplit, List.pairwise_append] at hs
    simp only
    rw [List.pairwise_append, List.pairwise_cons]
    refine ⟨hs.1, ⟨?_, hs.2.1⟩, ?_⟩
    · intro m hm
      have := hpost m hm
      have := (hL.flip m.val elem).mp this
      exact this
    · intro a ha b hb
      rcases List.mem_cons.mp hb with rfl | hb'
      · exact hpre a ha
      · exact hs.2.2 a ha b hb'
  · rw [hview']
    exact abs_add S _ _ { addr := s.l.heap_next, val := elem, invalid := false } habs
  · rw [hview', hdelta]
    simp only [List.length_append, List.length_cons, List.length_nil] at hcnt ⊢
    push_cast at hcnt ⊢
    omega
  · rw [hoffs, hdelta, h.delta]; simp
  · exact hinst

theorem commitNode_of_lookup {T : Type} (items items' : List (TransItem T))
    (F : TransItem T → TransItem T) (cur : list_node T)
    (hlook : ∀ b, t_item (Key.node b) items' =
      if cur.addr = b then F (t_item (Key.node cur.addr) items) else t_item (Key.node b) items)
    (hF : commitAct (F (t_item (Key.node cur.addr) items)) cur =
      commitAct (t_item (Key.node cur.addr) items) cur)
    (nodes : List (list_node T)) (hnd : (nodes.map (fun n => n.addr)).Nodup) (hcur : cur ∈ nodes) :
    ∀ n ∈ nodes, commitNode items' n = commitNode items n := by
  intro n hn
  unfold commitNode
  rw [hlook]
  by_cases e : cur.addr = n.addr
  · have := mem_eq_of_addr hnd hcur hn e
    subst this
    simp only [if_true]
    exact hF
  · simp only [e, if_false]

theorem validity_ok {T : Type} {comp : T → T → Int} {l0 : ListState T} {s : TxState T}
    (h : TxInv comp l0 s) (hv : ∀ n ∈ l0.head_, n.invalid = false) {cur : list_node T}
    (hcur : cur ∈ s.l.head_) :
    validityCheck cur (t_item (Key.node cur.addr) s.items) = true := by
  rcases item_state h hv hcur with ⟨hi, _, _⟩ | ⟨hi, _, _⟩ | ⟨hi, _, _, _⟩ | ⟨_, _, hfl⟩
  · simp [validityCheck, list_node.is_valid, hi]
  · simp [validityCheck, list_node.is_valid, hi]
  · simp [validityCheck, list_node.is_valid, hi]
  · simp [validityCheck, hfl, Flags.test, insert_bit]

theorem commitNode_isSome {T : Type} {comp : T → T → Int} {l0 : ListState T} {s : TxState T}
    (h : TxInv comp l0 s) (hv : ∀ n ∈ l0.head_, n.invalid = false) {cur : list_node T}
    (hcur : cur ∈ s.l.head_) :
    (commitNode s.items cur).isSome = !has_delete (t_item (Key.node cur.addr) s.items) := by
  rcases item_state h hv hcur with ⟨_, hw, hfl⟩ | ⟨_, hw, hfl⟩ | ⟨_, hw, hfl, v, hwv, _⟩ |
    ⟨_, hw, hfl⟩ <;>
    simp [commitNode, commitAct, has_delete, has_doupdate, hw, hfl, Flags.test, Flags.none,
      delete_bit, doupdate_bit, insert_bit, *]

theorem installOk_node {T : Type} (a : Nat) (items : List (TransItem T))
    (h : ∀ it ∈ items, InstallOk it) :
    (t_item (Key.node a) items).write = true → has_delete (t_item (Key.node a) items) = false →
    has_doupdate (t_item (Key.node a) items) = true →
    (t_item (Key.node a) items).write_value.isSome = true := by
  have := installOk_t_item (Key.node a) items h
  simpa only [InstallOk, t_item_key] using this

/-- Refinement of `transFind` against the set: it returns a value iff the key is in the set,
and the invariant is kept with the set unchanged. -/
theorem transFind_refines {T : Type} (cfg : Config) {comp : T → T → Int} (hL : Lawful comp)
    {l0 : ListState T} (hv : ∀ n ∈ l0.head_, n.invalid = false) {S : List T} {s : TxState T}
    (h : SetInv comp l0 S s) (k : T) :
    (transFind cfg comp k s).1.map Option.isSome = some (SetSpec.mem comp S k) ∧
    SetInv comp l0 S (transFind cfg comp k s).2 := by
  have hcore := transFind_inv cfg h.core k
  have hsize := transFind_size cfg comp k s
  cases hf : _find cfg comp k s.l.head_ with
  | none =>
    have e : transFind cfg comp k s = (some none, verify_list s.l.sizeversion_ s) := by
      simp only [transFind, hf]
    rw [e] at hcore hsize ⊢
    refine ⟨?_, ?_⟩
    · simp [mem_of_not_found hL h (_find_none cfg hL h.sorted hf)]
    · refine h.same_step _ hcore rfl ?_ hsize.2 ?_ ?_
      · intro n _
        apply commitNode_congr
        simp [verify_list, t_item_updItem, observe_key]
      · simp [verify_list, pendingDelta_updItem, countContrib, observe_key, t_item_key]
      · exact inst_upd_list _ (observe_key _) _ h.inst
  | some cur =>
    obtain ⟨hcur, hc⟩ := _find_mem cfg comp k _ _ hf
    have hmem := mem_of_found hL h hcur hc
    have hvalid := validity_ok h.core hv hcur
    rw [commitNode_isSome h.core hv hcur] at hmem
    by_cases hdel : has_delete (t_item (Key.node cur.addr) s.items) = true
    · have e : transFind cfg comp k s =
          (some none, { s with items := updItem (Key.node cur.addr) id s.items }) := by
        simp [transFind, hf, hvalid, hdel]
      rw [e] at hcore hsize ⊢
      refine ⟨by simp [hmem, hdel], ?_⟩
      refine h.same_step _ hcore rfl ?_ hsize.2 ?_ ?_
      · exact commitNode_of_lookup s.items _ id cur (by intro b; simp [t_item_updItem]) rfl _
          h.core.addr_nodup hcur
      · simp [pendingDelta_updItem]
      · exact inst_upd_node cur.addr id (fun _ => rfl) _ h.inst (installOk_node _ _ h.inst)
    · rw [Bool.not_eq_true] at hdel
      have e : transFind cfg comp k s =
          (some (some cur.val),
            { s with items := updItem (Key.node cur.addr) TransItem.add_read s.items }) := by
        simp [transFind, hf, hvalid, hdel]
      rw [e] at hcore hsize ⊢
      refine ⟨by simp [hmem, hdel], ?_⟩
      refine h.same_step _ hcore rfl ?_ hsize.2 ?_ ?_
      · exact commitNode_of_lookup s.items _ TransItem.add_read cur
          (by intro b; simp [t_item_updItem, TransItem.add_read]) rfl _ h.core.addr_nodup hcur
      · simp only [pendingDelta_updItem]
        have : countContrib (t_item (Key.node cur.addr) s.items).add_read =
            countContrib (t_item (Key.node cur.addr) s.items) := rfl
        omega
      · exact inst_upd_node cur.addr TransItem.add_read (fun _ => rfl) _ h.inst
          (installOk_node _ _ h.inst)

theorem post_all_greater {T : Type} {comp : T → T → Int} (hL : Lawful comp)
    (pre post : List (list_node T))
    (hs : (pre ++ post).Pairwise (fun a b => comp a.val b.val < 0)) (elem : T)
    (hhead : ∀ m ∈ post.head?, 0 < comp m.val elem) : ∀ m ∈ post, 0 < comp m.val elem := by
  cases post with
  | nil => intro m hm; simp at hm
  | cons p ps =>
    have hp : 0 < comp p.val elem := hhead p (by simp)
    rw [List.pairwise_append, List.pairwise_cons] at hs
    intro m hm
    rcases List.mem_cons.mp hm with rfl | hm'
    · exact hp
    · have h1 := hs.2.1.1 m hm'
      by_contra hn
      have := hL.trans p.val m.val elem (by omega) (by omega)
      omega

/-- Refinement of `transInsert` against the set: it returns true iff the key is absent from
the set, and then the key is added. -/
theorem transInsert_refines {T : Type} (cfg : Config) (hS : cfg.Sorted = true)
    (hD : cfg.Duplicates = false) {comp : T → T → Int} (hL : Lawful comp)
    {l0 : ListState T} (hv : ∀ n ∈ l0.head_, n.invalid = false) {S : List T} {s : TxState T}
    (h : SetInv comp l0 S s) (elem : T) :
    (transInsert cfg comp elem s).1 = some (SetSpec.step comp (Op.transInsert elem) S).1 ∧
    SetInv comp l0 (SetSpec.step comp (Op.transInsert elem) S).2
      (transInsert cfg comp elem s).2 := by
  have hcore := transInsert_inv cfg h.core elem
  have hsize := transInsert_size cfg comp elem s
  rcases _insert_txnal cfg comp elem s.l with ⟨cur, hcur, hc, _, e_ins⟩ |
    ⟨pre, post, hsplit, e_ins, hsorted, hforbid⟩
  · have hmem := mem_of_found hL h hcur hc
    have hvalid := validity_ok h.core hv hcur
    have hst := item_state h.core hv hcur
    rw [commitNode_isSome h.core hv hcur] at hmem
    by_cases hdel : has_delete (t_item (Key.node cur.addr) s.items) = true
    · -- a pending delete of this transaction: the insert becomes an update
      have hw : (t_item (Key.node cur.addr) s.items).write = true ∧
          (t_item (Key.node cur.addr) s.items).flags = delete_bit := by
        rcases hst with ⟨_, hw, hfl⟩ | ⟨_, hw, hfl⟩ | ⟨_, hw, hfl, _⟩ | ⟨_, hw, hfl⟩
        · simp [has_delete, hfl, Flags.test, Flags.none] at hdel
        · exact ⟨hw, hfl⟩
        · simp [has_delete, hfl, Flags.test, doupdate_bit, delete_bit] at hdel
        · simp [has_delete, hfl, Flags.test, insert_bit, delete_bit] at hdel
      have e : transInsert cfg comp elem s =
          (some true,
            add_trans_size_offs 1
              { l := s.l,
                items := updItem (Key.node cur.addr)
                  (fun it => (it.clear_write.add_write (some elem)).assign_flags doupdate_bit)
                  (updItem (Key.node cur.addr) id s.items) }) := by
        simp [transInsert, e_ins, hvalid, hdel, has_insert, has_doupdate, hw.2, Flags.test,
          delete_bit, doupdate_bit]
      rw [e] at hcore hsize ⊢
      have hm : SetSpec.mem comp S elem = false := by simp [hmem, hdel]
      have hstep : SetSpec.step comp (Op.transInsert elem) S = (true, elem :: S) := by
        simp [SetSpec.step, hm]
      rw [hstep]
      refine ⟨rfl, (h.add_item_step hL hcur hc _ hcore rfl ?_ ?_ ?_ ?_ ?_ ?_).2⟩
      · intro b hb
        have hb' : ¬ cur.addr = b := fun x => hb x.symm
        simp [add_trans_size_offs, t_item_updItem, TransItem.clear_write, TransItem.add_write,
          TransItem.assign_flags, TransItem.set_stash, hb']
      · simp [commitNode, commitAct, hw.1, hdel]
      · simp [commitNode, commitAct, add_trans_size_offs, t_item_updItem, TransItem.clear_write,
          TransItem.add_write, TransItem.assign_flags, TransItem.set_stash, has_delete,
          has_doupdate, Flags.test, delete_bit, doupdate_bit]
      · simpa [returnedTrue] using hsize.2
      · simp [add_trans_size_offs, pendingDelta_updItem, t_item_updItem, countContrib,
          t_item_key, TransItem.clear_write, TransItem.add_write, TransItem.assign_flags,
          TransItem.set_stash, has_delete, has_doupdate, Flags.test, delete_bit, doupdate_bit,
          hw.1, hw.2]
      · apply inst_upd_size (fun item => item.set_stash (toInt32 (item.stash_value 0 + 1)))
          (fun _ => rfl) (fun _ => rfl)
        apply inst_upd_node cur.addr
          (fun it => (it.clear_write.add_write (some elem)).assign_flags doupdate_bit)
          (fun _ => rfl)
        · exact inst_upd_node cur.addr id (fun _ => rfl) _ h.inst (installOk_node _ _ h.inst)
        · intro _ _ _
          rfl
    · -- the key is in the set: a failed insert, at most a read is armed
      rw [Bool.not_eq_true] at hdel
      have hm : SetSpec.mem comp S elem = true := by simp [hmem, hdel]
      have hstep : SetSpec.step comp (Op.transInsert elem) S = (false, S) := by
        simp [SetSpec.step, hm]
      rw [hstep]
      by_cases hkeep : (has_insert (t_item (Key.node cur.addr) s.items) ||
          has_doupdate (t_item (Key.node cur.addr) s.items)) = true
      · have e : transInsert cfg comp elem s =
            (some false, { l := s.l, items := updItem (Key.node cur.addr) id s.items }) := by
          rcases Bool.or_eq_true _ _ |>.mp hkeep with h2 | h3
          · simp [transInsert, e_ins, hvalid, h2]
          · by_cases h2 : has_insert (t_item (Key.node cur.addr) s.items) = true
            · simp [transInsert, e_ins, hvalid, h2]
            · simp [transInsert, e_ins, hvalid, h2, h3]
        rw [e] at hcore hsize ⊢
        refine ⟨rfl, h.same_step _ hcore rfl ?_ (by simpa [returnedTrue] using hsize.2) ?_ ?_⟩
        · exact commitNode_of_lookup s.items _ id cur (by intro b; simp [t_item_updItem]) rfl _
            h.core.addr_nodup hcur
        · simp [pendingDelta_updItem]
        · exact inst_upd_node cur.addr id (fun _ => rfl) _ h.inst (installOk_node _ _ h.inst)
      · rw [Bool.not_eq_true, Bool.or_eq_false_iff] at hkeep
        have e : transInsert cfg comp elem s =
            (some false,
              { l := s.l,
                items := updItem (Key.node cur.addr) TransItem.add_read
                  (updItem (Key.node cur.addr) id s.items) }) := by
          simp [transInsert, e_ins, hvalid, hkeep.1, hkeep.2, hdel]
        rw [e] at hcore hsize ⊢
        refine ⟨rfl, h.same_step _ hcore rfl ?_ (by simpa [returnedTrue] using hsize.2) ?_ ?_⟩
        · exact commitNode_of_lookup s.items _ TransItem.add_read cur
            (by intro b; simp [t_item_updItem, TransItem.add_read, ite_ite_same]) rfl _
            h.core.addr_nodup hcur
        · simp only [pendingDelta_updItem, t_item_updItem_same _ id (fun _ => rfl), id]
          have : countContrib (t_item (Key.node cur.addr) s.items).add_read =
              countContrib (t_item (Key.node cur.addr) s.items) := rfl
          omega
        · apply inst_upd_node cur.addr TransItem.add_read (fun _ => rfl)
          · exact inst_upd_node cur.addr id (fun _ => rfl) _ h.inst (installOk_node _ _ h.inst)
          · rw [t_item_updItem_same _ id (fun _ => rfl)]
            exact installOk_node _ _ h.inst
  · -- no node is equal to the key: a new node is reserved
    have hpre := (hsorted hS).1
    have hs := h.sorted
    rw [hsplit] at hs
    have hpost := post_all_greater hL pre post hs elem (hforbid hS hD)
    have e : transInsert cfg comp elem s =
        (some true,
          { l := { s.l with
                    head_ := pre ++ { addr := s.l.heap_next, val := elem, invalid := true } :: post,
                    heap_next := s.l.heap_next + 1 },
            items := updItem (Key.node s.l.heap_next)
              (fun it => (it.add_write none).add_flags insert_bit)
              (add_lock_list_item (add_trans_size_offs 1
                { l := s.l, items := updItem (Key.node s.l.heap_next) id s.items })).items }) := by
      simp [transInsert, e_ins, add_lock_list_item, add_trans_size_offs]
    rw [e] at hcore hsize ⊢
    have hu := h.core.unalloc s.l.heap_next (le_refl _)
    have hres := h.add_node_step hL pre post hsplit elem hpre hpost _ hcore rfl ?_ ?_ ?_ ?_ ?_
    · have hstep : SetSpec.step comp (Op.transInsert elem) S = (true, elem :: S) := by
        simp [SetSpec.step, hres.1]
      rw [hstep]
      exact ⟨rfl, hres.2⟩
    · intro b hb
      have hb' : ¬ s.l.heap_next = b := fun x => hb x.symm
      simp [add_lock_list_item, add_trans_size_offs, t_item_updItem, TransItem.add_write,
        TransItem.add_flags, TransItem.set_stash, hb']
    · simp [commitNode, commitAct, add_lock_list_item, add_trans_size_offs, t_item_updItem,
        TransItem.add_write, TransItem.add_flags, TransItem.set_stash, has_delete, has_doupdate,
        Flags.test, delete_bit, doupdate_bit, insert_bit, hu, Flags.none, list_node.mark_valid,
        TransItem.fresh]
    · simpa [returnedTrue] using hsize.2
    · simp [add_lock_list_item, add_trans_size_offs, pendingDelta_updItem, t_item_updItem,
        countContrib, t_item_key, TransItem.add_write, TransItem.add_flags, TransItem.set_stash,
        has_delete, has_doupdate, Flags.test, delete_bit, doupdate_bit, insert_bit, hu,
        Flags.none, TransItem.fresh]
    · apply inst_upd_node s.l.heap_next (fun it => (it.add_write none).add_flags insert_bit)
        (fun _ => rfl)
      · apply inst_upd_list (TransItem.add_write none) (fun _ => rfl)
        apply inst_upd_size (fun item => item.set_stash (toInt32 (item.stash_value 0 + 1)))
          (fun _ => rfl) (fun _ => rfl)
        exact inst_upd_node s.l.heap_next id (fun _ => rfl) _ h.inst (installOk_node _ _ h.inst)
      · simp [add_lock_list_item, add_trans_size_offs, t_item_updItem, TransItem.add_write,
          TransItem.add_flags, TransItem.set_stash, has_delete, has_doupdate, Flags.test,
          delete_bit, doupdate_bit, insert_bit, hu, Flags.none, TransItem.fresh]

/-- Refinement of `transDelete` against the set: it returns true iff the key is in the set,
and then the key is removed. -/
theorem transDelete_refines {T : Type} (cfg : Config) {comp : T → T → Int} (hL : Lawful comp)
    {l0 : ListState T} (hv : ∀ n ∈ l0.head_, n.invalid = false) {S : List T} {s : TxState T}
    (h : SetInv comp l0 S s) (k : T) :
    (transDelete cfg comp k s).1 = some (SetSpec.step comp (Op.transDelete k) S).1 ∧
    SetInv comp l0 (SetSpec.step comp (Op.transDelete k) S).2 (transDelete cfg comp k s).2 := by
  have hcore := transDelete_inv cfg h.core k
  have hsize := transDelete_size cfg comp k s
  cases hf : _find cfg comp k s.l.head_ with
  | none =>
    have e : transDelete cfg comp k s = (some false, verify_list s.l.sizeversion_ s) := by
      simp only [transDelete, hf]
    rw [e] at hcore hsize ⊢
    have hm := mem_of_not_found hL h (_find_none cfg hL h.sorted hf)
    have hstep : SetSpec.step comp (Op.transDelete k) S = (false, S) := by
      simp [SetSpec.step, hm]
    rw [hstep]
    refine ⟨rfl, h.same_step _ hcore rfl ?_ (by simpa [returnedTrue] using hsize.2) ?_ ?_⟩
    · intro n _
      apply commitNode_congr
      simp [verify_list, t_item_updItem, observe_key]
    · simp [verify_list, pendingDelta_updItem, countContrib, observe_key, t_item_key]
    · exact inst_upd_list _ (observe_key _) _ h.inst
  | some cur =>
    obtain ⟨hcur, hc⟩ := _find_mem cfg comp k _ _ hf
    have hmem := mem_of_found hL h hcur hc
    have hvalid := validity_ok h.core hv hcur
    have hst := item_state h.core hv hcur
    rw [commitNode_isSome h.core hv hcur] at hmem
    by_cases hdel : has_delete (t_item (Key.node cur.addr) s.items) = true
    · have e : transDelete cfg comp k s =
          (some false, { s with items := updItem (Key.node cur.addr) id s.items }) := by
        simp [transDelete, hf, hvalid, hdel]
      rw [e] at hcore hsize ⊢
      have hstep : SetSpec.step comp (Op.transDelete k) S = (false, S) := by
        simp [SetSpec.step, hmem, hdel]
      rw [hstep]
      refine ⟨rfl, h.same_step _ hcore rfl ?_ (by simpa [returnedTrue] using hsize.2) ?_ ?_⟩
      · exact commitNode_of_lookup s.items _ id cur (by intro b; simp [t_item_updItem]) rfl _
          h.core.addr_nodup hcur
      · simp [pendingDelta_updItem]
      · exact inst_upd_node cur.addr id (fun _ => rfl) _ h.inst (installOk_node _ _ h.inst)
    · rw [Bool.not_eq_true] at hdel
      have hstep : SetSpec.step comp (Op.transDelete k) S =
          (true, S.filter (fun x => !decide (comp x k = 0))) := by
        simp [SetSpec.step, hmem, hdel]
      rw [hstep]
      rcases hst with ⟨_, hw, hfl⟩ | ⟨_, hw, hfl⟩ | ⟨_, hw, hfl, v, hwv, _⟩ | ⟨_, hw, hfl⟩
      · -- a node the transaction has not written: it is flagged for deletion
        have e : transDelete cfg comp k s =
            (some true,
              add_trans_size_offs (-1) (add_lock_list_item
                { l := s.l,
                  items := updItem (Key.node cur.addr)
                    (fun it => ((it.assign_flags delete_bit).add_write none).add_read)
                    (updItem (Key.node cur.addr) id s.items) })) := by
          simp [transDelete, hf, hvalid, hdel, has_doupdate, has_insert, TransItem.has_write, hw,
            hfl, Flags.test, Flags.none]
        rw [e] at hcore hsize ⊢
        refine ⟨rfl, (h.remove_item_step hL hcur hc _ hcore rfl ?_ cur ?_ ?_ ?_ ?_ ?_).2⟩
        · intro b hb
          have hb' : ¬ cur.addr = b := fun x => hb x.symm
          simp [add_trans_size_offs, add_lock_list_item, t_item_updItem, TransItem.add_read,
            TransItem.add_write, TransItem.assign_flags, TransItem.set_stash, hb']
        · simp [commitNode, commitAct, hw]
        · simp [commitNode, commitAct, add_trans_size_offs, add_lock_list_item, t_item_updItem,
            TransItem.add_read, TransItem.add_write, TransItem.assign_flags, TransItem.set_stash,
            has_delete, Flags.test, delete_bit]
        · simpa [returnedTrue] using hsize.2
        · simp [add_trans_size_offs, add_lock_list_item, pendingDelta_updItem, t_item_updItem,
            countContrib, t_item_key, TransItem.add_read, TransItem.add_write,
            TransItem.assign_flags, TransItem.set_stash, has_delete, Flags.test, delete_bit, hw]
          omega
        · apply inst_upd_size (fun item => item.set_stash (toInt32 (item.stash_value 0 + -1)))
            (fun _ => rfl) (fun _ => rfl)
          apply inst_upd_list (TransItem.add_write none) (fun _ => rfl)
          apply inst_upd_node cur.addr
            (fun it => ((it.assign_flags delete_bit).add_write none).add_read) (fun _ => rfl)
          · exact inst_upd_node cur.addr id (fun _ => rfl) _ h.inst (installOk_node _ _ h.inst)
          · simp [TransItem.add_read, TransItem.add_write, TransItem.assign_flags, has_delete,
              Flags.test, delete_bit]
      · simp [has_delete, hfl, Flags.test, delete_bit] at hdel
      · -- a pending update: back to a pending delete
        have e : transDelete cfg comp k s =
            (some true,
              add_trans_size_offs (-1)
                { l := s.l,
                  items := updItem (Key.node cur.addr) (TransItem.assign_flags delete_bit)
                    (updItem (Key.node cur.addr) id s.items) }) := by
          simp [transDelete, hf, hvalid, hdel, has_doupdate, hfl, Flags.test, doupdate_bit]
        rw [e] at hcore hsize ⊢
        refine ⟨rfl, (h.remove_item_step hL hcur hc _ hcore rfl ?_ { cur with val := v }
          ?_ ?_ ?_ ?_ ?_).2⟩
        · intro b hb
          have hb' : ¬ cur.addr = b := fun x => hb x.symm
          simp [add_trans_size_offs, t_item_updItem, TransItem.assign_flags,
            TransItem.set_stash, hb']
        · simp [commitNode, commitAct, hw, hfl, hwv, has_delete, has_doupdate, Flags.test,
            delete_bit, doupdate_bit]
        · simp [commitNode, commitAct, add_trans_size_offs, t_item_updItem,
            TransItem.assign_flags, TransItem.set_stash, has_delete, Flags.test, delete_bit, hw]
        · simpa [returnedTrue] using hsize.2
        · simp [add_trans_size_offs, pendingDelta_updItem, t_item_updItem, countContrib,
            t_item_key, TransItem.assign_flags, TransItem.set_stash, has_delete, has_doupdate,
            Flags.test, delete_bit, doupdate_bit, hw, hfl]
          omega
        · apply inst_upd_size (fun item => item.set_stash (toInt32 (item.stash_value 0 + -1)))
            (fun _ => rfl) (fun _ => rfl)
          apply inst_upd_node cur.addr (TransItem.assign_flags delete_bit) (fun _ => rfl)
          · exact inst_upd_node cur.addr id (fun _ => rfl) _ h.inst (installOk_node _ _ h.inst)
          · simp [TransItem.assign_flags, has_delete, Flags.test, delete_bit]
      · -- an own insert: the reserved node is unlinked
        have e : transDelete cfg comp k s =
            (some true,
              verify_list s.l.sizeversion_ (add_trans_size_offs (-1)
                { l := (removeNode true cur.addr s.l).2,
                  items := updItem (Key.node cur.addr)
                    (fun it => (it.remove_read.remove_write).clear_flags insert_bit)
                    (updItem (Key.node cur.addr) id s.items) })) := by
          simp [transDelete, hf, hvalid, hdel, has_doupdate, has_insert, has_delete,
            TransItem.has_write, hw, hfl, Flags.test, insert_bit, doupdate_bit, delete_bit]
        rw [e] at hcore hsize ⊢
        refine ⟨rfl, (h.remove_node_step hL hcur hc _ hcore ?_ ?_ cur.mark_valid
          ?_ ?_ ?_ ?_).2⟩
        · simp only [verify_list, add_trans_size_offs]
          exact removeNode_txnal_eq _ _ h.core.addr_nodup
        · intro b hb
          have hb' : ¬ cur.addr = b := fun x => hb x.symm
          simp [verify_list, add_trans_size_offs, t_item_updItem, observe_key,
            TransItem.remove_read, TransItem.remove_write, TransItem.clear_flags,
            TransItem.set_stash, hb']
        · simp [commitNode, commitAct, hw, hfl, has_delete, has_doupdate, Flags.test,
            delete_bit, doupdate_bit, insert_bit]
        · simpa [returnedTrue] using hsize.2
        · simp [verify_list, add_trans_size_offs, pendingDelta_updItem, t_item_updItem,
            countContrib, t_item_key, observe_key, TransItem.remove_read,
            TransItem.remove_write, TransItem.clear_flags, TransItem.set_stash, has_delete,
            has_doupdate, Flags.test, delete_bit, doupdate_bit, insert_bit, hw, hfl]
        · apply inst_upd_list (TransItem.observe s.l.sizeversion_) (observe_key _)
          apply inst_upd_size (fun item => item.set_stash (toInt32 (item.stash_value 0 + -1)))
            (fun _ => rfl) (fun _ => rfl)
          apply inst_upd_node cur.addr
            (fun it => (it.remove_read.remove_write).clear_flags insert_bit) (fun _ => rfl)
          · exact inst_upd_node cur.addr id (fun _ => rfl) _ h.inst (installOk_node _ _ h.inst)
          · simp [TransItem.remove_read, TransItem.remove_write, TransItem.clear_flags]

theorem strict_of_sorted_dupFree {T : Type} {comp : T → T → Int} (hL : Lawful comp)
    {nodes : List (list_node T)} (hs : SortedBy comp nodes) (hd : DupFree comp nodes) :
    nodes.Pairwise (fun a b => comp a.val b.val < 0) := by
  have h1 := hs.pairwise hL
  unfold DupFree at hd
  exact (h1.and hd).imp (fun h => by omega)

theorem dupFree_of_strict {T : Type} {comp : T → T → Int} {nodes : List (list_node T)}
    (hs : nodes.Pairwise (fun a b => comp a.val b.val < 0)) : DupFree comp nodes :=
  hs.imp (fun h => by omega)

theorem commitNode_nil {T : Type} (n : list_node T) :
    commitNode ([] : List (TransItem T)) n = some n := by
  simp [commitNode, commitAct, t_item, check_item, TransItem.fresh]

theorem SetInv.initially {T : Type} {comp : T → T → Int} (hL : Lawful comp) (l : ListState T)
    (hwf : l.wf) (hs : SortedBy comp l.head_) (hd : DupFree comp l.head_) :
    SetInv comp l (l.head_.map (fun n => n.val)) (TxState.start l) := by
  have hview : view (TxState.start l) = l.head_ := by
    unfold view
    simp only [TxState.start]
    have : (commitNode ([] : List (TransItem T))) = some := funext commitNode_nil
    rw [this, List.filterMap_some]
  constructor
  · exact TxInv.initial comp l hwf
  · exact strict_of_sorted_dupFree hL hs hd
  · intro x; rw [hview]
  · rw [hview]; simp [TxState.start, pendingDelta]
  · simp [trans_size_offs, TxState.start, t_item, check_item, TransItem.fresh,
      TransItem.stash_value, pendingDelta]
  · intro it hit; simp [TxState.start] at hit

theorem step_refines {T : Type} (cfg : Config) (hS : cfg.Sorted = true)
    (hD : cfg.Duplicates = false) {comp : T → T → Int} (hL : Lawful comp)
    {l0 : ListState T} (hv : ∀ n ∈ l0.head_, n.invalid = false) {S : List T} {s : TxState T}
    (h : SetInv comp l0 S s) (op : Op T) :
    (step cfg comp op s).1.map Ret.toBool = some (SetSpec.step comp op S).1 ∧
    SetInv comp l0 (SetSpec.step comp op S).2 (step cfg comp op s).2 := by
  cases op with
  | transInsert elem =>
    obtain ⟨h1, h2⟩ := transInsert_refines cfg hS hD hL hv h elem
    refine ⟨?_, h2⟩
    simp only [step, h1, Option.map_some', Ret.toBool]
  | transDelete elem =>
    obtain ⟨h1, h2⟩ := transDelete_refines cfg hL hv h elem
    refine ⟨?_, h2⟩
    simp only [step, h1, Option.map_some', Ret.toBool]
  | transFind elem =>
    obtain ⟨h1, h2⟩ := transFind_refines cfg hL hv h elem
    refine ⟨?_, h2⟩
    simp only [step, SetSpec.step, Option.map_map]
    rw [← h1]
    congr 1

/-- A whole run against the set semantics: no call aborts, every result is the
result of the same operation on the set, and the invariant holds at the end
with the final set. -/
theorem run_refines {T : Type} (cfg : Config) (hS : cfg.Sorted = true)
    (hD : cfg.Duplicates = false) {comp : T → T → Int} (hL : Lawful comp)
    {l0 : ListState T} (hv : ∀ n ∈ l0.head_, n.invalid = false) (ops : List (Op T)) :
    ∀ {S : List T} {s : TxState T}, SetInv comp l0 S s →
    (run cfg comp ops s).1.map (Option.map Ret.toBool) = (SetSpec.run comp ops S).1.map some ∧
    SetInv comp l0 (SetSpec.run comp ops S).2 (run cfg comp ops s).2 := by
  induction ops with
  | nil => intro S s h; exact ⟨rfl, h⟩
  | cons op ops ih =>
    intro S s h
    obtain ⟨h1, h2⟩ := step_refines cfg hS hD hL hv h op
    rcases hr : step cfg comp op s with ⟨r, s'⟩
    rw [hr] at h1 h2
    rcases r with _ | r
    · simp at h1
    · obtain ⟨i1, i2⟩ := ih h2
      simp only [Option.map_some', Option.some.injEq] at h1
      simp only [run, hr, SetSpec.run, List.map_cons, Option.map_some', h1, i1]
      exact ⟨trivial, i2⟩

/-- Claim C7. Within one transaction the point operations behave like a sequential
set.  With `Sorted = yes`, `Duplicates = forbid`, a lawful comparator, a list that
is sorted, duplicate-free and has only valid nodes, and an empty item map: for
every sequence of `transInsert` / `transDelete` / `transFind` calls no call
aborts (every result is `some`), every call is executed, and the boolean of each
result (for `transFind`: whether a value was returned) is the result of the same
operation on the set initialised with the values of the list. -/
theorem point_ops_behave_like_set {T : Type} (cfg : Config) (hS : cfg.Sorted = true)
    (hD : cfg.Duplicates = false) (comp : T → T → Int) (hL : Lawful comp) (l : ListState T)
    (hwf : l.wf) (hs : SortedBy comp l.head_) (hd : DupFree comp l.head_)
    (hv : ∀ n ∈ l.head_, n.invalid = false) (ops : List (Op T)) :
    (run cfg comp ops (TxState.start l)).1.map (Option.map Ret.toBool) =
      (SetSpec.run comp ops (l.head_.map (fun n => n.val))).1.map some :=
  (run_refines cfg hS hD hL hv ops (SetInv.initially hL l hwf hs hd)).1

theorem list135_valid : ∀ n ∈ list135.head_, n.invalid = false := by
  intro n hn
  simp only [list135, List.mem_cons, List.mem_singleton, List.not_mem_nil, or_false] at hn
  rcases hn with rfl | rfl | rfl <;> rfl

/-- On `[1,3,5]`: insert; insert gives false the second time, delete; delete gives
false the second time, deleting an absent key gives false, insert after delete
gives true, and the lookups agree with the set. -/
theorem point_ops_behave_like_set_witness :
    (run Config.default intCompare
      [Op.transInsert 4, Op.transInsert 4, Op.transDelete 3, Op.transDelete 3, Op.transDelete 9,
        Op.transInsert 3, Op.transFind 3, Op.transFind 9]
      (TxState.start list135)).1.map (Option.map Ret.toBool) =
    [some true, some false, some true, some false, some false, some true, some true, some false] :=
  (point_ops_behave_like_set Config.default rfl rfl intCompare intCompare_lawful list135
    list135_wf list135_sorted list135_dupFree list135_valid
    [Op.transInsert 4, Op.transInsert 4, Op.transDelete 3, Op.transDelete 3, Op.transDelete 9,
      Op.transInsert 3, Op.transFind 3, Op.transFind 9]).trans (by decide)

theorem insertsReturnedTrue_le {T : Type} (ops : List (Op T)) :
    ∀ rs : List (Option (Ret T)), insertsReturnedTrue ops rs ≤ ops.length := by
  induction ops with
  | nil => intro rs; simp [insertsReturnedTrue]
  | cons op ops ih =>
    intro rs
    cases rs with
    | nil => simp [insertsReturnedTrue]
    | cons r rs =>
      have := ih rs
      cases op <;> rcases r with _ | ⟨_ | _⟩ | _ <;>
        simp only [insertsReturnedTrue, List.length_cons] <;> omega

theorem commitNode_valid {T : Type} {comp : T → T → Int} {l0 : ListState T} {s : TxState T}
    (h : TxInv comp l0 s) (hv : ∀ n ∈ l0.head_, n.invalid = false) {n m : list_node T}
    (hn : n ∈ s.l.head_) (hm : commitNode s.items n = some m) : m.invalid = false := by
  rcases item_state h hv hn with ⟨hi, hw, hfl⟩ | ⟨hi, hw, hfl⟩ | ⟨hi, hw, hfl, v, hwv, _⟩ |
    ⟨_, hw, hfl⟩
  · simp [commitNode, commitAct, hw] at hm
    rw [← hm]; exact hi
  · simp [commitNode, commitAct, hw, hfl, has_delete, Flags.test, delete_bit] at hm
  · simp [commitNode, commitAct, hw, hfl, hwv, has_delete, has_doupdate, Flags.test, delete_bit,
      doupdate_bit] at hm
    rw [← hm]; exact hi
  · simp [commitNode, commitAct, hw, hfl, has_delete, has_doupdate, Flags.test, delete_bit,
      doupdate_bit, insert_bit, list_node.mark_valid] at hm
    rw [← hm]

theorem Lawful.lt_congr {T : Type} {comp : T → T → Int} (hL : Lawful comp) {a a' b b' : T}
    (ha : comp a a' = 0) (hb : comp b b' = 0) (h : comp a b < 0) : comp a' b' < 0 := by
  have h1 : comp a' b < 0 := ((hL.eq_congr_left ha b).2.1).mp h
  have h2 : 0 < comp b a' := by
    have := hL.flip b a'
    omega
  have h3 : 0 < comp b' a' := ((hL.eq_congr_left hb a').2.2).mp h2
  have := hL.flip b' a'
  omega

theorem view_sorted {T : Type} {comp : T → T → Int} (hL : Lawful comp) {l0 : ListState T}
    {S : List T} {s : TxState T} (h : SetInv comp l0 S s) :
    (view s).Pairwise (fun a b => comp a.val b.val < 0) := by
  unfold view
  rw [List.pairwise_filterMap]
  apply h.sorted.imp_of_mem
  intro a b ha hb hab a' ha' b' hb'
  exact hL.lt_congr (commitNode_equiv hL h.core ha ha') (commitNode_equiv hL h.core hb hb') hab

/-- The commit of a run on a sorted duplicate-free valid list, `Opacity = yes`:
installing the write-marked items, in any order, completes and leaves the view
of the transaction, with `listsize_` moved by the pending delta of the items. -/
theorem commit_view {T : Type} (cfg : Config) (hS : cfg.Sorted = true)
    (hD : cfg.Duplicates = false) (hO : cfg.Opacity = true) (comp : T → T → Int)
    (hL : Lawful comp) (l : ListState T) (hwf : l.wf) (hs : SortedBy comp l.head_)
    (hd : DupFree comp l.head_) (hv : ∀ n ∈ l.head_, n.invalid = false)
    (ops : List (Op T)) (commit_tid : Nat) (order : List (TransItem T))
    (hp : order.Perm (run cfg comp ops (TxState.start l)).2.items) :
    SetInv comp l (SetSpec.run comp ops (l.head_.map (fun n => n.val))).2
      (run cfg comp ops (TxState.start l)).2 ∧
    ∃ l', commitInstall cfg commit_tid order (run cfg comp ops (TxState.start l)).2.l = some l' ∧
      l'.head_ = view (run cfg comp ops (TxState.start l)).2 ∧
      l'.listsize_ = l.listsize_ + pendingDelta (run cfg comp ops (TxState.start l)).2.items := by
  have h := (run_refines cfg hS hD hL hv ops (SetInv.initially hL l hwf hs hd)).2
  obtain ⟨hl1, _⟩ := run_size cfg comp ops (TxState.start l)
  have hk : (order.map TransItem.key).Nodup :=
    (hp.map TransItem.key).nodup_iff.mpr h.core.keys_nodup
  obtain ⟨l', e, hhead, hsz⟩ := commitInstall_eq cfg hO commit_tid order hk
    (fun it hit => h.inst it (hp.subset hit)) _ h.core.addr_nodup
  rw [commitNode_perm h.core.keys_nodup hp] at hhead
  rw [pendingDelta_perm hp] at hsz
  refine ⟨h, l', e, hhead, ?_⟩
  rw [hsz, hl1]
  rfl

/-- Claim C9, amended. Commit realises the transaction's view.  With `Sorted = yes`,
`Duplicates = forbid`, `Opacity = yes`, a lawful comparator, a list that is
sorted, duplicate-free, all valid, with `count` the number of nodes: after any
sequence of `transInsert` / `transDelete` / `transFind` calls of one
transaction, installing every item that carries a write mark, in any order,
completes, and afterwards every node is valid, the list is sorted and
duplicate-free, its values are exactly those of the set obtained by applying
the same operations to the initial values, and `count` equals the number of
nodes.  What `size()` returned just before the commit is that number too when
the change of the number of nodes made by the transaction is in the range of an
`int` (from -2^31 to 2^31 - 1) and the number of nodes is a `size_t`. -/
theorem commit_realises_view {T : Type} (cfg : Config) (hS : cfg.Sorted = true)
    (hD : cfg.Duplicates = false) (hO : cfg.Opacity = true) (comp : T → T → Int)
    (hL : Lawful comp) (l : ListState T) (hwf : l.wf) (hs : SortedBy comp l.head_)
    (hd : DupFree comp l.head_) (hv : ∀ n ∈ l.head_, n.invalid = false)
    (hcount : l.listsize_ = l.head_.length) (ops : List (Op T)) (commit_tid : Nat)
    (order : List (TransItem T))
    (hp : order.Perm (run cfg comp ops (TxState.start l)).2.items) :
    ∃ l', commitInstall cfg commit_tid order (run cfg comp ops (TxState.start l)).2.l = some l' ∧
      (∀ n ∈ l'.head_, n.invalid = false) ∧
      SortedBy comp l'.head_ ∧ DupFree comp l'.head_ ∧
      (∀ x, x ∈ l'.head_.map (fun n => n.val) ↔
        x ∈ (SetSpec.run comp ops (l.head_.map (fun n => n.val))).2) ∧
      l'.listsize_ = l'.head_.length ∧
      (-2147483648 ≤ (l'.head_.length : Int) - l.head_.length →
        (l'.head_.length : Int) - l.head_.length < 2147483648 →
        l'.head_.length < 2 ^ 64 →
        (size (run cfg comp ops (TxState.start l)).2).1 = l'.head_.length) := by
  obtain ⟨h, l', e, hview, hsz⟩ :=
    commit_view cfg hS hD hO comp hL l hwf hs hd hv ops commit_tid order hp
  obtain ⟨hl1, _⟩ := run_size cfg comp ops (TxState.start l)
  have hstrict := view_sorted hL h
  have hcnt := h.cnt
  have hdelta := h.delta
  have hl0 : (TxState.start l).l.listsize_ = l.listsize_ := rfl
  rw [← hview] at hstrict hcnt
  refine ⟨l', e, ?_, sortedBy_of_strict hstrict, dupFree_of_strict hstrict, ?_, ?_, ?_⟩
  · intro m hm
    rw [hview] at hm
    obtain ⟨n, hn, hnm⟩ := List.mem_filterMap.mp hm
    exact commitNode_valid h.core hv hn hnm
  · intro x
    rw [hview]
    exact (h.abs x).symm
  · rw [hsz, hcount]
    exact hcnt
  · intro hlo hhi hlen
    have hpd : pendingDelta (run cfg comp ops (TxState.start l)).2.items =
        (l'.head_.length : Int) - l.head_.length := by omega
    have hoffs : trans_size_offs (run cfg comp ops (TxState.start l)).2 =
        (l'.head_.length : Int) - l.head_.length := by
      rw [hdelta, hpd]
      exact toInt32_of_range _ hlo hhi
    have hsize : ((size (run cfg comp ops (TxState.start l)).2).1 : Int) = l'.head_.length := by
      simp only [size, offs_verify_list]
      have : (verify_list (run cfg comp ops (TxState.start l)).2.l.sizeversion_
          (run cfg comp ops (TxState.start l)).2).l.listsize_ =
          (run cfg comp ops (TxState.start l)).2.l.listsize_ := rfl
      have hlen' : (l'.head_.length : Int) < 2 ^ 64 := by exact_mod_cast hlen
      rw [this, hl1, hl0, hcount, hoffs,
        toSizeT_of_nonneg ((l.head_.length : Int) + ((l'.head_.length : Int) - l.head_.length))
          (by omega) (by omega)]
      omega
    exact_mod_cast hsize

/-- Scenario S2: `[1,3,5]` with `transInsert(4)` commits to `[1,3,4,5]` with `count = 4`,
which is what `size()` returned before the commit; delete; insert; delete of 3
commits to the same list as a single delete of 3. -/
theorem commit_realises_view_witness :
    commitInstall cfgOpaque 7
        (run cfgOpaque intCompare [Op.transInsert 4] (TxState.start list135)).2.items
        (run cfgOpaque intCompare [Op.transInsert 4] (TxState.start list135)).2.l =
      some { head_ := [⟨2, 1, false⟩, ⟨3, 3, false⟩, ⟨5, 4, false⟩, ⟨4, 5, false⟩],
             listsize_ := 4, sizeversion_ := 7, heap_next := 6 } ∧
    (commitInstall cfgOpaque 7
        (run cfgOpaque intCompare [Op.transDelete 3, Op.transInsert 3, Op.transDelete 3]
          (TxState.start list135)).2.items
        (run cfgOpaque intCompare [Op.transDelete 3, Op.transInsert 3, Op.transDelete 3]
          (TxState.start list135)).2.l =
      commitInstall cfgOpaque 7
        (run cfgOpaque intCompare [Op.transDelete 3] (TxState.start list135)).2.items
        (run cfgOpaque intCompare [Op.transDelete 3] (TxState.start list135)).2.l) ∧
    (size (run cfgOpaque intCompare [Op.transInsert 4] (TxState.start list135)).2).1 = 4 ∧
    ∃ l', commitInstall cfgOpaque 7
        (run cfgOpaque intCompare [Op.transInsert 4] (TxState.start list135)).2.items
        (run cfgOpaque intCompare [Op.transInsert 4] (TxState.start list135)).2.l = some l' ∧
      (∀ n ∈ l'.head_, n.invalid = false) ∧
      SortedBy intCompare l'.head_ ∧ DupFree intCompare l'.head_ ∧
      (∀ x, x ∈ l'.head_.map (fun n => n.val) ↔
        x ∈ (SetSpec.run intCompare [Op.transInsert 4] (list135.head_.map (fun n => n.val))).2) ∧
      l'.listsize_ = l'.head_.length ∧
      (-2147483648 ≤ (l'.head_.length : Int) - list135.head_.length →
        (l'.head_.length : Int) - list135.head_.length < 2147483648 →
        l'.head_.length < 2 ^ 64 →
        (size (run cfgOpaque intCompare [Op.transInsert 4] (TxState.start list135)).2).1 =
          l'.head_.length) :=
  ⟨by decide, by decide, by decide,
   commit_realises_view cfgOpaque rfl rfl rfl intCompare intCompare_lawful list135 list135_wf
     list135_sorted list135_dupFree list135_valid rfl [Op.transInsert 4] 7 _
     (List.Perm.refl _)⟩

/-! ## Verification: when a point operation aborts -/

theorem validityCheck_false_iff {T : Type} (n : list_node T) (item : TransItem T) :
    validityCheck n item = false ↔ n.invalid = true ∧ item.flags.test insert_bit = false := by
  simp [validityCheck, list_node.is_valid]

/-- Claim C15. Abort condition of the point operations, in every configuration and
every state: `transFind` and `transDelete` abort iff `_find` locates a node whose
invalid bit is set and whose item does not carry the insert flag; `transInsert`
aborts iff `_insert` returns a pre-existing node (`inserted = false`) whose
invalid bit is set and whose item does not carry the insert flag.  In every
other case the call returns. -/
theorem abort_iff_foreign_invalid {T : Type} (cfg : Config) (comp : T → T → Int) (elem : T)
    (s : TxState T) :
    ((transFind cfg comp elem s).1 = none ↔
      ∃ n, _find cfg comp elem s.l.head_ = some n ∧ n.invalid = true ∧
        (t_item (Key.node n.addr) s.items).flags.test insert_bit = false) ∧
    ((transDelete cfg comp elem s).1 = none ↔
      ∃ n, _find cfg comp elem s.l.head_ = some n ∧ n.invalid = true ∧
        (t_item (Key.node n.addr) s.items).flags.test insert_bit = false) ∧
    ((transInsert cfg comp elem s).1 = none ↔
      (_insert cfg comp true elem s.l).2.1 = false ∧
        (_insert cfg comp true elem s.l).1.invalid = true ∧
        (t_item (Key.node (_insert cfg comp true elem s.l).1.addr) s.items).flags.test
          insert_bit = false) := by
  refine ⟨?_, ?_, ?_⟩
  · unfold transFind
    cases hf : _find cfg comp elem s.l.head_ with
    | none => simp
    | some n =>
      simp only [Option.some.injEq, exists_eq_left']
      by_cases hv : validityCheck n (t_item (Key.node n.addr) s.items) = true
      · have hv' := hv
        simp only [validityCheck, list_node.is_valid, Bool.or_eq_true, Bool.not_eq_true'] at hv'
        simp only [hv, Bool.not_true, Bool.false_eq_true, if_false]
        constructor
        · intro h; split_ifs at h
        · rintro ⟨h1, h2⟩
          rcases hv' with h | h
          · rw [h] at h1; exact absurd h1 (by decide)
          · rw [h] at h2; exact absurd h2 (by decide)
      · rw [Bool.not_eq_true] at hv
        simp only [hv, Bool.not_false, if_true, true_iff]
        exact (validityCheck_false_iff _ _).mp hv
  · unfold transDelete
    cases hf : _find cfg comp elem s.l.head_ with
    | none => simp
    | some n =>
      simp only [Option.some.injEq, exists_eq_left']
      by_cases hv : validityCheck n (t_item (Key.node n.addr) s.items) = true
      · have hv' := hv
        simp only [validityCheck, list_node.is_valid, Bool.or_eq_true, Bool.not_eq_true'] at hv'
        simp only [hv, Bool.not_true, Bool.false_eq_true, if_false]
        constructor
        · intro h; split_ifs at h
        · rintro ⟨h1, h2⟩
          rcases hv' with h | h
          · rw [h] at h1; exact absurd h1 (by decide)
          · rw [h] at h2; exact absurd h2 (by decide)
      · rw [Bool.not_eq_true] at hv
        simp only [hv, Bool.not_false, if_true, true_iff]
        exact (validityCheck_false_iff _ _).mp hv
  · unfold transInsert
    simp only []
    by_cases hi : (_insert cfg comp true elem s.l).2.1 = true
    · simp [hi]
    · rw [Bool.not_eq_true] at hi
      simp only [hi, Bool.not_false, if_true, true_and]
      by_cases hv : validityCheck (_insert cfg comp true elem s.l).1
          (t_item (Key.node (_insert cfg comp true elem s.l).1.addr) s.items) = true
      · have hv' := hv
        simp only [validityCheck, list_node.is_valid, Bool.or_eq_true, Bool.not_eq_true'] at hv'
        simp only [hv, Bool.not_true, Bool.false_eq_true, if_false]
        constructor
        · intro h; split_ifs at h
        · rintro ⟨h1, h2⟩
          rcases hv' with h | h
          · rw [h] at h1; exact absurd h1 (by decide)
          · rw [h] at h2; exact absurd h2 (by decide)
      · rw [Bool.not_eq_true] at hv
        simp only [hv, Bool.not_false, if_true, true_iff]
        exact (validityCheck_false_iff _ _).mp hv

/-! ## Verification: the insert position in an unsorted list -/

theorem insertLoop_unsorted_allow {T : Type} (cfg : Config) (hS : cfg.Sorted = false)
    (hD : cfg.Duplicates = true) (comp : T → T → Int) (ret : list_node T)
    (nodes : List (list_node T)) :
    insertLoop cfg comp ret nodes = Sum.inr (nodes ++ [ret]) := by
  induction nodes with
  | nil => rfl
  | cons cur rest ih => simp [insertLoop, hS, hD, ih]

/-- Claim C20. The code on an unsorted duplicate-allowing list: `insert(v)` returns
true and links the new node at the tail, after the previous node sequence, in
every state; inserting 1 then 2 into the empty list yields the traversal 1, 2
(chronological order), not 2, 1. -/
theorem unsorted_allow_inserts_at_tail :
    (∀ (l : ListState Int) (v : Int),
      insert cfgUnsortedAllow intCompare v l =
        (true, { head_ := l.head_ ++ [{ addr := l.heap_next, val := v, invalid := false }],
                 listsize_ := l.listsize_ + 1,
                 sizeversion_ := l.sizeversion_,
                 heap_next := l.heap_next + 1 })) ∧
    (insert cfgUnsortedAllow intCompare 2
      (insert cfgUnsortedAllow intCompare 1 (ListState.empty Int)).2).2.head_.map
        (fun n => n.val) = [1, 2] := by
  refine ⟨?_, by decide⟩
  intro l v
  have e := insertLoop_unsorted_allow cfgUnsortedAllow rfl rfl intCompare
    { addr := l.heap_next, val := v, invalid := false } l.head_
  have hc : (!cfgUnsortedAllow.Sorted && !cfgUnsortedAllow.Duplicates) = false := rfl
  simp only [insert, _insert, hc, e, Bool.false_eq_true, if_false, Bool.not_false, if_true]

/-! ## Verification: the forward iterator and the size-version on an update -/

/-- Claim C19. The forward iterator at the failing input.  The constructor of
`ListIterator` calls `list_verify`, which the sources do not declare, so
`begin()` does not instantiate as shipped; the call is modelled from the spec as
the size-version observation.  Whatever the state, the iterator `begin()`
returns points at `head_`: the member initialiser stores the pointer and
nothing in the constructor skips a node.  On `[1,3,5]`, after `transDelete(1)`
(true) the item of the head node carries the delete flag, and the walk from
`begin()` with `operator++` up to `end()` yields 1, 3, 5: the locally deleted
head is dereferenced, while `transIter` hides it. -/
theorem forward_iterator_yields_deleted_head :
    (∀ s : TxState Int, (begin s).1.myPtr = s.l.head_) ∧
    (transDelete Config.default intCompare 1 (TxState.start list135)).1 = some true ∧
    has_delete (t_item (Key.node 2)
      (transDelete Config.default intCompare 1 (TxState.start list135)).2.items) = true ∧
    has_delete (t_item (Key.node 2)
      (begin (transDelete Config.default intCompare 1 (TxState.start list135)).2).2.items)
      = true ∧
    list135.head_.head? = some ⟨2, 1, false⟩ ∧
    forwardWalk
      (begin (transDelete Config.default intCompare 1 (TxState.start list135)).2).2.items 3
      (begin (transDelete Config.default intCompare 1 (TxState.start list135)).2).1
      = Walk.finished [1, 3, 5] ∧
    (transIter (transDelete Config.default intCompare 1 (TxState.start list135)).2).1.map
      (transWalk (transDelete Config.default intCompare 1 (TxState.start list135)).2.items 3)
      = some (Walk.finished [3, 5]) := by
  refine ⟨fun _ => rfl, by decide, by decide, by decide, by decide, by decide, by decide⟩

/-- Claim C13. The code at the failing input, scenario S3: on `[1,2,3]` the
transaction `transDelete(2); transInsert(2)` (both true) commits, with
`Opacity = no` and with `Opacity = yes` alike, to a list whose size-version is the
size-version before the commit: it is advanced zero times, not once. -/
theorem update_commit_keeps_size_version :
    (run Config.default intCompare [Op.transDelete 2, Op.transInsert 2]
      (TxState.start list123)).1 = [some (Ret.bool true), some (Ret.bool true)] ∧
    (commitInstall Config.default 7
      (run Config.default intCompare [Op.transDelete 2, Op.transInsert 2]
        (TxState.start list123)).2.items
      (run Config.default intCompare [Op.transDelete 2, Op.transInsert 2]
        (TxState.start list123)).2.l).map (fun l => l.sizeversion_)
      = some list123.sizeversion_ ∧
    (commitInstall cfgOpaque 7
      (run cfgOpaque intCompare [Op.transDelete 2, Op.transInsert 2]
        (TxState.start list123)).2.items
      (run cfgOpaque intCompare [Op.transDelete 2, Op.transInsert 2]
        (TxState.start list123)).2.l).map (fun l => l.sizeversion_)
      = some list123.sizeversion_ ∧
    inc_nonopaque_version list123.sizeversion_ ≠ list123.sizeversion_ ∧
    set_version 7 list123.sizeversion_ ≠ list123.sizeversion_ := by
  refine ⟨by decide, by decide, by decide, by decide, by decide⟩

/-! ## Verification: validation at commit -/

theorem is_valid_at_removed {T : Type} (a : Nat) (l : ListState T)
    (hnd : (l.head_.map (fun n => n.addr)).Nodup) :
    is_valid_at (removeNode true a l).2 a = false := by
  rw [removeNode_txnal_eq a l hnd]
  unfold is_valid_at
  have : (l.head_.filter (fun n => !decide (n.addr = a))).find? (fun m => decide (m.addr = a))
      = none := by
    rw [List.find?_eq_none]
    intro m hm
    have := (List.mem_filter.mp hm).2
    simpa using this
  simp only [this]

/-- Claim C16. Presence witnesses are validated at commit.  `check` on the item of
a node returns true iff the node's invalid bit is clear or the item is the
transaction's own insert (`has_insert`: write mark, no delete, no doupdate).
Hence for an item that is not an own insert (a read witness, a pending delete
or doupdate), once another transaction's delete of the node has been installed,
`check` returns false. -/
theorem check_validates_presence {T : Type} (item : TransItem T) (a : Nat)
    (hkey : item.key = Key.node a) :
    (∀ l : ListState T, check item l = some true ↔
      (is_valid_at l a = true ∨ has_insert item = true)) ∧
    (∀ l : ListState T, ∃ b, check item l = some b) ∧
    (∀ (cfg : Config) (commit_tid : Nat) (d : TransItem T) (l : ListState T),
      (l.head_.map (fun n => n.addr)).Nodup → d.key = Key.node a → has_delete d = true →
      has_insert item = false →
      ∃ l', install cfg commit_tid d l = some l' ∧ check item l' = some false) := by
  have hc : ∀ l : ListState T, check item l =
      if !is_valid_at l a then some (has_insert item) else some true := by
    intro l
    simp only [check, hkey]
  refine ⟨?_, ?_, ?_⟩
  · intro l
    rw [hc]
    by_cases hv : is_valid_at l a = true
    · simp [hv]
    · rw [Bool.not_eq_true] at hv
      simp [hv]
  · intro l
    rw [hc]
    split_ifs
    · exact ⟨_, rfl⟩
    · exact ⟨_, rfl⟩
  · intro cfg commit_tid d l hnd hd hdel hni
    refine ⟨{ head_ := (removeNode true a l).2.head_,
              listsize_ := (removeNode true a l).2.listsize_ + -1,
              sizeversion_ :=
                if cfg.Opacity = true then
                  set_version commit_tid (removeNode true a l).2.sizeversion_
                else inc_nonopaque_version (removeNode true a l).2.sizeversion_,
              heap_next := (removeNode true a l).2.heap_next },
      by simp only [install, hd, hdel, if_true], ?_⟩
    rw [hc]
    have hr := is_valid_at_removed a l hnd
    have : is_valid_at
        { head_ := (removeNode true a l).2.head_,
          listsize_ := (removeNode true a l).2.listsize_ + -1,
          sizeversion_ :=
            if cfg.Opacity = true then set_version commit_tid (removeNode true a l).2.sizeversion_
            else inc_nonopaque_version (removeNode true a l).2.sizeversion_,
          heap_next := (removeNode true a l).2.heap_next } a = false := hr
    simp only [this, Bool.not_false, if_true, hni]

/-- Transaction T1 reads 3 on `[1,3,5]` (a read witness on the node at address 3);
transaction T2 deletes 3 and its delete is installed; T1's `check` then fails. -/
theorem check_validates_presence_witness :
    (t_item (Key.node 3)
      (transFind cfgOpaque intCompare 3 (TxState.start list135)).2.items).key = Key.node 3 ∧
    check (t_item (Key.node 3) (transFind cfgOpaque intCompare 3 (TxState.start list135)).2.items)
      list135 = some true ∧
    ∃ l', install cfgOpaque 7
        (t_item (Key.node 3) (transDelete cfgOpaque intCompare 3 (TxState.start list135)).2.items)
        list135 = some l' ∧
      check (t_item (Key.node 3)
        (transFind cfgOpaque intCompare 3 (TxState.start list135)).2.items) l' = some false :=
  ⟨by decide, by decide,
   (check_validates_presence
      (t_item (Key.node 3) (transFind cfgOpaque intCompare 3 (TxState.start list135)).2.items)
      3 (by decide)).2.2 cfgOpaque 7
      (t_item (Key.node 3) (transDelete cfgOpaque intCompare 3 (TxState.start list135)).2.items)
      list135 list135_wf.1 (by decide) (by decide) (by decide)⟩

theorem observe_records {T : Type} (v : Nat) (items : List (TransItem T))
    (h : (t_item Key.list_key items).read = false) :
    (t_item Key.list_key (updItem Key.list_key (TransItem.observe v) items)).read_value = some v := by
  rw [t_item_updItem_same Key.list_key (TransItem.observe v) (observe_key v)]
  simp [TransItem.observe, h]

/-- Claim C17. Absence witnesses are validated at commit.  In a transaction that
has no observation on the list-key item yet, a `transFind` or `transDelete` that
locates no node, `size()` and `transIter()` record the current size-version on
the list-key item.  For a list-key item holding the observation `v`: after
another transaction's install of an insert or of a delete has run (with a commit
timestamp greater than `v` when `Opacity = yes`; from a size-version not below
`v` when `Opacity = no`), `check` on the item returns false. -/
theorem check_validates_absence {T : Type} (cfg : Config) (comp : T → T → Int) :
    (∀ (s : TxState T) (k : T), (t_item Key.list_key s.items).read = false →
      _find cfg comp k s.l.head_ = none →
      (t_item Key.list_key (transFind cfg comp k s).2.items).read_value
        = some s.l.sizeversion_ ∧
      (t_item Key.list_key (transDelete cfg comp k s).2.items).read_value
        = some s.l.sizeversion_) ∧
    (∀ (s : TxState T), (t_item Key.list_key s.items).read = false →
      (t_item Key.list_key (size s).2.items).read_value = some s.l.sizeversion_ ∧
      (t_item Key.list_key (transIter s).2.items).read_value = some s.l.sizeversion_) ∧
    (∀ (w d : TransItem T) (v commit_tid a : Nat) (l l' : ListState T),
      w.key = Key.list_key → w.read_value = some v → d.key = Key.node a →
      (has_delete d = true ∨ has_doupdate d = false) →
      (cfg.Opacity = true → v < commit_tid) → (cfg.Opacity = false → v ≤ l.sizeversion_) →
      install cfg commit_tid d l = some l' → check w l' = some false) := by
  refine ⟨?_, ?_, ?_⟩
  · intro s k hr hf
    constructor
    · simp only [transFind, hf, verify_list]
      exact observe_records _ _ hr
    · simp only [transDelete, hf, verify_list]
      exact observe_records _ _ hr
  · intro s hr
    constructor
    · simp only [size, verify_list]
      rw [t_item_updItem_ne Key.list_key Key.size_key (by decide) id (fun _ => rfl)]
      exact observe_records _ _ hr
    · simp only [transIter, verify_list]
      exact observe_records _ _ hr
  · intro w d v commit_tid a l l' hw hobs hd hkind hO hN hinst
    have hver : l'.sizeversion_ ≠ v := by
      simp only [install, hd] at hinst
      by_cases hdel : has_delete d = true
      · simp only [hdel, if_true, Option.some.injEq] at hinst
        rw [← hinst]
        simp only [removeNode_txnal_listsize]
        have hsv : (removeNode true a l).2.sizeversion_ = l.sizeversion_ := by
          unfold removeNode _remove
          cases removeLoop (fun n2 => decide (a = n2.addr)) l.head_ <;> rfl
        rw [hsv]
        by_cases hop : cfg.Opacity = true
        · have := hO hop
          simp only [hop, if_true, set_version]
          omega
        · rw [Bool.not_eq_true] at hop
          have := hN hop
          simp only [hop, Bool.false_eq_true, if_false, inc_nonopaque_version]
          omega
      · rw [Bool.not_eq_true] at hdel
        have hupd : has_doupdate d = false := by
          rcases hkind with h | h
          · rw [h] at hdel; exact absurd hdel (by decide)
          · exact h
        simp only [hdel, hupd, Bool.false_eq_true, if_false] at hinst
        by_cases hop : cfg.Opacity = true
        · have := hO hop
          simp only [hop, if_true, Option.some.injEq] at hinst
          rw [← hinst]
          simp only [set_version]
          omega
        · rw [Bool.not_eq_true] at hop
          simp [hop] at hinst
    simp only [check, hw, check_version, hobs, Option.some.injEq, decide_eq_false_iff_not]
    exact fun e => hver e.symm

/-- Scenario S4 with `Opacity = yes`: on `[1,3]` transaction T1 finds 2 absent and
records the size-version 0; transaction T2 inserts 2 and its insert is installed
with commit timestamp 7; T1's `check` on the list-key item then fails. -/
theorem check_validates_absence_witness :
    (transFind cfgOpaque intCompare 2 (TxState.start list13)).1 = some none ∧
    (t_item Key.list_key
      (transFind cfgOpaque intCompare 2 (TxState.start list13)).2.items).read_value = some 0 ∧
    ∃ l', install cfgOpaque 7
        (t_item (Key.node 4) (transInsert cfgOpaque intCompare 2 (TxState.start list13)).2.items)
        (transInsert cfgOpaque intCompare 2 (TxState.start list13)).2.l = some l' ∧
      check (t_item Key.list_key
        (transFind cfgOpaque intCompare 2 (TxState.start list13)).2.items) l' = some false :=
  ⟨by decide, by decide,
   { head_ := [⟨2, 1, false⟩, ⟨4, 2, false⟩, ⟨3, 3, false⟩],
     listsize_ := 3, sizeversion_ := 7, heap_next := 5 },
   by decide,
   (check_validates_absence cfgOpaque intCompare).2.2
     (t_item Key.list_key (transFind cfgOpaque intCompare 2 (TxState.start list13)).2.items)
     (t_item (Key.node 4) (transInsert cfgOpaque intCompare 2 (TxState.start list13)).2.items)
     0 7 4 (transInsert cfgOpaque intCompare 2 (TxState.start list13)).2.l _
     (by decide) (by decide) (by decide) (by decide) (by decide) (by decide) (by decide)⟩

/-! ## Verification: transactional iteration -/

theorem has_insert_fresh {T : Type} (k : Key) :
    has_insert (TransItem.fresh k : TransItem T) = false := by
  simp [has_insert, TransItem.has_write, TransItem.fresh]

theorem has_delete_fresh {T : Type} (k : Key) :
    has_delete (TransItem.fresh k : TransItem T) = false := by
  simp [has_delete, TransItem.fresh, Flags.test, Flags.none]

/-- One round of the skip loop in terms of the item `t_item` hands out. -/
theorem ensureValid_cons {T : Type} (items : List (TransItem T)) (cur : list_node T)
    (rest : List (list_node T)) :
    ensureValid items (cur :: rest) =
      if !cur.is_valid && !has_insert (t_item (Key.node cur.addr) items) then none
      else if has_delete (t_item (Key.node cur.addr) items) then ensureValid items rest
      else some (cur :: rest) := by
  unfold t_item
  cases h : check_item (Key.node cur.addr) items with
  | none => simp [ensureValid, h, has_insert_fresh, has_delete_fresh]
  | some it => simp [ensureValid, h]

/-- When every invalid node is an own insert, the skip loop does not abort and
stops at the first node that is not locally deleted. -/
theorem ensureValid_eq_dropWhile {T : Type} (items : List (TransItem T))
    (nodes : List (list_node T))
    (hown : ∀ n ∈ nodes, n.invalid = true → has_insert (t_item (Key.node n.addr) items) = true) :
    ensureValid items nodes = some (nodes.dropWhile (fun n => !visibleTo items n)) := by
  induction nodes with
  | nil => rfl
  | cons cur rest ih =>
    have ih' := ih (fun n hn => hown n (List.mem_cons_of_mem _ hn))
    have hcur := hown cur (List.mem_cons_self _ _)
    rw [ensureValid_cons]
    have h1 : (!cur.is_valid && !has_insert (t_item (Key.node cur.addr) items)) = false := by
      cases hi : cur.invalid with
      | false => simp [list_node.is_valid, hi]
      | true => simp [list_node.is_valid, hi, hcur hi]
    simp only [h1, Bool.false_eq_true, if_false]
    by_cases hd : has_delete (t_item (Key.node cur.addr) items) = true
    · simp [hd, ih', List.dropWhile, visibleTo]
    · rw [Bool.not_eq_true] at hd
      simp [hd, List.dropWhile, visibleTo]

theorem transWalk_eq {T : Type} (items : List (TransItem T)) (nodes : List (list_node T))
    (hown : ∀ n ∈ nodes, n.invalid = true → has_insert (t_item (Key.node n.addr) items) = true) :
    ∀ fuel, nodes.length ≤ fuel →
    transWalk items fuel (ListIter.mk (nodes.dropWhile (fun n => !visibleTo items n))) =
      Walk.finished ((nodes.filter (visibleTo items)).map (fun n => n.val)) := by
  induction nodes with
  | nil =>
    intro fuel _
    cases fuel <;> simp [transWalk, transHasNext]
  | cons cur rest ih =>
    intro fuel hfuel
    have hown' : ∀ n ∈ rest, n.invalid = true →
        has_insert (t_item (Key.node n.addr) items) = true :=
      fun n hn => hown n (List.mem_cons_of_mem _ hn)
    by_cases hv : visibleTo items cur = true
    · cases fuel with
      | zero => simp at hfuel
      | succ f =>
        have hf : rest.length ≤ f := by simpa using hfuel
        have e := ensureValid_eq_dropWhile items rest hown'
        simp only [List.dropWhile, hv, Bool.not_true, List.filter_cons, if_true, List.map_cons]
        simp only [transWalk, transHasNext, List.isEmpty_cons, Bool.not_false, if_true, transNext,
          e, Option.map_some', ih hown' f hf, Option.toList, List.singleton_append]
    · rw [Bool.not_eq_true] at hv
      have := ih hown' fuel (by simp at hfuel; omega)
      simp only [List.dropWhile, hv, Bool.not_false, List.filter_cons, Bool.false_eq_true,
        if_false]
      exact this

theorem t_item_node_verify_list {T : Type} (v : Nat) (s : TxState T) (a : Nat) :
    t_item (Key.node a) (verify_list v s).items = t_item (Key.node a) s.items := by
  simp only [verify_list]
  rw [t_item_updItem_ne _ _ (by simp) (TransItem.observe v) (observe_key v)]

/-- Claim C18. Transactional iteration with `ListIter`, in every configuration: on a
list in which every invalid node is an own insert of the transaction,
`transIter()` does not abort, and `transNext()` repeated while `transHasNext()`
yields exactly, in list order, the values of the nodes whose item does not carry
the delete flag; no call aborts and the iteration ends within as many
`transNext` calls as the list has nodes. -/
theorem transIter_yields_visible {T : Type} (s : TxState T)
    (hown : ∀ n ∈ s.l.head_, n.invalid = true →
      has_insert (t_item (Key.node n.addr) s.items) = true) :
    ∃ it, (transIter s).1 = some it ∧
      ∀ fuel, s.l.head_.length ≤ fuel →
        transWalk (transIter s).2.items fuel it =
          Walk.finished
            ((s.l.head_.filter (fun n => !has_delete (t_item (Key.node n.addr) s.items))).map
              (fun n => n.val)) := by
  have hitems : ∀ a, t_item (Key.node a) (transIter s).2.items = t_item (Key.node a) s.items :=
    fun a => t_item_node_verify_list _ s a
  have hown' : ∀ n ∈ s.l.head_, n.invalid = true →
      has_insert (t_item (Key.node n.addr) (transIter s).2.items) = true := by
    intro n hn hi
    rw [hitems]
    exact hown n hn hi
  have e := ensureValid_eq_dropWhile (transIter s).2.items s.l.head_ hown'
  refine ⟨ListIter.mk (s.l.head_.dropWhile (fun n => !visibleTo (transIter s).2.items n)), ?_, ?_⟩
  · have : (transIter s).1 = (ensureValid (transIter s).2.items s.l.head_).map ListIter.mk := rfl
    rw [this, e]
    rfl
  · intro fuel hfuel
    rw [transWalk_eq (transIter s).2.items s.l.head_ hown' fuel hfuel]
    congr 2
    apply List.filter_congr
    intro n _
    simp only [visibleTo, hitems]

/-- On `[1,3,5]` after `transDelete(1); transInsert(4); transDelete(5)`: the own
insert 4 is the only invalid node, and the iteration yields 3, 4: the deleted head
and tail are skipped, the not-yet-valid insert is yielded. -/
theorem transIter_yields_visible_witness :
    (∀ n ∈ (run Config.default intCompare
        [Op.transDelete 1, Op.transInsert 4, Op.transDelete 5] (TxState.start list135)).2.l.head_,
      n.invalid = true →
      has_insert (t_item (Key.node n.addr) (run Config.default intCompare
        [Op.transDelete 1, Op.transInsert 4, Op.transDelete 5]
        (TxState.start list135)).2.items) = true) ∧
    (transIter (run Config.default intCompare
        [Op.transDelete 1, Op.transInsert 4, Op.transDelete 5]
        (TxState.start list135)).2).1.map
      (transWalk (transIter (run Config.default intCompare
        [Op.transDelete 1, Op.transInsert 4, Op.transDelete 5]
        (TxState.start list135)).2).2.items 4) = some (Walk.finished [3, 4]) ∧
    ∃ it, (transIter (run Config.default intCompare
        [Op.transDelete 1, Op.transInsert 4, Op.transDelete 5]
        (TxState.start list135)).2).1 = some it ∧
      ∀ fuel, (run Config.default intCompare
          [Op.transDelete 1, Op.transInsert 4, Op.transDelete 5]
          (TxState.start list135)).2.l.head_.length ≤ fuel →
        transWalk (transIter (run Config.default intCompare
          [Op.transDelete 1, Op.transInsert 4, Op.transDelete 5]
          (TxState.start list135)).2).2.items fuel it =
          Walk.finished
            (((run Config.default intCompare
                [Op.transDelete 1, Op.transInsert 4, Op.transDelete 5]
                (TxState.start list135)).2.l.head_.filter
              (fun n => !has_delete (t_item (Key.node n.addr) (run Config.default intCompare
                [Op.transDelete 1, Op.transInsert 4, Op.transDelete 5]
                (TxState.start list135)).2.items))).map (fun n => n.val)) :=
  ⟨by decide, by decide,
   transIter_yields_visible _ (by decide)⟩

/-! ## Verification: compositions within one transaction -/

/-- In a sorted duplicate-free list the lookup of a key finds the one node
equal to it. -/
theorem _find_of_mem {T : Type} (cfg : Config) {comp : T → T → Int} (hL : Lawful comp)
    {nodes : List (list_node T)} (hs : SortedBy comp nodes) (hd : DupFree comp nodes)
    {n : list_node T} (hn : n ∈ nodes) {k : T} (hk : comp n.val k = 0) :
    _find cfg comp k nodes = some n := by
  rw [_find_eq_find? cfg comp k nodes (Or.inr ⟨hL, hs⟩)]
  cases hf : nodes.find? (eqKey comp k) with
  | none =>
    have := List.find?_eq_none.mp hf n hn
    simp [eqKey, hk] at this
  | some m =>
    have hm := List.mem_of_find?_eq_some hf
    have hmk : comp m.val k = 0 := by simpa [eqKey] using List.find?_some hf
    have hmn : comp m.val n.val = 0 :=
      ((hL.eq_congr_left (hL.eq_symm hmk) n.val).1).mp (hL.eq_symm hk)
    rw [eq_of_equiv_of_sorted hL (strict_of_sorted_dupFree hL hs hd) hm hn hmn]

/-- On a sorted duplicate-free list with duplicates forbidden, the transactional
`_insert` of a value equal to the node `n` returns `n` and changes nothing. -/
theorem _insert_existing {T : Type} (cfg : Config) (hS : cfg.Sorted = true)
    (hD : cfg.Duplicates = false) {comp : T → T → Int} (hL : Lawful comp) (l : ListState T)
    (hs : SortedBy comp l.head_) (hd : DupFree comp l.head_) {n : list_node T}
    (hn : n ∈ l.head_) {v : T} (hv : comp n.val v = 0) :
    _insert cfg comp true v l = (n, false, l) := by
  have e := insertLoop_sorted_forbid cfg comp hS hD hL
    { addr := l.heap_next, val := v, invalid := true } l.head_ hs
  have hf : l.head_.find? (eqKey comp v) = some n := by
    have := _find_of_mem cfg hL hs hd hn hv
    rwa [_find_eq_find? cfg comp v l.head_ (Or.inr ⟨hL, hs⟩)] at this
  simp only [hf] at e
  simp only [_insert, hS, hD, e, Bool.not_true, Bool.false_and, Bool.false_eq_true, if_false]

/-- The state after `transDelete(k); transInsert(v)` on a fresh transaction, for
a valid node `n` equal to `k` and a value `v` equal to `k`: both calls return
true, the list is untouched, and the item of `n` is a pending update to `v`. -/
theorem delete_insert_state {T : Type} (cfg : Config) (hS : cfg.Sorted = true)
    (hD : cfg.Duplicates = false) {comp : T → T → Int} (hL : Lawful comp) (l : ListState T)
    (hs : SortedBy comp l.head_) (hd : DupFree comp l.head_) {n : list_node T}
    (hn : n ∈ l.head_) (hvalid : n.invalid = false) {k v : T} (hk : comp n.val k = 0)
    (hv : comp v k = 0) :
    (transDelete cfg comp k (TxState.start l)).1 = some true ∧
    transInsert cfg comp v (transDelete cfg comp k (TxState.start l)).2 =
      (some true,
        { l := l,
          items :=
            [{ key := Key.node n.addr, read := true, write := true, flags := doupdate_bit,
               write_value := some v, read_value := none, stash := none },
             { key := Key.list_key, read := false, write := true, flags := Flags.none,
               write_value := none, read_value := none, stash := none },
             { key := Key.size_key, read := false, write := false, flags := Flags.none,
               write_value := none, read_value := none, stash := some 0 }] }) := by
  have hfind := _find_of_mem cfg hL hs hd hn hk
  have hnv : comp n.val v = 0 := ((hL.eq_congr_left (hL.eq_symm hv) n.val).1).mp
    (hL.eq_symm hk) |> hL.eq_symm
  have hins := _insert_existing cfg hS hD hL l hs hd hn hnv
  have e1 : transDelete cfg comp k (TxState.start l) =
      (some true,
        { l := l,
          items :=
            [{ key := Key.node n.addr, read := true, write := true, flags := delete_bit,
               write_value := none, read_value := none, stash := none },
             { key := Key.list_key, read := false, write := true, flags := Flags.none,
               write_value := none, read_value := none, stash := none },
             { key := Key.size_key, read := false, write := false, flags := Flags.none,
               write_value := none, read_value := none, stash := some (-1) }] }) := by
    simp [transDelete, hfind, TxState.start, t_item, check_item, updItem, validityCheck,
      list_node.is_valid, hvalid, has_delete, has_doupdate, has_insert, TransItem.has_write,
      TransItem.fresh, Flags.test, Flags.none, delete_bit, add_trans_size_offs,
      add_lock_list_item, TransItem.assign_flags, TransItem.add_write, TransItem.add_read,
      TransItem.set_stash, TransItem.stash_value]
  rw [e1]
  refine ⟨rfl, ?_⟩
  simp [transInsert, hins, t_item, check_item, updItem, validityCheck,
    list_node.is_valid, hvalid, has_delete, has_doupdate, has_insert, TransItem.has_write,
    Flags.test, Flags.none, delete_bit, doupdate_bit, add_trans_size_offs,
    TransItem.assign_flags, TransItem.add_write, TransItem.clear_write,
    TransItem.set_stash, TransItem.stash_value]

theorem list123_sorted : SortedBy intCompare list123.head_ := by
  simp [SortedBy, list123, intCompare, DefaultCompare]

theorem list123_dupFree : DupFree intCompare list123.head_ := by
  simp [DupFree, list123, intCompare, DefaultCompare]

theorem list123_wf : list123.wf := by
  constructor
  · simp [list123]
  · intro n hn
    simp only [list123, List.mem_cons, List.mem_singleton, List.not_mem_nil, or_false] at hn
    rcases hn with rfl | rfl | rfl <;> simp [list123]

/-- Claim C11. With `Sorted = yes`, `Duplicates = forbid`, on a well-formed sorted
duplicate-free list holding a valid node `n` compare-equal to `k`, and for `v`
compare-equal to `k`, a transaction that calls `transDelete(k)` and then
`transInsert(v)` gets true from both calls, has size delta 0 and leaves the list
as it was (nothing is allocated); the commit then writes `v` into the node at
the address of `n`, which only `n` has, and changes nothing else: the nodes,
their order and addresses, and `listsize_` are the same. -/
theorem delete_then_insert_updates_in_place {T : Type} (cfg : Config)
    (hS : cfg.Sorted = true) (hD : cfg.Duplicates = false) {comp : T → T → Int}
    (hL : Lawful comp) (l : ListState T) (hwf : l.wf) (hs : SortedBy comp l.head_)
    (hd : DupFree comp l.head_) (n : list_node T) (hn : n ∈ l.head_)
    (hvalid : n.invalid = false) (k v : T) (hk : comp n.val k = 0) (hv : comp v k = 0)
    (commit_tid : Nat) :
    (transDelete cfg comp k (TxState.start l)).1 = some true ∧
    (transInsert cfg comp v (transDelete cfg comp k (TxState.start l)).2).1 = some true ∧
    trans_size_offs (transInsert cfg comp v (transDelete cfg comp k (TxState.start l)).2).2 = 0 ∧
    (transInsert cfg comp v (transDelete cfg comp k (TxState.start l)).2).2.l = l ∧
    commitInstall cfg commit_tid
        (transInsert cfg comp v (transDelete cfg comp k (TxState.start l)).2).2.items l =
      some { l with head_ :=
               l.head_.map (fun m => if m.addr = n.addr then { m with val := v } else m) } ∧
    (l.head_.map (fun m => if m.addr = n.addr then { m with val := v } else m)).map
        (fun m => m.addr) = l.head_.map (fun m => m.addr) ∧
    (∀ m ∈ l.head_, m.addr = n.addr → m = n) := by
  obtain ⟨h1, h2⟩ := delete_insert_state cfg hS hD hL l hs hd hn hvalid hk hv
  rw [h2]
  refine ⟨h1, rfl, ?_, rfl, ?_, ?_, ?_⟩
  · simp [trans_size_offs, t_item, check_item, TransItem.stash_value]
  · simp [commitInstall, install, TransItem.has_write, has_delete, has_doupdate, Flags.test,
      doupdate_bit, delete_bit, Flags.none, atNode]
  · rw [List.map_map]
    apply List.map_congr_left
    intro m _
    simp only [Function.comp]
    split_ifs <;> rfl
  · intro m hm e
    exact mem_eq_of_addr hwf.1 hm hn e

/-- Scenario S3 on `[1,2,3]` with `k = v = 2`: an instance of claim C11. -/
theorem delete_then_insert_updates_in_place_witness :
    (transDelete Config.default intCompare 2 (TxState.start list123)).1 = some true ∧
    (transInsert Config.default intCompare 2
      (transDelete Config.default intCompare 2 (TxState.start list123)).2).1 = some true ∧
    trans_size_offs (transInsert Config.default intCompare 2
      (transDelete Config.default intCompare 2 (TxState.start list123)).2).2 = 0 ∧
    (transInsert Config.default intCompare 2
      (transDelete Config.default intCompare 2 (TxState.start list123)).2).2.l = list123 ∧
    commitInstall Config.default 7
        (transInsert Config.default intCompare 2
          (transDelete Config.default intCompare 2 (TxState.start list123)).2).2.items list123 =
      some { list123 with head_ :=
               list123.head_.map (fun m => if m.addr = 3 then { m with val := 2 } else m) } ∧
    (list123.head_.map (fun m => if m.addr = 3 then { m with val := (2 : Int) } else m)).map
        (fun m => m.addr) = list123.head_.map (fun m => m.addr) ∧
    (∀ m ∈ list123.head_, m.addr = 3 → m = ⟨3, 2, false⟩) :=
  delete_then_insert_updates_in_place Config.default rfl rfl intCompare_lawful list123
    list123_wf list123_sorted list123_dupFree ⟨3, 2, false⟩ (by simp [list123]) rfl 2 2
    (by decide) (by decide) 7

theorem keyCompare_lawful : Lawful keyCompare where
  flip := fun a b => DefaultCompare_lawful.flip a.1 b.1
  trans := fun a b c => DefaultCompare_lawful.trans a.1 b.1 c.1

/-- Counterexample to claim C12 as stated. On the list of the pairs `(1,0), (2,0),
(3,0)` compared by their first component, with `k = (2,0)` and `v = (2,1)`
(`compare(v, k) = 0`): `transDelete(k)` and `transInsert(v)` both return true,
the pending write of the node is `v`, and `transFind(k)` returns `(2,0)`, the
value the node holds, not `v`. -/
theorem find_after_update_returns_old_value :
    keyCompare (2, 1) (2, 0) = 0 ∧
    (transDelete Config.default keyCompare (2, 0) (TxState.start listPairs)).1 = some true ∧
    (transInsert Config.default keyCompare (2, 1)
      (transDelete Config.default keyCompare (2, 0) (TxState.start listPairs)).2).1 = some true ∧
    (t_item (Key.node 3) (transInsert Config.default keyCompare (2, 1)
      (transDelete Config.default keyCompare (2, 0) (TxState.start listPairs)).2).2.items).write_value
      = some (2, 1) ∧
    (transFind Config.default keyCompare (2, 0)
      (transInsert Config.default keyCompare (2, 1)
        (transDelete Config.default keyCompare (2, 0) (TxState.start listPairs)).2).2).1
      = some (some (2, 0)) ∧
    (transFind Config.default keyCompare (2, 0)
      (transInsert Config.default keyCompare (2, 1)
        (transDelete Config.default keyCompare (2, 0) (TxState.start listPairs)).2).2).1
      ≠ some (some (2, 1)) := by
  decide

/-- Claim C12, amended. With `Sorted = yes`, `Duplicates = forbid`, on a sorted
duplicate-free list holding a valid node `n` compare-equal to `k`, and for `v`
compare-equal to `k`: after `transDelete(k)` and `transInsert(v)` in one
transaction the item of `n` stashes `v` as its pending write, the node itself
is not written before commit, and `transFind(k)` returns the value the node
holds, `n.val`; it returns `v` exactly when `v` is that value. -/
theorem find_after_update_returns_node_value {T : Type} (cfg : Config)
    (hS : cfg.Sorted = true) (hD : cfg.Duplicates = false) {comp : T → T → Int}
    (hL : Lawful comp) (l : ListState T) (hs : SortedBy comp l.head_)
    (hd : DupFree comp l.head_) (n : list_node T) (hn : n ∈ l.head_)
    (hvalid : n.invalid = false) (k v : T) (hk : comp n.val k = 0) (hv : comp v k = 0) :
    (t_item (Key.node n.addr)
      (transInsert cfg comp v (transDelete cfg comp k (TxState.start l)).2).2.items).write_value
      = some v ∧
    (transInsert cfg comp v (transDelete cfg comp k (TxState.start l)).2).2.l = l ∧
    (transFind cfg comp k
      (transInsert cfg comp v (transDelete cfg comp k (TxState.start l)).2).2).1
      = some (some n.val) ∧
    ((transFind cfg comp k
      (transInsert cfg comp v (transDelete cfg comp k (TxState.start l)).2).2).1
      = some (some v) ↔ n.val = v) := by
  obtain ⟨_, h2⟩ := delete_insert_state cfg hS hD hL l hs hd hn hvalid hk hv
  have hfind := _find_of_mem cfg hL hs hd hn hk
  rw [h2]
  have hf : (transFind cfg comp k
      { l := l,
        items :=
          [{ key := Key.node n.addr, read := true, write := true, flags := doupdate_bit,
             write_value := some v, read_value := none, stash := none },
           { key := Key.list_key, read := false, write := true, flags := Flags.none,
             write_value := none, read_value := none, stash := none },
           { key := Key.size_key, read := false, write := false, flags := Flags.none,
             write_value := none, read_value := none, stash := some 0 }] }).1
      = some (some n.val) := by
    simp [transFind, hfind, t_item, check_item, validityCheck, list_node.is_valid, hvalid,
      has_delete, Flags.test, doupdate_bit, delete_bit]
  refine ⟨?_, rfl, hf, ?_⟩
  · simp [t_item, check_item]
  · rw [hf]
    simp

/-- Scenario S3 on `[1,2,3]` with `k = v = 2`: `transFind(2)` returns 2, the value
of the node. -/
theorem find_after_update_returns_node_value_witness :
    (t_item (Key.node 3)
      (transInsert Config.default intCompare 2
        (transDelete Config.default intCompare 2 (TxState.start list123)).2).2.items).write_value
      = some 2 ∧
    (transInsert Config.default intCompare 2
      (transDelete Config.default intCompare 2 (TxState.start list123)).2).2.l = list123 ∧
    (transFind Config.default intCompare 2
      (transInsert Config.default intCompare 2
        (transDelete Config.default intCompare 2 (TxState.start list123)).2).2).1
      = some (some 2) ∧
    ((transFind Config.default intCompare 2
      (transInsert Config.default intCompare 2
        (transDelete Config.default intCompare 2 (TxState.start list123)).2).2).1
      = some (some 2) ↔ (2 : Int) = 2) :=
  find_after_update_returns_node_value Config.default rfl rfl intCompare_lawful list123
    list123_sorted list123_dupFree ⟨3, 2, false⟩ (by simp [list123]) rfl 2 2
    (by decide) (by decide)

/-- The lookup walks past a prefix without compare-equal node (in a sorted
configuration: of smaller nodes) and stops at the first compare-equal node. -/
theorem _find_through {T : Type} (cfg : Config) (comp : T → T → Int) (elem : T)
    (x : list_node T) (hx : comp x.val elem = 0) (post : List (list_node T)) :
    ∀ pre : List (list_node T), (∀ m ∈ pre, comp m.val elem ≠ 0) →
      (cfg.Sorted = true → ∀ m ∈ pre, comp m.val elem < 0) →
      _find cfg comp elem (pre ++ x :: post) = some x
  | [], _, _ => by simp [_find, hx]
  | m :: pre, h1, h2 => by
    have hm := h1 m (List.mem_cons_self _ _)
    have ih := _find_through cfg comp elem x hx post pre
      (fun a ha => h1 a (List.mem_cons_of_mem _ ha))
      (fun hS a ha => h2 hS a (List.mem_cons_of_mem _ ha))
    have hg : (cfg.Sorted && decide (comp m.val elem > 0)) = false := by
      cases hS : cfg.Sorted with
      | false => rfl
      | true =>
        have := h2 hS m (List.mem_cons_self _ _)
        simp only [Bool.true_and, decide_eq_false_iff_not, gt_iff_lt, not_lt]
        omega
    rw [List.cons_append]
    simp only [_find, hm, if_false, hg, Bool.false_eq_true, ih]

/-- Unlinking by address walks past the nodes at other addresses and removes the
first node at the address. -/
theorem removeLoop_through {T : Type} (a : Nat) (x : list_node T) (hx : x.addr = a)
    (post : List (list_node T)) :
    ∀ pre : List (list_node T), (∀ m ∈ pre, m.addr ≠ a) →
      removeLoop (fun n2 => decide (a = n2.addr)) (pre ++ x :: post) = some (pre ++ post)
  | [], _ => by simp [removeLoop, hx]
  | m :: pre, h1 => by
    have hm : a ≠ m.addr := fun e => h1 m (List.mem_cons_self _ _) e.symm
    have ih := removeLoop_through a x hx post pre (fun b hb => h1 b (List.mem_cons_of_mem _ hb))
    rw [List.cons_append]
    simp only [removeLoop, hm, decide_False, Bool.false_eq_true, if_false, ih, List.cons_append]

/-- The state after `transInsert(v); transDelete(v)` on a fresh transaction, for
a value without compare-equal node: both calls return true, the node sequence
is the one before, one address has been used up, and the item of the reserved
node is left without flag or mark. -/
theorem insert_delete_state {T : Type} (cfg : Config) {comp : T → T → Int} (hL : Lawful comp)
    (l : ListState T) (hwf : l.wf) (v : T) (hnone : ∀ n ∈ l.head_, comp n.val v ≠ 0) :
    (transInsert cfg comp v (TxState.start l)).1 = some true ∧
    transDelete cfg comp v (transInsert cfg comp v (TxState.start l)).2 =
      (some true,
        { l := { l with heap_next := l.heap_next + 1 },
          items :=
            [{ key := Key.node l.heap_next, read := false, write := false, flags := Flags.none,
               write_value := none, read_value := none, stash := none },
             { key := Key.size_key, read := false, write := false, flags := Flags.none,
               write_value := none, read_value := none, stash := some 0 },
             { key := Key.list_key, read := true, write := true, flags := Flags.none,
               write_value := none, read_value := some l.sizeversion_, stash := none }] }) := by
  rcases _insert_txnal cfg comp v l with ⟨cur, hc, hcv, _, _⟩ | ⟨pre, post, e1, e2, hsorted, _⟩
  · exact absurd hcv (hnone cur hc)
  · have hpre : ∀ m ∈ pre, comp m.val v ≠ 0 := fun m hm =>
      hnone m (by rw [e1]; exact List.mem_append_left _ hm)
    have hfind := _find_through cfg comp v
      { addr := l.heap_next, val := v, invalid := true } (hL.refl v) post pre hpre
      (fun hS => (hsorted hS).1)
    have hrem := removeLoop_through l.heap_next
      ({ addr := l.heap_next, val := v, invalid := true } : list_node T) rfl post pre
      (fun m hm => Nat.ne_of_lt (hwf.2 m (by rw [e1]; exact List.mem_append_left _ hm)))
    have e3 : transInsert cfg comp v (TxState.start l) =
        (some true,
          { l := { l with head_ := pre ++ { addr := l.heap_next, val := v, invalid := true } :: post,
                          heap_next := l.heap_next + 1 },
            items :=
              [{ key := Key.node l.heap_next, read := false, write := true, flags := insert_bit,
                 write_value := none, read_value := none, stash := none },
               { key := Key.size_key, read := false, write := false, flags := Flags.none,
                 write_value := none, read_value := none, stash := some 1 },
               { key := Key.list_key, read := false, write := true, flags := Flags.none,
                 write_value := none, read_value := none, stash := none }] }) := by
      simp [transInsert, e2, TxState.start, t_item, check_item, updItem, TransItem.fresh,
        Flags.none, insert_bit, add_trans_size_offs, add_lock_list_item, TransItem.add_flags,
        TransItem.add_write, TransItem.set_stash, TransItem.stash_value]
    rw [e3]
    refine ⟨rfl, ?_⟩
    simp [transDelete, hfind, hrem, e1, t_item, check_item, updItem, validityCheck,
      list_node.is_valid, has_delete, has_doupdate, has_insert, TransItem.has_write,
      Flags.test, Flags.none, insert_bit, delete_bit, doupdate_bit, add_trans_size_offs,
      verify_list, removeNode, _remove, TransItem.clear_flags, TransItem.remove_read,
      TransItem.remove_write, TransItem.observe, TransItem.set_stash, TransItem.stash_value]

/-- Claim C14. For every configuration (`Sorted = yes`, `Duplicates = forbid` among
them), every well-formed list and every value `v` without compare-equal node, a
transaction that calls `transInsert(v)` and then `transDelete(v)` gets true from
both calls; after the second call the node sequence is the one before the first
call, the size delta is 0, and the item of the reserved node (the node
`_insert` allocated) has no insert flag, no read mark and no write mark, so the
commit runs `install` for the list key only, leaves the list as it is, and no
node compare-equal to `v` exists afterwards. -/
theorem insert_then_delete_is_noop {T : Type} (cfg : Config) {comp : T → T → Int}
    (hL : Lawful comp) (l : ListState T) (hwf : l.wf) (v : T)
    (hnone : ∀ n ∈ l.head_, comp n.val v ≠ 0) (commit_tid : Nat) :
    (transInsert cfg comp v (TxState.start l)).1 = some true ∧
    (transDelete cfg comp v (transInsert cfg comp v (TxState.start l)).2).1 = some true ∧
    (transDelete cfg comp v (transInsert cfg comp v (TxState.start l)).2).2.l.head_ = l.head_ ∧
    trans_size_offs (transDelete cfg comp v (transInsert cfg comp v (TxState.start l)).2).2 = 0 ∧
    (_insert cfg comp true v l).1.addr = l.heap_next ∧
    (t_item (Key.node l.heap_next)
      (transDelete cfg comp v (transInsert cfg comp v (TxState.start l)).2).2.items).flags.test
        insert_bit = false ∧
    (t_item (Key.node l.heap_next)
      (transDelete cfg comp v (transInsert cfg comp v (TxState.start l)).2).2.items).has_read
        = false ∧
    (t_item (Key.node l.heap_next)
      (transDelete cfg comp v (transInsert cfg comp v (TxState.start l)).2).2.items).has_write
        = false ∧
    (transDelete cfg comp v (transInsert cfg comp v (TxState.start l)).2).2.items.filter
        (fun item => item.has_write) = [(t_item Key.list_key
          (transDelete cfg comp v (transInsert cfg comp v (TxState.start l)).2).2.items)] ∧
    (∃ l', commitInstall cfg commit_tid
        (transDelete cfg comp v (transInsert cfg comp v (TxState.start l)).2).2.items
        (transDelete cfg comp v (transInsert cfg comp v (TxState.start l)).2).2.l = some l' ∧
      l'.head_ = l.head_ ∧ l'.listsize_ = l.listsize_ ∧ ∀ n ∈ l'.head_, comp n.val v ≠ 0) := by
  obtain ⟨h1, h2⟩ := insert_delete_state cfg hL l hwf v hnone
  have haddr : (_insert cfg comp true v l).1.addr = l.heap_next := by
    rcases _insert_txnal cfg comp v l with ⟨cur, hc, hcv, _, _⟩ | ⟨pre, post, _, e2, _, _⟩
    · exact absurd hcv (hnone cur hc)
    · rw [e2]
  rw [h2]
  refine ⟨h1, rfl, rfl, ?_, haddr, ?_, ?_, ?_, ?_, ?_⟩
  · simp [trans_size_offs, t_item, check_item, TransItem.stash_value]
  · simp [t_item, check_item, Flags.test, Flags.none, insert_bit]
  · simp [t_item, check_item, TransItem.has_read]
  · simp [t_item, check_item, TransItem.has_write]
  · simp [t_item, check_item, TransItem.has_write]
  · refine ⟨{ l with heap_next := l.heap_next + 1 }, ?_, rfl, rfl, hnone⟩
    simp [commitInstall, install, TransItem.has_write]

/-- On `[1,3]` with `v = 2` under the default configuration: an instance of claim C14. -/
theorem insert_then_delete_is_noop_witness :
    (transInsert Config.default intCompare 2 (TxState.start list13)).1 = some true ∧
    (transDelete Config.default intCompare 2
      (transInsert Config.default intCompare 2 (TxState.start list13)).2).1 = some true ∧
    (transDelete Config.default intCompare 2
      (transInsert Config.default intCompare 2 (TxState.start list13)).2).2.l.head_
        = list13.head_ ∧
    trans_size_offs (transDelete Config.default intCompare 2
      (transInsert Config.default intCompare 2 (TxState.start list13)).2).2 = 0 ∧
    (_insert Config.default intCompare true 2 list13).1.addr = list13.heap_next ∧
    (t_item (Key.node list13.heap_next)
      (transDelete Config.default intCompare 2
        (transInsert Config.default intCompare 2 (TxState.start list13)).2).2.items).flags.test
        insert_bit = false ∧
    (t_item (Key.node list13.heap_next)
      (transDelete Config.default intCompare 2
        (transInsert Config.default intCompare 2 (TxState.start list13)).2).2.items).has_read
        = false ∧
    (t_item (Key.node list13.heap_next)
      (transDelete Config.default intCompare 2
        (transInsert Config.default intCompare 2 (TxState.start list13)).2).2.items).has_write
        = false ∧
    (transDelete Config.default intCompare 2
      (transInsert Config.default intCompare 2 (TxState.start list13)).2).2.items.filter
        (fun item => item.has_write) = [(t_item Key.list_key
          (transDelete Config.default intCompare 2
            (transInsert Config.default intCompare 2 (TxState.start list13)).2).2.items)] ∧
    (∃ l', commitInstall Config.default 7
        (transDelete Config.default intCompare 2
          (transInsert Config.default intCompare 2 (TxState.start list13)).2).2.items
        (transDelete Config.default intCompare 2
          (transInsert Config.default intCompare 2 (TxState.start list13)).2).2.l = some l' ∧
      l'.head_ = list13.head_ ∧ l'.listsize_ = list13.listsize_ ∧
      ∀ n ∈ l'.head_, intCompare n.val 2 ≠ 0) :=
  insert_then_delete_is_noop Config.default intCompare_lawful list13
    ⟨by simp [list13], by
      intro n hn
      simp only [list13, List.mem_cons, List.mem_singleton, List.not_mem_nil, or_false] at hn
      rcases hn with rfl | rfl <;> simp [list13]⟩
    2 (by
      intro n hn
      simp only [list13, List.mem_cons, List.mem_singleton, List.not_mem_nil, or_false] at hn
      rcases hn with rfl | rfl <;> decide) 7

/-! ## Verification: the insert position among equals in a sorted list -/

/-- With `Sorted = yes`, `Duplicates = allow` the loop of `_insert` stops at the
first node that is not smaller than the new value and links the new node
before it. -/
theorem insertLoop_sorted_allow {T : Type} (cfg : Config) (hS : cfg.Sorted = true)
    (hD : cfg.Duplicates = true) (comp : T → T → Int) (ret : list_node T)
    (nodes : List (list_node T)) :
    insertLoop cfg comp ret nodes =
      Sum.inr (nodes.takeWhile (fun m => decide (comp m.val ret.val < 0)) ++
        ret :: nodes.dropWhile (fun m => decide (comp m.val ret.val < 0))) := by
  induction nodes with
  | nil => rfl
  | cons cur rest ih =>
    by_cases hc : comp cur.val ret.val < 0
    · have hn : ¬ (comp cur.val ret.val ≥ 0) := by omega
      simp [insertLoop, hS, hD, ih, hc, hn, List.takeWhile_cons, List.dropWhile_cons]
    · have hn : comp cur.val ret.val ≥ 0 := by omega
      simp [insertLoop, hS, hD, hc, hn, List.takeWhile_cons, List.dropWhile_cons]

/-- In a sorted sequence every node from the first not-smaller node on is not
smaller than the value. -/
theorem dropWhile_ge {T : Type} {comp : T → T → Int} (hL : Lawful comp) (v : T) :
    ∀ nodes : List (list_node T), SortedBy comp nodes →
      ∀ m ∈ nodes.dropWhile (fun m => decide (comp m.val v < 0)), 0 ≤ comp m.val v
  | [], _ => by simp
  | cur :: rest, hs => by
    by_cases hc : comp cur.val v < 0
    · simp only [List.dropWhile_cons, hc, decide_True, if_true]
      exact dropWhile_ge hL v rest hs.tail
    · simp only [List.dropWhile_cons, hc, decide_False, Bool.false_eq_true, if_false]
      intro m hm
      rcases List.mem_cons.mp hm with rfl | hm'
      · omega
      · have hle : comp cur.val m.val ≤ 0 := hs.pairwise hL |> fun hp =>
          (List.pairwise_cons.mp hp).1 m hm'
        by_contra hlt
        have := hL.lt_of_le_of_lt hle (by omega : comp m.val v < 0)
        omega

/-- Counterexample to claim C21 as stated. With `Sorted = yes`, `Duplicates = allow`
and pairs compared by their first component: inserting `(2,0)` and then `(2,1)`
into the empty list gives the traversal `(2,1), (2,0)`, and inserting `(2,1)`
into `(1,0), (2,0), (3,0)` gives `(1,0), (2,1), (2,0), (3,0)`: the new node is
linked before the existing compare-equal node, so equal values are traversed
in the reverse of their insertion order. -/
theorem sorted_allow_inserts_before_equal :
    keyCompare (2, 1) (2, 0) = 0 ∧
    (insert cfgSortedAllow keyCompare (2, 1)
      (insert cfgSortedAllow keyCompare (2, 0) (ListState.empty (Int × Int))).2).1 = true ∧
    (insert cfgSortedAllow keyCompare (2, 1)
      (insert cfgSortedAllow keyCompare (2, 0) (ListState.empty (Int × Int))).2).2.head_.map
        (fun n => n.val) = [(2, 1), (2, 0)] ∧
    (insert cfgSortedAllow keyCompare (2, 1) listPairs).2.head_.map (fun n => n.val)
      = [(1, 0), (2, 1), (2, 0), (3, 0)] := by
  decide

/-- Claim C21, amended. With `Sorted = yes`, `Duplicates = allow`, for every list
sorted under a lawful comparator and every value `v`: `insert(v)` returns true,
increments `listsize_`, and links the new node after the nodes strictly
smaller than `v` and immediately before the first node that is not smaller
than `v`; every node before the new node is strictly smaller, every node after
it is greater or equal, and every existing node compare-equal to `v` comes
after the new node. -/
theorem sorted_allow_insert_position {T : Type} (cfg : Config) (hS : cfg.Sorted = true)
    (hD : cfg.Duplicates = true) {comp : T → T → Int} (hL : Lawful comp) (l : ListState T)
    (hs : SortedBy comp l.head_) (v : T) :
    insert cfg comp v l =
      (true,
        { l with
          head_ := l.head_.takeWhile (fun m => decide (comp m.val v < 0)) ++
            { addr := l.heap_next, val := v, invalid := false } ::
              l.head_.dropWhile (fun m => decide (comp m.val v < 0)),
          listsize_ := l.listsize_ + 1,
          heap_next := l.heap_next + 1 }) ∧
    (∀ m ∈ l.head_.takeWhile (fun m => decide (comp m.val v < 0)), comp m.val v < 0) ∧
    (∀ m ∈ (l.head_.dropWhile (fun m => decide (comp m.val v < 0))).head?, 0 ≤ comp m.val v) ∧
    (∀ m ∈ l.head_.dropWhile (fun m => decide (comp m.val v < 0)), 0 ≤ comp m.val v) ∧
    (∀ m ∈ l.head_, comp m.val v = 0 →
      m ∈ l.head_.dropWhile (fun m => decide (comp m.val v < 0))) := by
  have htw : ∀ m ∈ l.head_.takeWhile (fun m => decide (comp m.val v < 0)), comp m.val v < 0 := by
    intro m hm
    simpa using List.mem_takeWhile_imp hm
  have hdw := dropWhile_ge hL v l.head_ hs
  refine ⟨?_, htw, ?_, hdw, ?_⟩
  · have e := insertLoop_sorted_allow cfg hS hD comp
      { addr := l.heap_next, val := v, invalid := false } l.head_
    simp only at e
    simp only [insert, _insert, hS, hD, e, Bool.not_true, Bool.false_and, Bool.false_eq_true,
      if_false, Bool.not_false, if_true]
  · intro m hm
    exact hdw m (List.mem_of_mem_head? hm)
  · intro m hm he
    have hsplit := List.takeWhile_append_dropWhile (fun m => decide (comp m.val v < 0)) l.head_
    rw [← hsplit] at hm
    rcases List.mem_append.mp hm with h | h
    · have := htw m h
      omega
    · exact h

/-- On `(1,0), (2,0), (3,0)` with `v = (2,1)`: an instance of the amended claim C21. -/
theorem sorted_allow_insert_position_witness :
    insert cfgSortedAllow keyCompare (2, 1) listPairs =
      (true,
        { listPairs with
          head_ := listPairs.head_.takeWhile (fun m => decide (keyCompare m.val (2, 1) < 0)) ++
            { addr := listPairs.heap_next, val := (2, 1), invalid := false } ::
              listPairs.head_.dropWhile (fun m => decide (keyCompare m.val (2, 1) < 0)),
          listsize_ := listPairs.listsize_ + 1,
          heap_next := listPairs.heap_next + 1 }) ∧
    (∀ m ∈ listPairs.head_.takeWhile (fun m => decide (keyCompare m.val (2, 1) < 0)),
      keyCompare m.val (2, 1) < 0) ∧
    (∀ m ∈ (listPairs.head_.dropWhile (fun m => decide (keyCompare m.val (2, 1) < 0))).head?,
      0 ≤ keyCompare m.val (2, 1)) ∧
    (∀ m ∈ listPairs.head_.dropWhile (fun m => decide (keyCompare m.val (2, 1) < 0)),
      0 ≤ keyCompare m.val (2, 1)) ∧
    (∀ m ∈ listPairs.head_, keyCompare m.val (2, 1) = 0 →
      m ∈ listPairs.head_.dropWhile (fun m => decide (keyCompare m.val (2, 1) < 0))) :=
  sorted_allow_insert_position cfgSortedAllow rfl rfl keyCompare_lawful listPairs
    (by simp [SortedBy, listPairs, keyCompare, DefaultCompare]) (2, 1)

/-! ## Verification: the install of an insert without opacity -/

/-- Claim C22. The code at the failing input: with `Opacity = no` (the default
configuration) `install` of an own-insert item of any node, at any commit
timestamp and on any list, does not complete, it stops at `assert(Opacity)`; so
on `[1,3]` the commit of `transInsert(2)` (true) does not complete, while the
same commit with `Opacity = yes` makes the node valid, increments `listsize_`
and stamps the size-version, and the install of a delete completes with
`Opacity = no`. -/
theorem install_insert_asserts_opacity :
    Config.default.Opacity = false ∧
    (∀ (commit_tid n : Nat) (l : ListState Int),
      install Config.default commit_tid
        { key := Key.node n, read := false, write := true, flags := insert_bit,
          write_value := none, read_value := none, stash := none } l = none) ∧
    (transInsert Config.default intCompare 2 (TxState.start list13)).1 = some true ∧
    commitInstall Config.default 7
      (transInsert Config.default intCompare 2 (TxState.start list13)).2.items
      (transInsert Config.default intCompare 2 (TxState.start list13)).2.l = none ∧
    commitInstall cfgOpaque 7
      (transInsert cfgOpaque intCompare 2 (TxState.start list13)).2.items
      (transInsert cfgOpaque intCompare 2 (TxState.start list13)).2.l =
        some { head_ := [⟨2, 1, false⟩, ⟨4, 2, false⟩, ⟨3, 3, false⟩],
               listsize_ := 3, sizeversion_ := 7, heap_next := 5 } ∧
    commitInstall Config.default 7
      (transDelete Config.default intCompare 3 (TxState.start list13)).2.items
      (transDelete Config.default intCompare 3 (TxState.start list13)).2.l =
        some { head_ := [⟨2, 1, false⟩],
               listsize_ := 1, sizeversion_ := 1, heap_next := 4 } := by
  refine ⟨rfl, ?_, by decide, by decide, by decide, by decide⟩
  intro commit_tid n l
  simp [install, has_delete, has_doupdate, Flags.test, insert_bit, delete_bit, doupdate_bit,
    Config.default]

/-! ## Verification: the flags of node items -/

theorem NodeItemOk.of_fresh {T : Type} (k : Key) : NodeItemOk (TransItem.fresh k : TransItem T) :=
  Or.inl ⟨rfl, rfl⟩

/-- An update of the item of one node keeps the flag invariant when the new
item of that node is in one of the four states. -/
theorem FlagInv.upd_node {T : Type} {items : List (TransItem T)} (h : FlagInv items) (c : Nat)
    (f : TransItem T → TransItem T) (hf : ∀ it, (f it).key = it.key)
    (hc : NodeItemOk (f (t_item (Key.node c) items))) :
    FlagInv (updItem (Key.node c) f items) := by
  intro a
  by_cases e : c = a
  · subst e
    rw [t_item_updItem_same _ f hf]
    exact hc
  · rw [t_item_updItem_ne _ _ (by simpa using e) f hf]
    exact h a

/-- An update of the list-key or size-key item keeps the flag invariant. -/
theorem FlagInv.upd_sentinel {T : Type} {items : List (TransItem T)} (h : FlagInv items)
    (k : Key) (hk : ∀ a, k ≠ Key.node a) (f : TransItem T → TransItem T)
    (hf : ∀ it, (f it).key = it.key) : FlagInv (updItem k f items) := by
  intro a
  rw [t_item_updItem_ne _ _ (hk a) f hf]
  exact h a

theorem FlagInv.verify_step {T : Type} {s : TxState T} (h : FlagInv s.items) (v : Nat) :
    FlagInv (verify_list v s).items :=
  h.upd_sentinel Key.list_key (fun _ e => by cases e) _ (observe_key v)

theorem FlagInv.lock_step {T : Type} {s : TxState T} (h : FlagInv s.items) :
    FlagInv (add_lock_list_item s).items :=
  h.upd_sentinel Key.list_key (fun _ e => by cases e) _ (fun _ => rfl)

theorem FlagInv.offs_step {T : Type} {s : TxState T} (h : FlagInv s.items) (d : Int) :
    FlagInv (add_trans_size_offs d s).items :=
  h.upd_sentinel Key.size_key (fun _ e => by cases e) _ (fun _ => rfl)

theorem FlagInv.touch {T : Type} {items : List (TransItem T)} (h : FlagInv items) (c : Nat) :
    FlagInv (updItem (Key.node c) id items) :=
  h.upd_node c id (fun _ => rfl) (h c)

theorem transFind_flags {T : Type} (cfg : Config) (comp : T → T → Int) (elem : T)
    {s : TxState T} (h : FlagInv s.items) : FlagInv (transFind cfg comp elem s).2.items := by
  unfold transFind
  simp only []
  cases hf : _find cfg comp elem s.l.head_ with
  | none => exact h.verify_step _
  | some n =>
    simp only []
    split_ifs
    · exact h.touch n.addr
    · exact h.touch n.addr
    · exact h.upd_node n.addr TransItem.add_read (fun _ => rfl) (h n.addr)

theorem transInsert_flags {T : Type} (cfg : Config) {comp : T → T → Int} {l0 : ListState T}
    (elem : T) {s : TxState T} (hinv : TxInv comp l0 s) (h : FlagInv s.items) :
    FlagInv (transInsert cfg comp elem s).2.items := by
  rcases _insert_txnal cfg comp elem s.l with ⟨cur, _, _, _, e⟩ | ⟨pre, post, _, e, _, _⟩
  · unfold transInsert
    simp only [e, Bool.not_false, if_true]
    split_ifs
    · exact h.touch cur.addr
    · exact h.touch cur.addr
    · exact h.touch cur.addr
    · refine FlagInv.offs_step (s := { l := s.l, items := _ }) ?_ 1
      refine (h.touch cur.addr).upd_node cur.addr _ (fun _ => rfl) ?_
      exact Or.inr ⟨rfl, Or.inr (Or.inr rfl)⟩
    · exact (h.touch cur.addr).upd_node cur.addr TransItem.add_read (fun _ => rfl)
        (by rw [t_item_updItem_same _ id (fun _ => rfl)]; exact h cur.addr)
  · unfold transInsert
    simp only [e, Bool.not_true, Bool.false_eq_true, if_false]
    have hfresh := hinv.unalloc s.l.heap_next (le_refl _)
    have h1 : FlagInv (updItem (Key.node s.l.heap_next) id s.items) := h.touch _
    have h2 := FlagInv.lock_step (FlagInv.offs_step (s := { l := s.l, items := _ }) h1 1)
    refine h2.upd_node s.l.heap_next _ (fun _ => rfl) ?_
    simp only [add_lock_list_item, add_trans_size_offs]
    rw [t_item_updItem_ne (Key.node s.l.heap_next) Key.list_key (by simp)
        (TransItem.add_write none) (fun _ => rfl),
      t_item_updItem_ne (Key.node s.l.heap_next) Key.size_key (by simp)
        (fun item => TransItem.set_stash (toInt32 (item.stash_value 0 + 1)) item) (fun _ => rfl),
      t_item_updItem_same (Key.node s.l.heap_next) id (fun _ => rfl), hfresh]
    exact Or.inr ⟨rfl, Or.inl rfl⟩

theorem transDelete_flags {T : Type} (cfg : Config) (comp : T → T → Int) (elem : T)
    {s : TxState T} (h : FlagInv s.items) : FlagInv (transDelete cfg comp elem s).2.items := by
  unfold transDelete
  simp only []
  cases hf : _find cfg comp elem s.l.head_ with
  | none => exact h.verify_step _
  | some n =>
    simp only []
    have ht := h.touch n.addr
    have hn := h n.addr
    split_ifs with h1 h2 h3 h4
    · exact ht
    · exact ht
    · refine FlagInv.offs_step (s := { l := s.l, items := _ }) ?_ (-1)
      refine ht.upd_node n.addr _ (fun _ => rfl) ?_
      rw [t_item_updItem_same _ id (fun _ => rfl)]
      rcases hn with ⟨_, hfl⟩ | ⟨hw, _⟩
      · simp [has_doupdate, hfl, Flags.test, Flags.none] at h3
      · exact Or.inr ⟨hw, Or.inr (Or.inl rfl)⟩
    · refine FlagInv.verify_step (s := add_trans_size_offs (-1) { l := _, items := _ }) ?_ _
      refine FlagInv.offs_step (s := { l := _, items := _ }) ?_ (-1)
      refine ht.upd_node n.addr _ (fun _ => rfl) ?_
      rw [t_item_updItem_same _ id (fun _ => rfl)]
      rcases hn with ⟨hw, _⟩ | ⟨_, hfl | hfl | hfl⟩
      · simp [has_insert, TransItem.has_write, hw] at h4
      · left
        simp [TransItem.clear_flags, TransItem.remove_write, TransItem.remove_read, hfl,
          insert_bit, Flags.none]
      · simp [has_delete, hfl, Flags.test, delete_bit] at h2
      · simp [has_doupdate, hfl, Flags.test, doupdate_bit] at h3
    · refine FlagInv.offs_step ?_ (-1)
      refine FlagInv.lock_step (s := { l := s.l, items := _ }) ?_
      refine ht.upd_node n.addr _ (fun _ => rfl) ?_
      exact Or.inr ⟨rfl, Or.inr (Or.inl rfl)⟩

theorem step_flags {T : Type} (cfg : Config) {comp : T → T → Int} {l0 : ListState T}
    (op : Op T) {s : TxState T} (hinv : TxInv comp l0 s) (h : FlagInv s.items) :
    FlagInv (step cfg comp op s).2.items := by
  cases op with
  | transInsert elem => exact transInsert_flags cfg elem hinv h
  | transDelete elem => exact transDelete_flags cfg comp elem h
  | transFind elem => exact transFind_flags cfg comp elem h

theorem run_flags {T : Type} (cfg : Config) {comp : T → T → Int} {l0 : ListState T}
    (ops : List (Op T)) : ∀ {s : TxState T}, TxInv comp l0 s → FlagInv s.items →
    FlagInv (run cfg comp ops s).2.items := by
  induction ops with
  | nil => intro s _ h; exact h
  | cons op ops ih =>
    intro s hinv h
    have h1 := step_inv cfg hinv op
    have h2 := step_flags cfg op hinv h
    simp only [run]
    rcases hr : step cfg comp op s with ⟨r, s'⟩
    rw [hr] at h1 h2
    rcases r with _ | r
    · exact h2
    · exact ih h1 h2

/-- A node item in one of the four states has at most one flag set, and its
insert flag is set exactly when `has_insert` holds. -/
theorem NodeItemOk.exclusive {T : Type} {it : TransItem T} (h : NodeItemOk it) :
    ¬ (it.flags.test insert_bit = true ∧ has_delete it = true) ∧
    ¬ (it.flags.test insert_bit = true ∧ has_doupdate it = true) ∧
    ¬ (has_delete it = true ∧ has_doupdate it = true) ∧
    (it.flags.test insert_bit = true ↔ has_insert it = true) := by
  rcases h with ⟨hw, hfl⟩ | ⟨hw, hfl | hfl | hfl⟩ <;>
    simp [has_insert, has_delete, has_doupdate, TransItem.has_write, hw, hfl, Flags.test,
      Flags.none, insert_bit, delete_bit, doupdate_bit]

/-- Claim C23. In every configuration, for every well-formed list and every finite
sequence of `transInsert` / `transDelete` / `transFind` calls of one
transaction, every node item of the resulting item map has at most one of the
flags insert, delete, doupdate set, and its insert flag is set iff
`has_insert(item)` holds; hence `validityCheck` and `cleanup`, which test the
insert flag, decide as they would with `has_insert`. -/
theorem node_item_flags_exclusive {T : Type} (cfg : Config) (comp : T → T → Int)
    (l : ListState T) (hwf : l.wf) (ops : List (Op T)) (it : TransItem T)
    (hit : it ∈ (run cfg comp ops (TxState.start l)).2.items) (a : Nat)
    (hkey : it.key = Key.node a) :
    ¬ (it.flags.test insert_bit = true ∧ has_delete it = true) ∧
    ¬ (it.flags.test insert_bit = true ∧ has_doupdate it = true) ∧
    ¬ (has_delete it = true ∧ has_doupdate it = true) ∧
    (it.flags.test insert_bit = true ↔ has_insert it = true) ∧
    (∀ n : list_node T, validityCheck n it = (n.is_valid || has_insert it)) ∧
    (∀ l1 : ListState T,
      cleanup it false l1 = if has_insert it then (removeNode true a l1).2 else l1) := by
  have hinv : TxInv comp l (run cfg comp ops (TxState.start l)).2 :=
    run_inv cfg ops (TxInv.initial comp l hwf)
  have hflags : FlagInv (run cfg comp ops (TxState.start l)).2.items :=
    run_flags cfg ops (TxInv.initial comp l hwf) (fun _ => NodeItemOk.of_fresh _)
  have hok : NodeItemOk it := by
    have := hflags a
    rw [← hkey, t_item_of_mem _ hinv.keys_nodup it hit] at this
    exact this
  obtain ⟨h1, h2, h3, h4⟩ := hok.exclusive
  have h5 : it.flags.test insert_bit = has_insert it := by
    cases hx : it.flags.test insert_bit <;> cases hy : has_insert it <;> simp_all
  refine ⟨h1, h2, h3, h4, ?_, ?_⟩
  · intro n
    simp only [validityCheck, h5]
  · intro l1
    simp only [cleanup, h5, hkey, Bool.not_false, Bool.true_and]

/-- On `[1,3,5]` after `transInsert(2); transDelete(3); transInsert(3);
transInsert(4); transDelete(4)` the item of the node inserted for 2 (at the
address 5): an instance of claim C23. -/
theorem node_item_flags_exclusive_witness :
    ¬ ((⟨Key.node 5, false, true, insert_bit, none, none, none⟩ : TransItem Int).flags.test
        insert_bit = true ∧
      has_delete (⟨Key.node 5, false, true, insert_bit, none, none, none⟩ : TransItem Int)
        = true) ∧
    ¬ ((⟨Key.node 5, false, true, insert_bit, none, none, none⟩ : TransItem Int).flags.test
        insert_bit = true ∧
      has_doupdate (⟨Key.node 5, false, true, insert_bit, none, none, none⟩ : TransItem Int)
        = true) ∧
    ¬ (has_delete (⟨Key.node 5, false, true, insert_bit, none, none, none⟩ : TransItem Int)
        = true ∧
      has_doupdate (⟨Key.node 5, false, true, insert_bit, none, none, none⟩ : TransItem Int)
        = true) ∧
    ((⟨Key.node 5, false, true, insert_bit, none, none, none⟩ : TransItem Int).flags.test
        insert_bit = true ↔
      has_insert (⟨Key.node 5, false, true, insert_bit, none, none, none⟩ : TransItem Int)
        = true) ∧
    (∀ n : list_node Int,
      validityCheck n (⟨Key.node 5, false, true, insert_bit, none, none, none⟩ : TransItem Int) =
        (n.is_valid ||
          has_insert (⟨Key.node 5, false, true, insert_bit, none, none, none⟩ : TransItem Int))) ∧
    (∀ l1 : ListState Int,
      cleanup (⟨Key.node 5, false, true, insert_bit, none, none, none⟩ : TransItem Int) false l1 =
        if has_insert (⟨Key.node 5, false, true, insert_bit, none, none, none⟩ : TransItem Int)
        then (removeNode true 5 l1).2 else l1) :=
  node_item_flags_exclusive Config.default intCompare list135 list135_wf
    [Op.transInsert 2, Op.transDelete 3, Op.transInsert 3, Op.transInsert 4, Op.transDelete 4]
    ⟨Key.node 5, false, true, insert_bit, none, none, none⟩ (by decide) 5 rfl

/-! ## Verification: the size offset against the pending delta -/

theorem countContrib_sentinel {T : Type} (it : TransItem T) (hk : ∀ a, it.key ≠ Key.node a) :
    countContrib it = 0 := by
  unfold countContrib
  cases hkey : it.key with
  | node a => exact absurd hkey (hk a)
  | list_key => simp
  | size_key => simp

/-- An update of the list-key or size-key item does not change the pending delta. -/
theorem pendingDelta_sentinel {T : Type} (k : Key) (hk : ∀ a, k ≠ Key.node a)
    (f : TransItem T → TransItem T) (hf : ∀ it, (f it).key = it.key)
    (items : List (TransItem T)) : pendingDelta (updItem k f items) = pendingDelta items := by
  rw [pendingDelta_updItem,
    countContrib_sentinel (t_item k items) (by rw [t_item_key]; exact hk),
    countContrib_sentinel (f (t_item k items)) (by rw [hf, t_item_key]; exact hk)]
  omega

theorem pendingDelta_touch {T : Type} (k : Key) (items : List (TransItem T)) :
    pendingDelta (updItem k id items) = pendingDelta items := by
  rw [pendingDelta_updItem]; simp

theorem pendingDelta_verify_list {T : Type} (v : Nat) (s : TxState T) :
    pendingDelta (verify_list v s).items = pendingDelta s.items :=
  pendingDelta_sentinel Key.list_key (fun _ e => by cases e) _ (observe_key v) _

theorem pendingDelta_add_lock {T : Type} (s : TxState T) :
    pendingDelta (add_lock_list_item s).items = pendingDelta s.items :=
  pendingDelta_sentinel Key.list_key (fun _ e => by cases e) (TransItem.add_write none)
    (fun _ => rfl) _

theorem pendingDelta_add_offs {T : Type} (d : Int) (s : TxState T) :
    pendingDelta (add_trans_size_offs d s).items = pendingDelta s.items :=
  pendingDelta_sentinel Key.size_key (fun _ e => by cases e)
    (fun item => item.set_stash (toInt32 (item.stash_value 0 + d))) (fun _ => rfl) _

theorem transFind_delta {T : Type} (cfg : Config) (comp : T → T → Int) (elem : T)
    (s : TxState T) :
    pendingDelta (transFind cfg comp elem s).2.items = pendingDelta s.items := by
  unfold transFind
  simp only []
  cases hf : _find cfg comp elem s.l.head_ with
  | none => exact pendingDelta_verify_list _ _
  | some n =>
    simp only []
    split_ifs
    · exact pendingDelta_touch _ _
    · exact pendingDelta_touch _ _
    · rw [pendingDelta_updItem]
      have : countContrib (t_item (Key.node n.addr) s.items).add_read =
          countContrib (t_item (Key.node n.addr) s.items) := rfl
      rw [this]; omega

theorem transInsert_delta {T : Type} (cfg : Config) {comp : T → T → Int} {l0 : ListState T}
    (elem : T) {s : TxState T} (hinv : TxInv comp l0 s) (h : FlagInv s.items) :
    pendingDelta (transInsert cfg comp elem s).2.items =
      pendingDelta s.items + returnedTrue (transInsert cfg comp elem s).1 := by
  rcases _insert_txnal cfg comp elem s.l with ⟨cur, _, _, _, e⟩ | ⟨pre, post, _, e, _, _⟩
  · unfold transInsert
    simp only [e, Bool.not_false, if_true]
    split_ifs with h1 h2 h3 h4
    · simp [pendingDelta_touch, returnedTrue]
    · simp [pendingDelta_touch, returnedTrue]
    · simp [pendingDelta_touch, returnedTrue]
    · have hw : (t_item (Key.node cur.addr) s.items).write = true ∧
          (t_item (Key.node cur.addr) s.items).flags = delete_bit := by
        rcases h cur.addr with ⟨_, hfl⟩ | ⟨hw, hfl | hfl | hfl⟩
        · simp [has_delete, hfl, Flags.test, Flags.none] at h4
        · simp [has_delete, hfl, Flags.test, insert_bit, delete_bit] at h4
        · exact ⟨hw, hfl⟩
        · simp [has_delete, hfl, Flags.test, doupdate_bit, delete_bit] at h4
      simp only [returnedTrue]
      rw [pendingDelta_add_offs]
      simp only []
      rw [pendingDelta_updItem, pendingDelta_touch,
        t_item_updItem_same _ id (fun _ => rfl)]
      simp [countContrib, t_item_key, hw.1, hw.2, TransItem.assign_flags, TransItem.add_write,
        TransItem.clear_write, has_delete, has_doupdate, Flags.test, delete_bit, doupdate_bit]
    · simp only [returnedTrue]
      rw [pendingDelta_updItem, pendingDelta_touch,
        t_item_updItem_same _ id (fun _ => rfl)]
      have : countContrib (id (t_item (Key.node cur.addr) s.items)).add_read =
          countContrib (t_item (Key.node cur.addr) s.items) := rfl
      rw [this]; simp
  · unfold transInsert
    simp only [e, Bool.not_true, Bool.false_eq_true, if_false]
    have hfresh := hinv.unalloc s.l.heap_next (le_refl _)
    simp only [returnedTrue]
    rw [pendingDelta_updItem]
    simp only [add_lock_list_item, add_trans_size_offs]
    rw [t_item_updItem_ne (Key.node s.l.heap_next) Key.list_key (by simp)
        (TransItem.add_write none) (fun _ => rfl),
      t_item_updItem_ne (Key.node s.l.heap_next) Key.size_key (by simp)
        (fun item => TransItem.set_stash (toInt32 (item.stash_value 0 + 1)) item) (fun _ => rfl),
      t_item_updItem_same (Key.node s.l.heap_next) id (fun _ => rfl), hfresh,
      pendingDelta_sentinel Key.list_key (fun _ e => by cases e) (TransItem.add_write none)
        (fun _ => rfl),
      pendingDelta_sentinel Key.size_key (fun _ e => by cases e)
        (fun item => TransItem.set_stash (toInt32 (item.stash_value 0 + 1)) item) (fun _ => rfl),
      pendingDelta_touch]
    simp [countContrib, TransItem.fresh, TransItem.add_flags, TransItem.add_write, has_delete,
      has_doupdate, Flags.test, Flags.none, insert_bit, delete_bit, doupdate_bit]

theorem transDelete_delta {T : Type} (cfg : Config) (comp : T → T → Int) (elem : T)
    {s : TxState T} (h : FlagInv s.items) :
    pendingDelta (transDelete cfg comp elem s).2.items =
      pendingDelta s.items - returnedTrue (transDelete cfg comp elem s).1 := by
  unfold transDelete
  simp only []
  cases hf : _find cfg comp elem s.l.head_ with
  | none => simp [pendingDelta_verify_list, returnedTrue]
  | some n =>
    simp only []
    have hn := h n.addr
    split_ifs with h1 h2 h3 h4
    · simp [pendingDelta_touch, returnedTrue]
    · simp [pendingDelta_touch, returnedTrue]
    · have hw : (t_item (Key.node n.addr) s.items).write = true ∧
          (t_item (Key.node n.addr) s.items).flags = doupdate_bit := by
        rcases hn with ⟨_, hfl⟩ | ⟨hw, hfl | hfl | hfl⟩
        · simp [has_doupdate, hfl, Flags.test, Flags.none] at h3
        · simp [has_doupdate, hfl, Flags.test, insert_bit, doupdate_bit] at h3
        · simp [has_doupdate, hfl, Flags.test, delete_bit, doupdate_bit] at h3
        · exact ⟨hw, hfl⟩
      simp only [returnedTrue]
      rw [pendingDelta_add_offs]
      simp only []
      rw [pendingDelta_updItem, pendingDelta_touch,
        t_item_updItem_same _ id (fun _ => rfl)]
      simp [countContrib, t_item_key, hw.1, hw.2, TransItem.assign_flags, has_delete,
        has_doupdate, Flags.test, delete_bit, doupdate_bit]
      omega
    · have hw : (t_item (Key.node n.addr) s.items).write = true ∧
          (t_item (Key.node n.addr) s.items).flags = insert_bit := by
        rcases hn with ⟨hw, _⟩ | ⟨hw, hfl | hfl | hfl⟩
        · simp [has_insert, TransItem.has_write, hw] at h4
        · exact ⟨hw, hfl⟩
        · simp [has_delete, hfl, Flags.test, delete_bit] at h2
        · simp [has_doupdate, hfl, Flags.test, doupdate_bit] at h3
      simp only [returnedTrue]
      rw [pendingDelta_verify_list, pendingDelta_add_offs]
      simp only []
      rw [pendingDelta_updItem, pendingDelta_touch,
        t_item_updItem_same _ id (fun _ => rfl)]
      simp [countContrib, t_item_key, hw.1, hw.2, TransItem.clear_flags, TransItem.remove_write,
        TransItem.remove_read, has_delete, has_doupdate, Flags.test, delete_bit, doupdate_bit,
        insert_bit]
    · have hw : (t_item (Key.node n.addr) s.items).write = false := by
        rcases hn with ⟨hw, _⟩ | ⟨hw, hfl | hfl | hfl⟩
        · exact hw
        · simp [has_insert, has_delete, has_doupdate, TransItem.has_write, hw, hfl, Flags.test,
            insert_bit, delete_bit, doupdate_bit] at h4
        · simp [has_delete, hfl, Flags.test, delete_bit] at h2
        · simp [has_doupdate, hfl, Flags.test, doupdate_bit] at h3
      simp only [returnedTrue]
      rw [pendingDelta_add_offs, pendingDelta_add_lock]
      simp only []
      rw [pendingDelta_updItem, pendingDelta_touch,
        t_item_updItem_same _ id (fun _ => rfl)]
      simp [countContrib, t_item_key, hw, TransItem.assign_flags, TransItem.add_write,
        TransItem.add_read, has_delete, Flags.test, delete_bit]
      omega

/-- Along a run that starts on a well-formed list the pending delta of the item
map, what a commit adds to `count`, is the number of `transInsert` calls that
returned true minus the number of `transDelete` calls that returned true, in
every configuration. -/
theorem run_delta {T : Type} (cfg : Config) {comp : T → T → Int} {l0 : ListState T}
    (ops : List (Op T)) : ∀ {s : TxState T}, TxInv comp l0 s → FlagInv s.items →
    pendingDelta (run cfg comp ops s).2.items =
      pendingDelta s.items + insertsReturnedTrue ops (run cfg comp ops s).1
        - deletesReturnedTrue ops (run cfg comp ops s).1 := by
  induction ops with
  | nil => intro s _ _; simp [run, insertsReturnedTrue, deletesReturnedTrue]
  | cons op ops ih =>
    intro s hinv h
    have h1 := step_inv cfg hinv op
    have h2 := step_flags cfg op hinv h
    cases op with
    | transInsert elem =>
      have hd := transInsert_delta cfg elem hinv h
      simp only [step] at h1 h2
      rcases hr : transInsert cfg comp elem s with ⟨r, s'⟩
      rw [hr] at hd h1 h2
      rcases r with _ | b
      · simpa [run, step, hr, insertsReturnedTrue, deletesReturnedTrue, returnedTrue] using hd
      · have ih' := ih h1 h2
        rcases b with _ | _ <;>
          simp only [run, step, hr, insertsReturnedTrue, deletesReturnedTrue, returnedTrue,
            Option.map_some'] at hd ⊢ <;>
          rw [ih', hd] <;>
          push_cast <;>
          omega
    | transDelete elem =>
      have hd := transDelete_delta cfg comp elem h
      simp only [step] at h1 h2
      rcases hr : transDelete cfg comp elem s with ⟨r, s'⟩
      rw [hr] at hd h1 h2
      rcases r with _ | b
      · simpa [run, step, hr, insertsReturnedTrue, deletesReturnedTrue, returnedTrue] using hd
      · have ih' := ih h1 h2
        rcases b with _ | _ <;>
          simp only [run, step, hr, insertsReturnedTrue, deletesReturnedTrue, returnedTrue,
            Option.map_some'] at hd ⊢ <;>
          rw [ih', hd] <;>
          push_cast <;>
          omega
    | transFind elem =>
      have hd := transFind_delta cfg comp elem s
      simp only [step] at h1 h2
      rcases hr : transFind cfg comp elem s with ⟨r, s'⟩
      rw [hr] at hd h1 h2
      rcases r with _ | b
      · simpa [run, step, hr, insertsReturnedTrue, deletesReturnedTrue] using hd
      · have ih' := ih h1 h2
        simp only [run, step, hr, insertsReturnedTrue, deletesReturnedTrue,
          Option.map_some'] at hd ⊢
        rw [ih', hd]

/-! ## Verification: a transaction of 2^31 inserts -/

/-- Spec side: inserting increasing values above everything in the set succeeds
every time. -/
theorem spec_insertsFrom : ∀ (n a : Nat) (S : List Int), (∀ x ∈ S, x < (a : Int)) →
    (SetSpec.run intCompare (insertsFrom a n) S).1 = List.replicate n true
  | 0, _, _, _ => rfl
  | n + 1, a, S, hS => by
    have hm : SetSpec.mem intCompare S (a : Int) = false := by
      unfold SetSpec.mem
      rw [List.any_eq_false]
      intro x hx
      have := hS x hx
      simp [intCompare, DefaultCompare, this]
    have ih := spec_insertsFrom n (a + 1) ((a : Int) :: S) (by
      intro x hx
      rcases List.mem_cons.mp hx with rfl | hx'
      · push_cast; omega
      · have := hS x hx'; push_cast; omega)
    simp only [insertsFrom, SetSpec.run, SetSpec.step, hm, Bool.false_eq_true, if_false, ih,
      List.replicate_succ]

/-- A run of `transInsert` calls whose results all read true as booleans returned
`true` from every call. -/
theorem run_insertsFrom_results (cfg : Config) (comp : Int → Int → Int) :
    ∀ (n a : Nat) (s : TxState Int),
      (run cfg comp (insertsFrom a n) s).1.map (Option.map Ret.toBool) =
        (List.replicate n true).map some →
      (run cfg comp (insertsFrom a n) s).1 = List.replicate n (some (Ret.bool true))
  | 0, _, _, _ => rfl
  | n + 1, a, s, h => by
    rcases hr : transInsert cfg comp (a : Int) s with ⟨r, s'⟩
    simp only [insertsFrom, run, step, hr] at h ⊢
    rcases r with _ | b
    · simp [List.replicate_succ] at h
    · simp only [Option.map_some', List.map_cons, List.replicate_succ, List.cons.injEq,
        Option.map_some', Ret.toBool, Option.some.injEq] at h ⊢
      obtain ⟨hb, hrest⟩ := h
      subst hb
      exact ⟨rfl, run_insertsFrom_results cfg comp n (a + 1) s' hrest⟩

theorem insertsFrom_counts : ∀ (n a : Nat),
    insertsReturnedTrue (insertsFrom a n) (List.replicate n (some (Ret.bool true))) = n ∧
    deletesReturnedTrue (insertsFrom a n) (List.replicate n (some (Ret.bool true))) = 0
  | 0, _ => ⟨rfl, rfl⟩
  | n + 1, a => by
    obtain ⟨h1, h2⟩ := insertsFrom_counts n (a + 1)
    simp only [insertsFrom, List.replicate_succ, insertsReturnedTrue, deletesReturnedTrue, h1, h2]
    exact ⟨trivial, trivial⟩

theorem size_eq {T : Type} (s : TxState T) :
    (size s).1 = toSizeT (s.l.listsize_ + trans_size_offs s) := by
  simp only [size, offs_verify_list]
  rfl

/-- A transaction of `n` inserts of increasing values above every value of a
sorted duplicate-free valid list (`Sorted = yes`, `Duplicates = forbid`): every
call returns true, `listsize_` is untouched, the pending delta is `n`, and the
stashed offset is the `int` value of `n`. -/
theorem run_insertsFrom (cfg : Config) (hS : cfg.Sorted = true) (hD : cfg.Duplicates = false)
    (l : ListState Int) (hwf : l.wf) (hs : SortedBy intCompare l.head_)
    (hd : DupFree intCompare l.head_) (hv : ∀ n ∈ l.head_, n.invalid = false)
    (a : Nat) (ha : ∀ m ∈ l.head_, m.val < (a : Int)) (n : Nat) :
    (run cfg intCompare (insertsFrom a n) (TxState.start l)).1 =
      List.replicate n (some (Ret.bool true)) ∧
    (run cfg intCompare (insertsFrom a n) (TxState.start l)).2.l.listsize_ = l.listsize_ ∧
    pendingDelta (run cfg intCompare (insertsFrom a n) (TxState.start l)).2.items = n ∧
    trans_size_offs (run cfg intCompare (insertsFrom a n) (TxState.start l)).2 = toInt32 n := by
  have href := (run_refines cfg hS hD intCompare_lawful hv (insertsFrom a n)
    (SetInv.initially intCompare_lawful l hwf hs hd)).1
  rw [spec_insertsFrom n a _ (by
    intro x hx
    obtain ⟨m, hm, rfl⟩ := List.mem_map.mp hx
    exact ha m hm)] at href
  have hres := run_insertsFrom_results cfg intCompare n a _ href
  obtain ⟨hc1, hc2⟩ := insertsFrom_counts n a
  obtain ⟨hl, hoffs⟩ := run_size cfg intCompare (insertsFrom a n) (TxState.start l)
  have hdelta := run_delta cfg (insertsFrom a n) (TxInv.initial intCompare l hwf)
    (fun _ => NodeItemOk.of_fresh _)
  rw [hres, hc1, hc2] at hoffs hdelta
  refine ⟨hres, hl, ?_, ?_⟩
  · rw [hdelta]
    simp [TxState.start, pendingDelta]
  · rw [hoffs]
    simp [trans_size_offs, TxState.start, t_item, check_item, TransItem.fresh,
      TransItem.stash_value]

theorem list135_below_ten : ∀ m ∈ list135.head_, m.val < ((10 : Nat) : Int) := by
  intro m hm
  simp only [list135, List.mem_cons, List.mem_singleton, List.not_mem_nil, or_false] at hm
  rcases hm with rfl | rfl | rfl <;> decide

/-- Counterexample to claim C8 as stated. On `[1,3,5]` (`count = 3`) under the default
configuration, a transaction that calls `transInsert(10)`, `transInsert(11)`, ...,
2^31 calls in all: every call returns true, no `transDelete` is made, `count` is
still 3, and `size()` returns 2^64 - 2^31 + 3 = 18446744071562067971, not
3 + 2^31: the `int` that holds the size delta has wrapped to -2^31. -/
theorem size_wraps_past_int_range :
    (run Config.default intCompare (insertsFrom 10 2147483648) (TxState.start list135)).1 =
      List.replicate 2147483648 (some (Ret.bool true)) ∧
    insertsReturnedTrue (insertsFrom 10 2147483648)
      (run Config.default intCompare (insertsFrom 10 2147483648) (TxState.start list135)).1
      = 2147483648 ∧
    deletesReturnedTrue (insertsFrom 10 2147483648)
      (run Config.default intCompare (insertsFrom 10 2147483648) (TxState.start list135)).1
      = 0 ∧
    (run Config.default intCompare (insertsFrom 10 2147483648)
      (TxState.start list135)).2.l.listsize_ = 3 ∧
    trans_size_offs (run Config.default intCompare (insertsFrom 10 2147483648)
      (TxState.start list135)).2 = -2147483648 ∧
    (size (run Config.default intCompare (insertsFrom 10 2147483648)
      (TxState.start list135)).2).1 = 18446744071562067971 ∧
    ((size (run Config.default intCompare (insertsFrom 10 2147483648)
      (TxState.start list135)).2).1 : Int) ≠ 3 + 2147483648 - 0 := by
  obtain ⟨h1, h2, _, h4⟩ := run_insertsFrom Config.default rfl rfl list135 list135_wf
    list135_sorted list135_dupFree list135_valid 10 list135_below_ten 2147483648
  obtain ⟨hc1, hc2⟩ := insertsFrom_counts 2147483648 10
  have hoffs : toInt32 ((2147483648 : Nat) : Int) = -2147483648 := by
    unfold toInt32; norm_num
  have hl : list135.listsize_ = 3 := rfl
  have hsize : (size (run Config.default intCompare (insertsFrom 10 2147483648)
      (TxState.start list135)).2).1 = 18446744071562067971 := by
    rw [size_eq, h2, h4, hoffs, hl]
    unfold toSizeT
    norm_num
    rfl
  refine ⟨h1, ?_, ?_, ?_, ?_, hsize, ?_⟩
  · rw [h1]; exact hc1
  · rw [h1]; exact hc2
  · rw [h2]; rfl
  · rw [h4]; exact hoffs
  · rw [hsize]; norm_num

/-- Counterexample to claim C9 as stated. On `[1,3,5]` (sorted, duplicate-free, all
valid, `count = 3`) with `Sorted = yes`, `Duplicates = forbid`, `Opacity = yes`, a
transaction that calls `transInsert(10)`, `transInsert(11)`, ..., 2^31 calls in
all, gets true from every call; just before the commit `size()` returns
2^64 - 2^31 + 3 = 18446744071562067971; the commit completes with
`count` = number of nodes = 3 + 2^31 = 2147483651, which is not what `size()`
returned. -/
theorem commit_count_differs_from_size :
    list135.listsize_ = list135.head_.length ∧
    (run cfgOpaque intCompare (insertsFrom 10 2147483648) (TxState.start list135)).1 =
      List.replicate 2147483648 (some (Ret.bool true)) ∧
    (size (run cfgOpaque intCompare (insertsFrom 10 2147483648)
      (TxState.start list135)).2).1 = 18446744071562067971 ∧
    ∃ l', commitInstall cfgOpaque 7
        (run cfgOpaque intCompare (insertsFrom 10 2147483648) (TxState.start list135)).2.items
        (run cfgOpaque intCompare (insertsFrom 10 2147483648) (TxState.start list135)).2.l
        = some l' ∧
      l'.listsize_ = 2147483651 ∧
      l'.head_.length = 2147483651 ∧
      (size (run cfgOpaque intCompare (insertsFrom 10 2147483648)
        (TxState.start list135)).2).1 ≠ l'.head_.length := by
  obtain ⟨h1, h2, h3, h4⟩ := run_insertsFrom cfgOpaque rfl rfl list135 list135_wf
    list135_sorted list135_dupFree list135_valid 10 list135_below_ten 2147483648
  obtain ⟨h, l', e, hview, hsz⟩ := commit_view cfgOpaque rfl rfl rfl intCompare
    intCompare_lawful list135 list135_wf list135_sorted list135_dupFree list135_valid
    (insertsFrom 10 2147483648) 7 _ (List.Perm.refl _)
  have hoffs : toInt32 ((2147483648 : Nat) : Int) = -2147483648 := by
    unfold toInt32; norm_num
  have hl : list135.listsize_ = 3 := rfl
  have hlen0 : ((list135.head_.length : Nat) : Int) = 3 := rfl
  have hsize : (size (run cfgOpaque intCompare (insertsFrom 10 2147483648)
      (TxState.start list135)).2).1 = 18446744071562067971 := by
    rw [size_eq, h2, h4, hoffs, hl]
    unfold toSizeT
    norm_num
    rfl
  have hcnt := h.cnt
  rw [← hview, h3, hlen0] at hcnt
  have hlen : l'.head_.length = 2147483651 := by
    have : ((l'.head_.length : Nat) : Int) = 2147483651 := by rw [← hcnt]; norm_num
    exact_mod_cast this
  refine ⟨rfl, h1, hsize, l', e, ?_, hlen, ?_⟩
  · rw [hsz, h3, hl]; norm_num
  · rw [hsize, hlen]; norm_num

end STOList
